import Mathlib

/-!
# bin-bundler (`src/bundler.js`): a shallow embedding

The bundler scans HTML documents for asset references, minifies every referenced
asset once, writes it under a content-hash name, deletes the original and rewrites
the references in the HTML.

The embedding follows the script top to bottom:

* JavaScript strings are lists of characters (`Str`);
* regular expressions are an abstract syntax tree run by a backtracking matcher
  that follows the ECMAScript pattern semantics (greedy quantifiers, captures,
  the `i` and `g` flags); `String.prototype.replace` and `matchAll` are built on it;
* `node:path` is the POSIX flavour (`join`, `normalize`, `dirname`, `basename`,
  `extname`);
* plain objects (`changes[kind]`, `htmlFiles`) keep their own properties in creation
  order and inherit from `Object.prototype`; the key `__proto__` is the accessor of
  `Object.prototype`, so assigning an array to it replaces the prototype of the object
  instead of creating a property;
* the file system, the minifiers, gzip and md5 are explicit parameters; every
  effect of the run is appended to a log.
-/

namespace Bundler

/-! ## Strings and characters -/

/-- A JavaScript string. -/
abbrev Str := List Char

/-- The double quote character. -/
def dq : Char := Char.ofNat 34

/-- The backslash character. -/
def bslash : Char := Char.ofNat 92

/-- The dollar character. -/
def dollar : Char := Char.ofNat 36

/-- The class escape `\w`: ASCII letters, digits and underscore. -/
def isWordChar (c : Char) : Bool :=
  ('a' ≤ c && c ≤ 'z') || ('A' ≤ c && c ≤ 'Z') || ('0' ≤ c && c ≤ '9') || c == '_'

/-- Decimal digits. -/
def isDigit (c : Char) : Bool := '0' ≤ c && c ≤ '9'

/-- Line terminators, which `.` does not match (no `s` flag is used). -/
def isLineTerminator (c : Char) : Bool :=
  c == '\n' || c == '\r' || c == Char.ofNat 0x2028 || c == Char.ofNat 0x2029

/-- Canonicalize of the pattern semantics without the `u` flag: with `ignoreCase`
the character is upper-cased. Every pattern compiled with the `i` flag in the
script is ASCII, and a non-ASCII character never canonicalizes to an ASCII one,
so upper-casing the ASCII letters and keeping the rest decides the same matches. -/
def canonicalize (ignoreCase : Bool) (c : Char) : Char :=
  if ignoreCase && 'a' ≤ c && c ≤ 'z' then Char.ofNat (c.toNat - 32) else c

/-! ## Regular expressions -/

/-- Members of a character class. -/
inductive ClassItem where
  | ch (c : Char)
  | word
  deriving DecidableEq, Repr

/-- Whether the character `x` belongs to a class member. -/
def ClassItem.test (ic : Bool) (x : Char) : ClassItem → Bool
  | .ch c => canonicalize ic x == canonicalize ic c
  | .word => isWordChar x

/-- Pattern syntax: the fragment of ECMAScript patterns the script uses. -/
inductive RegEx where
  | empty
  | char (c : Char)
  | dot
  | cls (items : List ClassItem)
  | bol
  | seq (a b : RegEx)
  | alt (a b : RegEx)
  | star (a : RegEx)
  | group (n : Nat) (a : RegEx)
  deriving Repr

/-- Matcher state: the index reached, the input left, the captures so far. -/
structure MState where
  pos : Nat
  rest : Str
  caps : List (Option Str)
  deriving DecidableEq, Repr

/-- A matcher continuation. -/
abbrev MCont := MState → Option MState

/-- RepeatMatcher for a greedy `*`: try one more iteration (which must consume
input), and fall back to the continuation. The counter bounds the iterations by
the length of the input left. -/
def repeatMatcher (m : MState → MCont → Option MState) (k : MCont) : Nat → MState → Option MState
  | 0, s => k s
  | n + 1, s =>
    match m s (fun s' => if s'.pos = s.pos then none else repeatMatcher m k n s') with
    | some r => some r
    | none => k s

/-- The backtracking matcher of a pattern, in continuation-passing style. -/
def RegEx.m (ic : Bool) : RegEx → MState → MCont → Option MState
  | .empty, s, k => k s
  | .char c, s, k =>
    match s.rest with
    | [] => none
    | x :: xs => if canonicalize ic x = canonicalize ic c then k ⟨s.pos + 1, xs, s.caps⟩ else none
  | .dot, s, k =>
    match s.rest with
    | [] => none
    | x :: xs => if isLineTerminator x then none else k ⟨s.pos + 1, xs, s.caps⟩
  | .cls items, s, k =>
    match s.rest with
    | [] => none
    | x :: xs => if items.any (ClassItem.test ic x) then k ⟨s.pos + 1, xs, s.caps⟩ else none
  | .bol, s, k => if s.pos = 0 then k s else none
  | .seq a b, s, k => a.m ic s (fun s' => b.m ic s' k)
  | .alt a b, s, k =>
    match a.m ic s k with
    | some r => some r
    | none => b.m ic s k
  | .star a, s, k => repeatMatcher (a.m ic) k s.rest.length s
  | .group n a, s, k =>
    a.m ic s (fun s' => k ⟨s'.pos, s'.rest, s'.caps.set (n - 1) (some (s.rest.take (s'.pos - s.pos)))⟩)

/-- Number of capture groups of a pattern. -/
def RegEx.nGroups : RegEx → Nat
  | .seq a b => a.nGroups + b.nGroups
  | .alt a b => a.nGroups + b.nGroups
  | .star a => a.nGroups
  | .group _ a => a.nGroups + 1
  | _ => 0

/-- A sequence of pattern characters. -/
def RegEx.lit : Str → RegEx
  | [] => .empty
  | c :: cs => .seq (.char c) (RegEx.lit cs)

/-- The quantifier `+`. -/
def RegEx.plus (a : RegEx) : RegEx := .seq a (.star a)

/-- The quantifier `?`. -/
def RegEx.opt (a : RegEx) : RegEx := .alt a .empty

/-- Sequence of several patterns. -/
def RegEx.seqs : List RegEx → RegEx
  | [] => .empty
  | [a] => a
  | a :: as => .seq a (RegEx.seqs as)

/-- A compiled regular expression with its flags. -/
structure JSRegExp where
  re : RegEx
  ignoreCase : Bool
  global : Bool

/-- One attempt to match at a given index, all captures undefined at the start. -/
def matchHere (r : JSRegExp) (pos : Nat) (rest : Str) : Option MState :=
  r.re.m r.ignoreCase ⟨pos, rest, List.replicate r.re.nGroups none⟩ some

/-- A match: its index, the matched text and the captures. -/
structure MatchResult where
  index : Nat
  matched : Str
  caps : List (Option Str)
  deriving DecidableEq, Repr

/-- The loop of `matchAll` for a global expression: the leftmost match from the
current index, then on from its end (one further after an empty match). -/
def matchAllGo (r : JSRegExp) : Nat → Nat → Str → List MatchResult
  | 0, _, _ => []
  | fuel + 1, pos, rest =>
    match matchHere r pos rest with
    | some st =>
      let res : MatchResult := ⟨pos, rest.take (st.pos - pos), st.caps⟩
      if st.pos = pos then
        match rest with
        | [] => [res]
        | _ :: cs => res :: matchAllGo r fuel (pos + 1) cs
      else res :: matchAllGo r fuel st.pos st.rest
    | none =>
      match rest with
      | [] => []
      | _ :: cs => matchAllGo r fuel (pos + 1) cs

/-- The matches `s.matchAll(r)` yields, in order. -/
def matchAll (s : Str) (r : JSRegExp) : List MatchResult :=
  matchAllGo r (s.length + 1) 0 s

/-- The capture a `$n` of a replacement template stands for. -/
def captureText (caps : List (Option Str)) (n : Nat) : Str :=
  match caps.get? (n - 1) with
  | some (some c) => c
  | _ => []

/-- Value of a decimal digit. -/
def digitVal (c : Char) : Nat := c.toNat - 48

/-- The replacement for the template text after a `$`, and how many characters
after the `$` it uses: `$$`, `$&`, the prefix and suffix patterns, `$n` and `$nn`
(a two-digit index beyond the captures falls back to one digit); anything else
leaves the `$` as it is. -/
def refReplacement (matched before after : Str) (caps : List (Option Str)) (t : Str) : Str × Nat :=
  match t with
  | [] => ([dollar], 0)
  | d :: t' =>
    if d = dollar then ([dollar], 1)
    else if d = '&' then (matched, 1)
    else if d = Char.ofNat 96 then (before, 1)
    else if d = Char.ofNat 39 then (after, 1)
    else if isDigit d then
      let one : Str × Nat :=
        if 1 ≤ digitVal d ∧ digitVal d ≤ caps.length then (captureText caps (digitVal d), 1)
        else ([dollar, d], 1)
      match t' with
      | [] => one
      | e :: _ =>
        if isDigit e ∧ digitVal d * 10 + digitVal e ≤ caps.length then
          if 1 ≤ digitVal d * 10 + digitVal e then
            (captureText caps (digitVal d * 10 + digitVal e), 2)
          else ([dollar, d, e], 2)
        else one
    else ([dollar], 0)

/-- GetSubstitution, reading the template from left to right; `skip` counts the
characters already used by a `$` pattern. -/
def getSubstitutionGo (matched before after : Str) (caps : List (Option Str)) : Nat → Str → Str
  | _, [] => []
  | skip + 1, _ :: t => getSubstitutionGo matched before after caps skip t
  | 0, c :: t =>
    if c = dollar then
      (refReplacement matched before after caps t).1
        ++ getSubstitutionGo matched before after caps (refReplacement matched before after caps t).2 t
    else c :: getSubstitutionGo matched before after caps 0 t

/-- GetSubstitution: the replacement text for one match. -/
def getSubstitution (matched before after : Str) (caps : List (Option Str)) (template : Str) : Str :=
  getSubstitutionGo matched before after caps 0 template

/-- The loop of `replace` for a global expression: every match found from left
to right is replaced by the expanded template, the text between matches is kept. -/
def replaceAllGo (r : JSRegExp) (template input : Str) : Nat → Nat → Str → Str
  | 0, _, rest => rest
  | fuel + 1, pos, rest =>
    match matchHere r pos rest with
    | some st =>
      let sub := getSubstitution (rest.take (st.pos - pos)) (input.take pos) st.rest st.caps template
      if st.pos = pos then
        match rest with
        | [] => sub
        | c :: cs => sub ++ c :: replaceAllGo r template input fuel (pos + 1) cs
      else sub ++ replaceAllGo r template input fuel st.pos st.rest
    | none =>
      match rest with
      | [] => []
      | c :: cs => c :: replaceAllGo r template input fuel (pos + 1) cs

/-- The loop of `replace` for an expression without the `g` flag: only the
leftmost match is replaced. -/
def replaceFirstGo (r : JSRegExp) (template input : Str) : Nat → Str → Str
  | pos, [] =>
    match matchHere r pos [] with
    | some st => getSubstitution [] (input.take pos) st.rest st.caps template ++ st.rest
    | none => []
  | pos, c :: cs =>
    match matchHere r pos (c :: cs) with
    | some st =>
      getSubstitution ((c :: cs).take (st.pos - pos)) (input.take pos) st.rest st.caps template
        ++ st.rest
    | none => c :: replaceFirstGo r template input (pos + 1) cs

/-- The call `s.replace(r, template)` with a string template. -/
def replace (s : Str) (r : JSRegExp) (template : Str) : Str :=
  if r.global then replaceAllGo r template s (s.length + 1) 0 s
  else replaceFirstGo r template s 0 s

/-- SyntaxCharacter of the pattern grammar. -/
def syntaxChars : Str := "^$\\.*+?()[]\x7b\x7d|".toList

/-- The pattern parser of `new RegExp(source)`, for the sources the script builds:
pattern characters, `.`, `^`, and a backslash followed by a syntax character or a
slash. Any other source is outside the fragment (`none`). `esc` tells that the
previous character was an unescaped backslash. -/
def parsePatternGo : Bool → Str → Option RegEx
  | false, [] => some .empty
  | true, [] => none
  | true, e :: t =>
    if e ∈ syntaxChars ∨ e = '/' then (parsePatternGo false t).map (RegEx.seq (.char e)) else none
  | false, c :: t =>
    if c = bslash then parsePatternGo true t
    else if c = '^' then (parsePatternGo false t).map (RegEx.seq .bol)
    else if c = '.' then (parsePatternGo false t).map (RegEx.seq .dot)
    else if c ∈ syntaxChars then none
    else (parsePatternGo false t).map (RegEx.seq (.char c))

/-- The pattern of `new RegExp(source)`. -/
def parsePattern (source : Str) : Option RegEx := parsePatternGo false source

/-! ## `node:path`, POSIX flavour, and `slash` -/

/-- Splits a path at every `/`. -/
def splitSlash : Str → List Str
  | [] => [[]]
  | c :: cs =>
    if c = '/' then [] :: splitSlash cs
    else
      match splitSlash cs with
      | [] => [[c]]
      | seg :: segs => (c :: seg) :: segs

/-- Joins segments with `/`. -/
def joinSlash : List Str → Str
  | [] => []
  | [s] => s
  | s :: t => s ++ '/' :: joinSlash t

/-- One step of `normalizeString`: the segments kept so far (last one first) and
the next segment. Empty segments and `.` are skipped; `..` removes the last
segment kept, unless there is none or it is `..`, where it is kept when the
path is relative and dropped when it is absolute. -/
def normStep (allowAboveRoot : Bool) (res : List Str) (seg : Str) : List Str :=
  if seg = [] ∨ seg = ['.'] then res
  else if seg = ['.', '.'] then
    match res with
    | [] => if allowAboveRoot then [seg] else []
    | top :: below =>
      if top = ['.', '.'] then (if allowAboveRoot then seg :: res else res) else below
  else seg :: res

/-- The helper `normalizeString` of `node:path`. -/
def normalizeString (path : Str) (allowAboveRoot : Bool) : Str :=
  joinSlash ((splitSlash path).foldl (normStep allowAboveRoot) []).reverse

/-- The function `path.normalize`. -/
def normalize (path : Str) : Str :=
  if path = [] then ['.']
  else
    let isAbsolute := path.head? = some '/'
    let trailingSeparator := path.getLast? = some '/'
    let res := normalizeString path (!isAbsolute)
    if res = [] then
      if isAbsolute then ['/'] else if trailingSeparator then ['.', '/'] else ['.']
    else
      (if isAbsolute then ['/'] else []) ++ res ++ (if trailingSeparator then ['/'] else [])

/-- The function `path.join` with two arguments: the non-empty ones are joined
with `/` and normalized. -/
def join (a b : Str) : Str :=
  if a = [] then (if b = [] then ['.'] else normalize b)
  else if b = [] then normalize a
  else normalize (a ++ '/' :: b)

/-- The function `path.dirname`: trailing slashes and the last segment are
dropped, looking no further left than index 1. -/
def dirname (path : Str) : Str :=
  match path with
  | [] => ['.']
  | c :: t =>
    let u := ((t.reverse.dropWhile (fun x => x == '/')).dropWhile (fun x => x != '/'))
    if u = [] then (if c = '/' then ['/'] else ['.'])
    else if c = '/' ∧ u.length = 1 then ['/', '/']
    else (c :: t).take u.length

/-- The function `path.basename` (no suffix argument): the last segment, trailing
slashes ignored. -/
def basename (path : Str) : Str :=
  ((path.reverse.dropWhile (fun x => x == '/')).takeWhile (fun x => x != '/')).reverse

/-- The function `path.extname`: from the last `.` of the last segment to its
end; empty when there is no `.`, when the `.` starts the segment, and for `..`. -/
def extname (path : Str) : Str :=
  let rb := (path.reverse.dropWhile (fun x => x == '/')).takeWhile (fun x => x != '/')
  if '.' ∉ rb then []
  else if ((rb.dropWhile (fun x => x != '.')).drop 1) = [] then []
  else if rb = ['.', '.'] then []
  else '.' :: (rb.takeWhile (fun x => x != '.')).reverse

/-- The package `slash`: a path that starts with the extended-length marker is
returned as it is, otherwise every backslash becomes a forward slash. -/
def slash (path : Str) : Str :=
  if [bslash, bslash, '?', bslash].isPrefixOf path then path
  else path.map (fun c => if c = bslash then '/' else c)

/-! ## Plain objects -/

/-- A plain object: its own properties in creation order. Its prototype is
`Object.prototype`. -/
structure JSObj (α : Type) where
  own : List (Str × α)
  deriving DecidableEq, Repr

/-- The property names every plain object inherits from `Object.prototype`. -/
def objectPrototypeKeys : List Str :=
  ["constructor".toList, "__defineGetter__".toList, "__defineSetter__".toList,
   "hasOwnProperty".toList, "__lookupGetter__".toList, "__lookupSetter__".toList,
   "isPrototypeOf".toList, "propertyIsEnumerable".toList, "toString".toList,
   "valueOf".toList, "__proto__".toList, "toLocaleString".toList]

namespace JSObj

variable {α : Type}

/-- The object literal `{}`. -/
def empty : JSObj α := ⟨[]⟩

/-- Whether `k` is an own property. -/
def hasOwn (o : JSObj α) (k : Str) : Bool := o.own.any (fun e => e.1 == k)

/-- The operator `k in o`: own properties and those of the prototype chain. -/
def has (o : JSObj α) (k : Str) : Bool := o.hasOwn k || objectPrototypeKeys.contains k

/-- The value of the own property `k`. -/
def get? (o : JSObj α) (k : Str) : Option α := (o.own.find? (fun e => e.1 == k)).map (fun e => e.2)

/-- The own properties after the assignment `o[k] = v` of an array `v`: the key
`__proto__` reaches the accessor of `Object.prototype` and creates no own property
(what it does to the prototype is kept by `HtmlFiles`; line 64 never assigns it, the
key being `in` every object); for any other key an existing own property is updated
in place and a new one is created last. -/
def set (o : JSObj α) (k : Str) (v : α) : JSObj α :=
  if k = "__proto__".toList then o
  else if o.hasOwn k then ⟨o.own.map (fun e => if e.1 == k then (k, v) else e)⟩
  else ⟨o.own ++ [(k, v)]⟩

/-- A change made in place to the array held by the own property `k`
(`o[k].push(x)`, `o[k][0] = x`); no property is created. -/
def modify (o : JSObj α) (k : Str) (f : α → α) : JSObj α :=
  ⟨o.own.map (fun e => if e.1 == k then (e.1, f e.2) else e)⟩

/-- An array index: the canonical decimal form of an integer below `2^32 - 1`. -/
def arrayIndex? (k : Str) : Option Nat :=
  if k = [] ∨ ¬ k.all isDigit = true ∨ (k.head? = some '0' ∧ 1 < k.length) then none
  else
    let n := k.foldl (fun acc c => acc * 10 + digitVal c) 0
    if n < 4294967295 then some n else none

/-- The keys a `for ... in` loop visits: array indices in ascending order, then
the other keys in creation order (`Object.prototype` has no enumerable property). -/
def keys (o : JSObj α) : List Str :=
  ((o.own.map (fun e => e.1)).filter (fun k => (arrayIndex? k).isSome)).insertionSort
      (fun a b => (arrayIndex? a).getD 0 ≤ (arrayIndex? b).getD 0)
    ++ (o.own.map (fun e => e.1)).filter (fun k => !(arrayIndex? k).isSome)

end JSObj

/-- Line 46: the object `htmlFiles`, whose values are the arrays `[file, changed]`.
Its own properties are the documents read so far, except a document named
`__proto__`: the assignment of line 53 then calls the accessor of `Object.prototype`,
which makes the array the prototype of `htmlFiles` (`proto`; `none` while the
prototype is `Object.prototype`). -/
structure HtmlFiles where
  own : JSObj (Str × Bool)
  proto : Option (Str × Bool)
  deriving DecidableEq, Repr

namespace HtmlFiles

/-- The object literal `{}`. -/
def empty : HtmlFiles := ⟨.empty, none⟩

/-- Line 53: `htmlFiles[path] = v`. -/
def assign (h : HtmlFiles) (path : Str) (v : Str × Bool) : HtmlFiles :=
  if path = "__proto__".toList then { h with proto := some v }
  else { h with own := h.own.set path v }

/-- The array `htmlFiles[path]` of lines 97 and 99: the value of the own property, and
for `__proto__` what the accessor returns, the array that was made the prototype.
Any other value (a property inherited from the prototype, `undefined`) is no array
whose elements can be assigned: `none`. -/
def entry? (h : HtmlFiles) (path : Str) : Option (Str × Bool) :=
  if path = "__proto__".toList then h.proto else h.own.get? path

/-- A change made in place to the array `htmlFiles[path]`. -/
def modify (h : HtmlFiles) (path : Str) (f : Str × Bool → Str × Bool) : HtmlFiles :=
  if path = "__proto__".toList then { h with proto := h.proto.map f }
  else { h with own := h.own.modify path f }

/-- The keys `for (const htmlPath in htmlFiles)` visits: the own keys, then the
enumerable keys of the prototype chain that no own key shadows. These are the
indices `0` and `1` of the array `[file, changed]` when it was made the prototype;
`Array.prototype` and `Object.prototype` have no enumerable property. -/
def keys (h : HtmlFiles) : List Str :=
  h.own.keys ++
    (if h.proto.isSome then ["0".toList, "1".toList].filter (fun k => !h.own.hasOwn k) else [])

end HtmlFiles

/-! ## The world outside the script -/

/-- The asset kinds, the keys of `matchers`. -/
inductive Kind where
  | js
  | css
  | svg
  deriving DecidableEq, Repr

/-- The file system: regular files by path. -/
structure FS where
  files : List (Str × Str)
  deriving DecidableEq, Repr

namespace FS

/-- The call `readFile(p)`; `none` when there is no such file. -/
def readFile (fs : FS) (p : Str) : Option Str :=
  (fs.files.find? (fun e => e.1 == p)).map (fun e => e.2)

/-- The call `writeFile(p, content)`: creates or replaces the file. -/
def writeFile (fs : FS) (p content : Str) : FS :=
  ⟨(p, content) :: fs.files.filter (fun e => !(e.1 == p))⟩

/-- The call `unlink(p)`; `none` when there is no such file. -/
def unlink (fs : FS) (p : Str) : Option FS :=
  if (fs.readFile p).isSome then some ⟨fs.files.filter (fun e => !(e.1 == p))⟩ else none

end FS

/-- The libraries the script calls: the minifier of each kind (file contents and
source path to minified text, `none` when it fails), `gzipSync` at a level
(`none` when it throws) and the hexadecimal md5 digest. -/
structure Ext where
  minify : Kind → Str → Str → Option Str
  gzipSync : Str → Int → Option Str
  md5hex : Str → Str

/-- What the run does to the outside, in order. -/
inductive Effect where
  | readFile (p : Str)
  | transform (kind : Kind) (ref source : Str)
  | writeFile (p content : Str)
  | unlink (p : Str)
  | consoleError (doc : Str) (kind : Kind) (ref : Str)
  deriving DecidableEq, Repr

/-- The errors that end a run. -/
inductive Err where
  | noHtmlFile
  | invalidRegExp
  | noEntry (p : Str)
  | transformFailed (kind : Kind) (source : Str)
  | notAFunction (kind : Kind) (ref : Str)
  | notIterable (key : Str)
  | gzipFailed
  deriving DecidableEq, Repr

/-- Result of a piece of the script: the state reached, and the error thrown if
one was. -/
inductive Res (σ : Type) where
  | ok (s : σ)
  | fail (e : Err) (s : σ)
  deriving DecidableEq, Repr

/-- The state in which a piece of the script stopped. -/
def Res.state {σ : Type} : Res σ → σ
  | .ok s => s
  | .fail _ s => s

/-- Sequencing: the second piece runs only when the first did not throw. -/
def Res.andThen {σ : Type} (r : Res σ) (f : σ → Res σ) : Res σ :=
  match r with
  | .ok s => f s
  | .fail e s => .fail e s

/-- A `for` loop whose body may throw. -/
def forEach {σ α : Type} (body : σ → α → Res σ) : List α → σ → Res σ
  | [], s => .ok s
  | x :: xs, s =>
    match body s x with
    | .ok s' => forEach body xs s'
    | .fail e s' => .fail e s'

/-! ## The script -/

/-- White space that `parseInt` skips. -/
def isWhiteSpace (c : Char) : Bool :=
  let n := c.toNat
  (9 ≤ n && n ≤ 13) || n == 32 || n == 160 || n == 0x1680 || (0x2000 ≤ n && n ≤ 0x200A)
    || n == 0x2028 || n == 0x2029 || n == 0x202F || n == 0x205F || n == 0x3000 || n == 0xFEFF

/-- The call `parseInt(s, 10)`: leading white space, an optional sign, then the
longest run of digits; `none` is `NaN`. -/
def parseInt10 (s : Str) : Option Int :=
  let t := s.dropWhile isWhiteSpace
  let neg := t.head? = some '-'
  let u := if t.head? = some '-' ∨ t.head? = some '+' then t.drop 1 else t
  let z := u.takeWhile isDigit
  if z = [] then none
  else
    let n : Int := (z.foldl (fun acc c => acc * 10 + digitVal c) 0 : Nat)
    some (if neg then -n else n)

/-- Line 19: `parseInt(process.argv[4], 10)`; a missing argument is `undefined`. -/
def gzipLevel (arg : Option Str) : Option Int :=
  parseInt10 (arg.getD "undefined".toList)

/-- Truthiness of `gzipLevel`: neither `NaN` nor zero. -/
def truthy (level : Option Int) : Bool :=
  match level with
  | some n => n != 0
  | none => false

/-- The class of line 28: `[.*+?^${}()|[\]\\]`. -/
def escapeClass : List ClassItem := ".*+?^$\x7b\x7d()|[]\\".toList.map ClassItem.ch

/-- Lines 27-29: `string.replace(/[.*+?^${}()|[\]\\]/g, '\\$&')`. -/
def escapeRegEx (string : Str) : Str :=
  replace string ⟨.cls escapeClass, false, true⟩ [bslash, dollar, '&']

/-- The reference characters `[\w/.-]+` of the three patterns. -/
def refChars : RegEx := (RegEx.cls [.word, .ch '/', .ch '.', .ch '-']).plus

/-- The stylesheet marker `rel="?stylesheet"?`. -/
def relStylesheet : RegEx :=
  .seqs [.lit "rel=".toList, (RegEx.char dq).opt, .lit "stylesheet".toList, (RegEx.char dq).opt]

/-- Lines 33-44: the patterns of `matchers`, all with the flags `gi`. -/
def matchers : Kind → JSRegExp
  | .js =>
    ⟨.seqs [.lit "<script".toList, .star .dot, .lit "src=\"".toList, .group 1 refChars,
      .char dq], true, true⟩
  | .css =>
    ⟨.seqs [.lit "<link".toList, .star .dot,
      .alt
        (.seqs [relStylesheet, .star .dot, .lit "href=\"".toList, .group 1 refChars, .char dq])
        (.seqs [.lit "href=\"".toList, .group 2 refChars, .char dq, .star .dot, relStylesheet])],
      true, true⟩
  | .svg =>
    ⟨.seqs [.lit "<img".toList, .star .dot, .lit "src=\"".toList,
      .group 1 (.seq refChars (.lit ".svg".toList)), .char dq], true, true⟩

/-- The keys of `matchers` and of `changes`, in the order a `for ... in` visits. -/
def Kind.all : List Kind := [.js, .css, .svg]

/-- The destructuring `[, _match, match = _match]` of line 57: the second capture
when it is defined, the first one otherwise (every match of the three patterns
sets one of them). -/
def matchedRef (r : MatchResult) : Str :=
  match r.caps.get? 1 with
  | some (some m) => m
  | _ =>
    match r.caps.get? 0 with
    | some (some m) => m
    | _ => "undefined".toList

/-- The references line 57 iterates over for one document and one kind. -/
def refsOf (kind : Kind) (file : Str) : List Str :=
  (matchAll file (matchers kind)).map matchedRef

/-- An entry of `changes[kind]`: the array `[content, from, ...htmlPaths]`. -/
structure Record where
  content : Str
  source : Str
  htmlPaths : List Str
  deriving DecidableEq, Repr

/-- Line 47: `changes`, one object per kind. -/
structure Changes where
  js : JSObj Record
  css : JSObj Record
  svg : JSObj Record
  deriving DecidableEq, Repr

/-- The lookup `changes[kind]`. -/
def Changes.get (c : Changes) : Kind → JSObj Record
  | .js => c.js
  | .css => c.css
  | .svg => c.svg

/-- The object `changes` with `changes[kind]` replaced. -/
def Changes.set (c : Changes) (kind : Kind) (o : JSObj Record) : Changes :=
  match kind with
  | .js => { c with js := o }
  | .css => { c with css := o }
  | .svg => { c with svg := o }

/-- The variables of the script and the world it acts on. -/
structure State where
  fs : FS
  log : List Effect
  htmlFiles : HtmlFiles
  changes : Changes
  deriving DecidableEq, Repr

/-- The state at line 46. -/
def State.init (fs : FS) : State := ⟨fs, [], .empty, ⟨.empty, .empty, .empty⟩⟩

/-- Line 49: `new RegExp("^/" + escapeRegEx(basename(assetDirectory)))`. -/
def assetRegEx (assetDirectory : Str) : Option JSRegExp :=
  (parsePattern ('^' :: '/' :: escapeRegEx (basename assetDirectory))).map
    (fun re => ⟨re, false, false⟩)

/-- Line 63: `join(assetDirectory, match.replace(assetRegEx, ''))`. -/
def resolve (assetDirectory : Str) (are : JSRegExp) (ref : Str) : Str :=
  join assetDirectory (replace ref are [])

/-- Lines 58-69, the body of the loop over the matches of one document. -/
def scanMatch (ext : Ext) (assetDirectory : Str) (are : JSRegExp) (path : Str) (kind : Kind)
    (st : State) (ref : Str) : Res State :=
  let target := st.changes.get kind
  if target.has ref then
    match target.get? ref with
    | some _ =>
      .ok { st with
        changes := st.changes.set kind
          (target.modify ref (fun rec => { rec with htmlPaths := rec.htmlPaths ++ [path] })) }
    | none => .fail (.notAFunction kind ref) st
  else
    let source := resolve assetDirectory are ref
    match st.fs.readFile source with
    | none =>
      .fail (.noEntry source)
        { st with log := st.log ++ [.readFile source, .consoleError path kind ref] }
    | some file =>
      match ext.minify kind file source with
      | none =>
        .fail (.transformFailed kind source)
          { st with
            log := st.log ++
              [.readFile source, .transform kind ref source, .consoleError path kind ref] }
      | some content =>
        .ok { st with
          log := st.log ++ [.readFile source, .transform kind ref source]
          changes := st.changes.set kind (target.set ref ⟨content, source, [path]⟩) }

/-- Lines 55-71, the body of the loop over the kinds for one document. -/
def scanKind (ext : Ext) (assetDirectory : Str) (are : JSRegExp) (path file : Str)
    (st : State) (kind : Kind) : Res State :=
  forEach (scanMatch ext assetDirectory are path kind) (refsOf kind file) st

/-- Lines 51-72, the body of the loop over the documents. -/
def scanDoc (ext : Ext) (assetDirectory : Str) (are : JSRegExp) (st : State) (path : Str) :
    Res State :=
  match st.fs.readFile path with
  | none => .fail (.noEntry path) { st with log := st.log ++ [.readFile path] }
  | some file =>
    forEach (scanKind ext assetDirectory are path file) Kind.all
      { st with
        log := st.log ++ [.readFile path]
        htmlFiles := st.htmlFiles.assign path (file, false) }

/-- Lines 51-72: the scan of all documents. -/
def scan (ext : Ext) (assetDirectory : Str) (are : JSRegExp) (htmlPaths : List Str)
    (st : State) : Res State :=
  forEach (scanDoc ext assetDirectory are) htmlPaths st

/-- Line 94: `new RegExp('"' + escapeRegEx(path) + '"', 'g')`. -/
def pathRegEx (path : Str) : Option JSRegExp :=
  (parsePattern (dq :: escapeRegEx path ++ [dq])).map (fun re => ⟨re, false, true⟩)

/-- Lines 83-84 and 95: the file name `hash + ext`. -/
def hashedName (ext : Ext) (level : Option Int) (content source : Str) : Str :=
  ext.md5hex content ++ extname source ++ (if truthy level then ".gz".toList else [])

/-- Line 95: the quoted new reference. -/
def newPath (path name : Str) : Str :=
  dq :: slash (join (dirname path) name) ++ [dq]

/-- Lines 96-100, the body of the loop over the documents of one record. -/
def rewriteDoc (re : JSRegExp) (newPath : Str) (st : State) (htmlPath : Str) : Res State :=
  match st.htmlFiles.entry? htmlPath with
  | none => .fail (.notIterable htmlPath) st
  | some _ =>
    .ok { st with
      htmlFiles := st.htmlFiles.modify htmlPath (fun entry => (replace entry.1 re newPath, true)) }

/-- Lines 76-100, the body of the loop over the references of one kind. -/
def materializeRecord (ext : Ext) (level : Option Int) (kind : Kind) (st : State) (path : Str) :
    Res State :=
  match (st.changes.get kind).get? path with
  | none => .fail (.notIterable path) st
  | some rec =>
    match (if truthy level then ext.gzipSync rec.content (level.getD 0) else some rec.content) with
    | none => .fail .gzipFailed st
    | some content =>
      let name := hashedName ext level content rec.source
      let dest := join (dirname rec.source) name
      let st1 : State :=
        { st with
          fs := st.fs.writeFile dest content
          log := st.log ++ [.writeFile dest content, .unlink rec.source] }
      match st1.fs.unlink rec.source with
      | none => .fail (.noEntry rec.source) st1
      | some fs2 =>
        match pathRegEx path with
        | none => .fail .invalidRegExp { st1 with fs := fs2 }
        | some re => forEach (rewriteDoc re (newPath path name)) rec.htmlPaths { st1 with fs := fs2 }

/-- Lines 74-102, the body of the loop over the kinds. -/
def materializeKind (ext : Ext) (level : Option Int) (st : State) (kind : Kind) : Res State :=
  forEach (materializeRecord ext level kind) (st.changes.get kind).keys st

/-- Lines 74-102: materialization and rewriting of every record. -/
def materialize (ext : Ext) (level : Option Int) (st : State) : Res State :=
  forEach (materializeKind ext level) Kind.all st

/-- Lines 105-108, the body of the last loop. For an own key the value is the array
`[content, changed]`. For a key inherited from an array that was made the prototype
the value is an element of that array: at `0` the text of the document, a string,
which destructures into its first two characters (the second one, when there is one,
is truthy, and the first one is written to the file `0`); at `1` the flag, a
boolean, which is not iterable. -/
def persistDoc (st : State) (htmlPath : Str) : Res State :=
  match st.htmlFiles.own.get? htmlPath with
  | some entry =>
    if entry.2 then
      .ok { st with
        fs := st.fs.writeFile htmlPath entry.1
        log := st.log ++ [.writeFile htmlPath entry.1] }
    else .ok st
  | none =>
    match st.htmlFiles.proto with
    | none => .fail (.notIterable htmlPath) st
    | some array =>
      if htmlPath = "0".toList then
        match array.1 with
        | content :: _ :: _ =>
          .ok { st with
            fs := st.fs.writeFile htmlPath [content]
            log := st.log ++ [.writeFile htmlPath [content]] }
        | _ => .ok st
      else .fail (.notIterable htmlPath) st

/-- Lines 104-109: the changed documents are written back. -/
def persist (st : State) : Res State :=
  forEach persistDoc st.htmlFiles.keys st

/-- The whole script, from the result of the glob (`htmlPaths`) on: the
arguments `assetDirectory` and `process.argv[4]`, the libraries and the file
system at the start. -/
def run (ext : Ext) (assetDirectory : Str) (gzipArg : Option Str) (htmlPaths : List Str)
    (fs : FS) : Res State :=
  if htmlPaths = [] then .fail .noHtmlFile (State.init fs)
  else
    match assetRegEx assetDirectory with
    | none => .fail .invalidRegExp (State.init fs)
    | some are =>
      ((scan ext assetDirectory are htmlPaths (State.init fs)).andThen
        (materialize ext (gzipLevel gzipArg))).andThen persist

/-! ## Specification-level definitions -/

/-- The detection alphabet `[\w/.-]` of the three patterns. -/
def isRefChar (c : Char) : Bool := isWordChar c || c == '/' || c == '.' || c == '-'

/-- A string between double quotes. -/
def quoted (s : Str) : Str := dq :: s ++ [dq]

/-- A pattern without capture groups. -/
def RegEx.groupFree : RegEx → Bool
  | .seq a b => a.groupFree && b.groupFree
  | .alt a b => a.groupFree && b.groupFree
  | .star a => a.groupFree
  | .group _ _ => false
  | _ => true

/-- Every character the pattern can consume has the property `P`. -/
def RegEx.Accepts (ic : Bool) (P : Char → Prop) : RegEx → Prop
  | .char c => ∀ x, canonicalize ic x = canonicalize ic c → P x
  | .dot => ∀ x, isLineTerminator x = false → P x
  | .cls items => ∀ x, items.any (ClassItem.test ic x) = true → P x
  | .seq a b => a.Accepts ic P ∧ b.Accepts ic P
  | .alt a b => a.Accepts ic P ∧ b.Accepts ic P
  | .star a => a.Accepts ic P
  | .group _ a => a.Accepts ic P
  | _ => True

/-- The state `s'` is reached from `s` by consuming the text `w`, captures unchanged. -/
def Consumed (s s' : MState) (w : Str) : Prop :=
  s'.caps = s.caps ∧ s.rest = w ++ s'.rest ∧ s'.pos = s.pos + w.length

/-- What a match of one of the three patterns tells: the reference it yields stands
between double quotes in the input, holds no quote, and the input left is a suffix. -/
def MatchSound (kind : Kind) : Prop :=
  ∀ (pos : Nat) (rest : Str) (st : MState), matchHere (matchers kind) pos rest = some st →
    ∃ pre w mid, rest = pre ++ quoted w ++ mid ++ st.rest ∧ dq ∉ w ∧
      ∀ res : MatchResult, res.caps = st.caps → matchedRef res = w

/-- The characters the class of `escapeRegEx` matches. -/
def isSpecial (c : Char) : Bool := escapeClass.any (ClassItem.test false c)

/-- Escaping spelled out: a backslash before every special character. -/
def escapeChars : Str → Str
  | [] => []
  | c :: cs => if isSpecial c then bslash :: c :: escapeChars cs else c :: escapeChars cs

/-- The pattern that matches the characters of `p` and then `re`. -/
def litSeq (p : Str) (re : RegEx) : RegEx := p.foldr (fun c acc => .seq (.char c) acc) re

/-- Replacement of a literal, as the rewriter is specified: scanning from left to
right, every occurrence of `p` that starts at or after the end of the previous
replaced one is replaced by `t`. -/
def litReplace (p t : Str) : Str → Str
  | [] => []
  | c :: cs =>
    if h : p ≠ [] ∧ p.isPrefixOf (c :: cs) = true then
      t ++ litReplace p t ((c :: cs).drop p.length)
    else c :: litReplace p t cs
termination_by s => s.length
decreasing_by
  all_goals simp_wf
  · have : 0 < p.length := List.length_pos.mpr h.1
    omega

/-- How many times the log records an invocation of the transform of `kind` for the
reference `ref`. -/
def transformCalls (log : List Effect) (kind : Kind) (ref : Str) : Nat :=
  log.countP (fun e =>
    match e with
    | .transform k r _ => k == kind && r == ref
    | _ => false)

/-- Effects that change the file system. -/
def Effect.isMutation : Effect → Bool
  | .writeFile _ _ => true
  | .unlink _ => true
  | _ => false



/-- What holds of every state the scan reaches from the file system `fs`: the file system is
as at the start, the log has no mutation, the transform of a kind was invoked once for each
reference recorded and never for another, every referencing document of a record contains a
match of its reference, every record has a referencing document, was made from the file its
reference resolves to and holds what the transform returned for it, and every document read
is kept with its text and the flag `false`. -/
structure ScanInv (ext : Ext) (A : Str) (are : JSRegExp) (fs : FS) (st : State) : Prop where
  fs_eq : st.fs = fs
  pure : ∀ e ∈ st.log, e.isMutation = false
  calls : ∀ kind ref,
    transformCalls st.log kind ref = if (st.changes.get kind).hasOwn ref then 1 else 0
  refs : ∀ kind ref rec, (st.changes.get kind).get? ref = some rec →
    ∀ d ∈ rec.htmlPaths, ∃ file, fs.readFile d = some file ∧ ref ∈ refsOf kind file
  nonempty : ∀ kind ref rec, (st.changes.get kind).get? ref = some rec → rec.htmlPaths ≠ []
  made : ∀ kind ref rec, (st.changes.get kind).get? ref = some rec →
    rec.source = resolve A are ref ∧
      ∃ c, fs.readFile (resolve A are ref) = some c ∧
        ext.minify kind c (resolve A are ref) = some rec.content
  flags : ∀ d entry, st.htmlFiles.entry? d = some entry →
    entry.2 = false ∧ fs.readFile d = some entry.1

/-- The records of `st` are still in `st'`, with at least the same referencing documents. -/
def Grows (st st' : State) : Prop :=
  ∀ kind ref rec, (st.changes.get kind).get? ref = some rec →
    ∃ rec', (st'.changes.get kind).get? ref = some rec' ∧ ∀ d ∈ rec.htmlPaths, d ∈ rec'.htmlPaths

/-- The document `path` is a referencing document of the record of `ref`. -/
def Recorded (path : Str) (kind : Kind) (ref : Str) (st : State) : Prop :=
  ∃ rec, (st.changes.get kind).get? ref = some rec ∧ path ∈ rec.htmlPaths

/-- The file system is `fs` and the log holds no write and no unlink. -/
def Untouched (fs : FS) (st : State) : Prop :=
  st.fs = fs ∧ ∀ e ∈ st.log, e.isMutation = false

/-- How a scan that stopped with the error `e` came to stop, `log` being the log at that
point: a document could not be read; or a reference matched in a document names a property
inherited from `Object.prototype`; or the asset of a reference matched in a document could
not be read, or could not be transformed, and the message that names the document, the
kind and the reference was the last thing logged. -/
def ScanFailure (ext : Ext) (A : Str) (are : JSRegExp) (fs : FS) (htmlPaths : List Str)
    (e : Err) (log : List Effect) : Prop :=
  (∃ p ∈ htmlPaths, fs.readFile p = none ∧ e = .noEntry p) ∨
  ∃ p ∈ htmlPaths, ∃ file kind ref, fs.readFile p = some file ∧ ref ∈ refsOf kind file ∧
    ((ref ∈ objectPrototypeKeys ∧ e = .notAFunction kind ref) ∨
      (log.getLast? = some (.consoleError p kind ref) ∧
        ((fs.readFile (resolve A are ref) = none ∧ e = .noEntry (resolve A are ref)) ∨
          ∃ c, fs.readFile (resolve A are ref) = some c ∧
            ext.minify kind c (resolve A are ref) = none ∧
            e = .transformFailed kind (resolve A are ref))))

/-- Line 95 without the quotes: the new reference of a record, from its original reference
`ref`, the content that is written and the source path. -/
def newReference (ext : Ext) (level : Option Int) (ref content source : Str) : Str :=
  slash (join (dirname ref) (hashedName ext level content source))

/-- The text kept for the document `d`, if any, holds the quoted string `s`. -/
def DocHolds (d s : Str) (st : State) : Prop :=
  ∀ text flag, st.htmlFiles.entry? d = some (text, flag) → quoted s <:+: text

/-- The document `d` is kept with the flag `true` and a text that holds the quoted
string `s`. -/
def DocChanged (d s : Str) (st : State) : Prop :=
  ∃ text, st.htmlFiles.entry? d = some (text, true) ∧ quoted s <:+: text

/-- The records and the count of transform invocations are the same in both states. -/
def SameRecords (s s' : State) : Prop :=
  s'.changes = s.changes ∧ ∀ k r, transformCalls s'.log k r = transformCalls s.log k r

/-- Characters of a plain path segment: the detection alphabet without the slash. -/
def isSegChar (c : Char) : Bool := isWordChar c || c == '.' || c == '-'

/-- A path segment that names an entry: not empty, without a slash, neither `.` nor `..`. -/
def isName (s : Str) : Prop := s ≠ [] ∧ '/' ∉ s ∧ s ≠ ['.'] ∧ s ≠ ['.', '.']

/-- A plain segment of a reference: a name over the detection alphabet. -/
def plainSegment (s : Str) : Bool :=
  !s.isEmpty && s.all isSegChar && s != ['.'] && s != ['.', '.']

/-- Lower-case hexadecimal digits, the characters of a digest. -/
def isHexDigit (c : Char) : Bool := ('0' ≤ c && c ≤ '9') || ('a' ≤ c && c ≤ 'f')

/-- The segments `normalizeString` keeps for a path (last one first). -/
def stackOf (path : Str) : List Str :=
  (splitSlash path).foldl (normStep (!(path.head? = some '/'))) []

/-- The root a normalized path starts with. -/
def rootOf (path : Str) : Str := if path.head? = some '/' then ['/'] else []

/-- Shape of the segments `normalizeString` keeps (last one first): names, then, for a
relative path only, leading `..` segments. -/
def NormalStack (allow : Bool) (S : List Str) : Prop :=
  ∃ ps k, S = ps ++ List.replicate k ['.', '.'] ∧ (∀ p ∈ ps, isName p) ∧ (k ≠ 0 → allow = true)

/-- The error a piece of the script ended with, if any. -/
def Res.error? {σ : Type} : Res σ → Option Err
  | .ok _ => none
  | .fail e _ => some e

/-! ## Concrete inputs -/

/-- Libraries for the concrete runs: minifiers that return the source as it is, a gzip that
returns its input, and a digest that is the same for every content. -/
def sampleExt : Ext :=
  ⟨fun _ file _ => some file, fun content _ => some content,
    fun _ => "d41d8cd98f00b204e9800998ecf8427e".toList⟩

/-- The expression `assetRegEx` for the asset directory `assets`. -/
def assetsRegEx : JSRegExp :=
  ⟨.seq .bol (.seq (.char '/') (litSeq "assets".toList .empty)), false, false⟩

/-- A page that references one script twice and one stylesheet. -/
def demoPage : Str :=
  ("<script src=\"/assets/app.js\"></script>\n<script src=\"/assets/app.js\"></script>\n"
    ++ "<link rel=\"stylesheet\" href=\"/assets/app.css\">").toList

/-- That page, a page without any reference, and the two assets. -/
def demoFS : FS :=
  ⟨[("index.html".toList, demoPage), ("about.html".toList, "<p>hello</p>".toList),
    ("assets/app.js".toList, "var x;".toList), ("assets/app.css".toList, "a{}".toList)]⟩

/-- The two documents of `demoFS`. -/
def demoPaths : List Str := ["index.html".toList, "about.html".toList]

/-- The state after the scan of `demoFS`. -/
def demoScanned : State :=
  (scan sampleExt "assets".toList assetsRegEx demoPaths (State.init demoFS)).state

/-- The state at the end of the run over `demoFS`. -/
def demoDone : State := (run sampleExt "assets".toList none demoPaths demoFS).state

/-- The record of the script of `demoPage`. -/
def demoRecord : Record :=
  ⟨"var x;".toList, "assets/app.js".toList, ["index.html".toList, "index.html".toList]⟩

/-- A page with two script tags on one line. -/
def twoScriptsPage : Str :=
  "<script src=\"a.js\"></script><script src=\"b.js\"></script>".toList

/-- The page `twoScriptsPage` and its two scripts. -/
def twoScriptsFS : FS :=
  ⟨[("index.html".toList, twoScriptsPage), ("assets/a.js".toList, "var a;".toList),
    ("assets/b.js".toList, "var b;".toList)]⟩

/-- A page that names the same file by two different references. -/
def sharedSourcePage : Str :=
  "<script src=\"/assets/app.js\"></script>\n<script src=\"app.js\"></script>".toList

/-- The page `sharedSourcePage` and its script. -/
def sharedSourceFS : FS :=
  ⟨[("index.html".toList, sharedSourcePage), ("assets/app.js".toList, "var x;".toList)]⟩

/-- A page whose script reference is a property name of `Object.prototype`. -/
def constructorFS : FS :=
  ⟨[("index.html".toList, "<script src=\"constructor\"></script>".toList),
    ("assets/constructor".toList, "var x;".toList)]⟩

/-- Libraries whose digest tells two contents apart: the text `var x;` has the digest
`9d00...`, any other content the digest `0cc1...`; minifiers and gzip return their input. -/
def twoDigestsExt : Ext :=
  ⟨fun _ file _ => some file, fun content _ => some content,
    fun content =>
      if content = "var x;".toList then "9d00725e0b4ab0d0bd4e8d4d8c4b8f2a".toList
      else "0cc175b9c0f1b6a831c399e269772661".toList⟩

/-- Two pages that reference `x.js`; the first one also references a script whose name
is the digest of `x.js` followed by `.js`. -/
def hashNamedFS : FS :=
  ⟨[("a.html".toList,
      ("<script src=\"x.js\"></script>\n"
        ++ "<script src=\"9d00725e0b4ab0d0bd4e8d4d8c4b8f2a.js\"></script>").toList),
    ("b.html".toList, "<script src=\"x.js\"></script>".toList),
    ("assets/x.js".toList, "var x;".toList),
    ("assets/9d00725e0b4ab0d0bd4e8d4d8c4b8f2a.js".toList, "var y;".toList)]⟩

/-- A document named `__proto__` that references one script, and the script. -/
def protoDocFS : FS :=
  ⟨[("__proto__".toList, "<script src=\"/assets/app.js\"></script>".toList),
    ("assets/app.js".toList, "var x;".toList)]⟩

/-- A page whose image does not exist. -/
def missingLogoFS : FS :=
  ⟨[("index.html".toList, "<img src=\"/assets/logo.svg\">".toList)]⟩

/-- The state in which the scan of `missingLogoFS` reaches the image: the page has been
read and holds no script and no stylesheet. -/
def missingLogoReached : State :=
  { State.init missingLogoFS with
    log := [.readFile "index.html".toList]
    htmlFiles :=
      HtmlFiles.empty.assign "index.html".toList ("<img src=\"/assets/logo.svg\">".toList, false) }

/-! # Theorems -/

set_option maxRecDepth 100000

/-! ## Replacement templates -/

theorem getSubstitutionGo_plain (m b a : Str) (caps : List (Option Str)) (t : Str)
    (h : dollar ∉ t) : getSubstitutionGo m b a caps 0 t = t := by
  induction t with
  | nil => rfl
  | cons c t ih =>
    have hc : c ≠ dollar := fun e => h (by simp [e])
    have ht : dollar ∉ t := fun e => h (by simp [e])
    simp [getSubstitutionGo, hc, ih ht]

theorem getSubstitution_plain (m b a : Str) (caps : List (Option Str)) (t : Str)
    (h : dollar ∉ t) : getSubstitution m b a caps t = t :=
  getSubstitutionGo_plain m b a caps t h

theorem getSubstitution_escape (c : Char) (b a : Str) :
    getSubstitution [c] b a [] [bslash, dollar, '&'] = [bslash, c] := by
  have h1 : bslash ≠ dollar := by decide
  have h2 : ('&' : Char) ≠ dollar := by decide
  simp [getSubstitution, getSubstitutionGo, refReplacement, h1, h2]

/-! ## `escapeRegEx` -/

theorem canonicalize_false (c : Char) : canonicalize false c = c := by
  simp [canonicalize]

theorem matchHere_escape_nil (g : Bool) (pos : Nat) :
    matchHere ⟨.cls escapeClass, false, g⟩ pos [] = none := by
  simp [matchHere, RegEx.m]

theorem matchHere_escape_cons (g : Bool) (pos : Nat) (c : Char) (cs : Str) :
    matchHere ⟨.cls escapeClass, false, g⟩ pos (c :: cs)
      = if isSpecial c then some ⟨pos + 1, cs, []⟩ else none := by
  simp [matchHere, RegEx.m, isSpecial, RegEx.nGroups]

theorem replaceAllGo_escape (input : Str) (s : Str) :
    ∀ (fuel pos : Nat), s.length < fuel →
      replaceAllGo ⟨.cls escapeClass, false, true⟩ [bslash, dollar, '&'] input fuel pos s
        = escapeChars s := by
  induction s with
  | nil =>
    intro fuel pos h
    cases fuel with
    | zero => simp at h
    | succ n => simp [replaceAllGo, matchHere_escape_nil, escapeChars]
  | cons c cs ih =>
    intro fuel pos h
    cases fuel with
    | zero => simp at h
    | succ n =>
      have hn : cs.length < n := by simpa using h
      by_cases hc : isSpecial c = true
      · simp [replaceAllGo, matchHere_escape_cons, hc, escapeChars, ih n (pos + 1) hn,
          getSubstitution_escape]
      · simp [replaceAllGo, matchHere_escape_cons, hc, escapeChars, ih n (pos + 1) hn]

theorem escapeRegEx_eq (s : Str) : escapeRegEx s = escapeChars s := by
  simp [escapeRegEx, replace, replaceAllGo_escape]

/-! ## The patterns built from escaped text -/

theorem syntaxChars_eq :
    syntaxChars = ['^', '$', bslash, '.', '*', '+', '?', '(', ')', '[', ']',
      Char.ofNat 123, Char.ofNat 125, '|'] := by decide

theorem isSpecial_iff (c : Char) : isSpecial c = true ↔ c ∈ syntaxChars := by
  have h : escapeClass = (['.', '*', '+', '?', '^', '$', Char.ofNat 123, Char.ofNat 125,
      '(', ')', '|', '[', ']', bslash] : List Char).map ClassItem.ch := by decide
  rw [syntaxChars_eq]
  simp [isSpecial, h, ClassItem.test, canonicalize_false]
  tauto

theorem parsePatternGo_plain (c : Char) (t : Str) (h : isSpecial c = false) :
    parsePatternGo false (c :: t) = (parsePatternGo false t).map (RegEx.seq (.char c)) := by
  have hs : c ∉ syntaxChars := by
    intro hm
    rw [← isSpecial_iff] at hm
    simp [h] at hm
  have hs2 := hs
  rw [syntaxChars_eq] at hs2
  simp only [List.mem_cons, List.mem_singleton, List.not_mem_nil, or_false, not_or] at hs2
  have h1 : c ≠ bslash := hs2.2.2.1
  have h2 : c ≠ '^' := hs2.1
  have h3 : c ≠ '.' := hs2.2.2.2.1
  simp [parsePatternGo, h1, h2, h3, hs]

theorem parsePatternGo_escapeChars (s t : Str) :
    parsePatternGo false (escapeChars s ++ t) = (parsePatternGo false t).map (litSeq s) := by
  induction s with
  | nil =>
    have e : litSeq [] = id := by funext re; rfl
    simp [escapeChars, e]
  | cons c cs ih =>
    by_cases hc : isSpecial c = true
    · have hm : c ∈ syntaxChars := (isSpecial_iff c).mp hc
      simp only [escapeChars, hc, if_true, List.cons_append, parsePatternGo, if_true, ih, hm,
        true_or, Option.map_map]
      rfl
    · have hc2 : isSpecial c = false := by simpa using hc
      simp only [escapeChars, hc2, List.cons_append, Bool.false_eq_true, if_false]
      rw [parsePatternGo_plain c _ hc2, ih, Option.map_map]
      rfl

theorem isSpecial_dq : isSpecial dq = false := by decide

theorem pathRegEx_eq (r : Str) :
    pathRegEx r = some ⟨litSeq (quoted r) .empty, false, true⟩ := by
  have h : parsePatternGo false (dq :: escapeChars r ++ [dq])
      = some (litSeq (quoted r) .empty) := by
    rw [List.cons_append, parsePatternGo_plain dq _ isSpecial_dq, parsePatternGo_escapeChars,
      parsePatternGo_plain dq _ isSpecial_dq]
    simp [parsePatternGo, litSeq, quoted]
  rw [List.cons_append] at h
  simp [pathRegEx, parsePattern, escapeRegEx_eq, h]

theorem assetRegEx_eq (assetDirectory : Str) :
    assetRegEx assetDirectory
      = some ⟨.seq .bol (.seq (.char '/') (litSeq (basename assetDirectory) .empty)),
          false, false⟩ := by
  have h0 : isSpecial '/' = false := by decide
  have h : parsePatternGo false ('^' :: '/' :: escapeChars (basename assetDirectory))
      = some (.seq .bol (.seq (.char '/') (litSeq (basename assetDirectory) .empty))) := by
    have e : '^' :: '/' :: escapeChars (basename assetDirectory)
        = '^' :: ('/' :: (escapeChars (basename assetDirectory) ++ [])) := by simp
    rw [e]
    have hb : ('^' : Char) ≠ bslash := by decide
    rw [parsePatternGo]
    simp only [hb, if_false, if_true]
    rw [parsePatternGo_plain '/' _ h0, parsePatternGo_escapeChars]
    simp [parsePatternGo]
  simp [assetRegEx, parsePattern, escapeRegEx_eq, h]

/-! ## Matching a literal -/

theorem litSeq_nGroups (p : Str) (re : RegEx) : (litSeq p re).nGroups = re.nGroups := by
  induction p with
  | nil => rfl
  | cons c cs ih => simp [litSeq, RegEx.nGroups] at ih ⊢; exact ih

theorem litSeq_m (p : Str) (re : RegEx) :
    ∀ (s : MState) (k : MCont), (litSeq p re).m false s k
      = if p.isPrefixOf s.rest = true then
          re.m false ⟨s.pos + p.length, s.rest.drop p.length, s.caps⟩ k
        else none := by
  induction p with
  | nil => intro s k; simp [litSeq]
  | cons c cs ih =>
    intro s k
    have e : litSeq (c :: cs) re = .seq (.char c) (litSeq cs re) := rfl
    rw [e]
    cases hr : s.rest with
    | nil => simp [RegEx.m, hr]
    | cons x xs =>
      by_cases hx : x = c
      · subst hx
        simp [RegEx.m, hr, ih, canonicalize_false, Nat.add_assoc, Nat.add_comm 1]
      · have hx2 : ¬ c = x := fun e => hx e.symm
        simp [RegEx.m, hr, canonicalize_false, hx, hx2]

theorem matchHere_lit (p : Str) (g : Bool) (pos : Nat) (rest : Str) :
    matchHere ⟨litSeq p .empty, false, g⟩ pos rest
      = if p.isPrefixOf rest = true then some ⟨pos + p.length, rest.drop p.length, []⟩
        else none := by
  simp [matchHere, litSeq_m, litSeq_nGroups, RegEx.nGroups, RegEx.m]

theorem litReplace_nil (p t : Str) : litReplace p t [] = [] := by
  rw [litReplace]

theorem litReplace_cons_hit (p t : Str) (c : Char) (cs : Str) (hp : p ≠ [])
    (h : p.isPrefixOf (c :: cs) = true) :
    litReplace p t (c :: cs) = t ++ litReplace p t ((c :: cs).drop p.length) := by
  rw [litReplace]
  simp [hp, h]

theorem litReplace_cons_miss (p t : Str) (c : Char) (cs : Str)
    (h : p.isPrefixOf (c :: cs) = false) :
    litReplace p t (c :: cs) = c :: litReplace p t cs := by
  rw [litReplace]
  simp [h]

theorem replaceAllGo_lit (p t input : Str) (hp : p ≠ []) (ht : dollar ∉ t) :
    ∀ (fuel pos : Nat) (rest : Str), rest.length < fuel →
      replaceAllGo ⟨litSeq p .empty, false, true⟩ t input fuel pos rest = litReplace p t rest := by
  intro fuel
  induction fuel with
  | zero => intro pos rest h; simp at h
  | succ n ih =>
    intro pos rest h
    have hlen : 0 < p.length := List.length_pos.mpr hp
    cases rest with
    | nil =>
      have hnp : p.isPrefixOf ([] : Str) = false := by
        cases p with
        | nil => exact absurd rfl hp
        | cons a as => rfl
      simp [replaceAllGo, matchHere_lit, hnp, litReplace_nil]
    | cons c cs =>
      by_cases hm : p.isPrefixOf (c :: cs) = true
      · have hle : p.length ≤ (c :: cs).length :=
          (List.isPrefixOf_iff_prefix.mp hm).length_le
        have hd : ((c :: cs).drop p.length).length < n := by
          simp only [List.length_drop, List.length_cons] at *
          omega
        rw [litReplace_cons_hit p t c cs hp hm]
        simp only [replaceAllGo, matchHere_lit, hm, if_true]
        have hne : ¬ (pos + p.length = pos) := by omega
        simp only [hne, if_false]
        rw [ih _ _ hd, getSubstitution_plain _ _ _ _ _ ht]
      · have hm2 : p.isPrefixOf (c :: cs) = false := Bool.eq_false_iff.mpr hm
        have hcs : cs.length < n := by simpa using h
        rw [litReplace_cons_miss p t c cs hm2]
        simp [replaceAllGo, matchHere_lit, hm2, ih _ _ hcs]

theorem replace_pathRegEx (r t text : Str) (ht : dollar ∉ t) :
    replace text ⟨litSeq (quoted r) .empty, false, true⟩ t = litReplace (quoted r) t text := by
  have hp : quoted r ≠ [] := by simp [quoted]
  simp [replace, replaceAllGo_lit _ _ _ hp ht]

/-! ## Scanning for a quoted literal -/

theorem isPrefixOf_true_iff (p l : Str) : p.isPrefixOf l = true ↔ p <+: l :=
  List.isPrefixOf_iff_prefix

theorem isPrefixOf_false_iff (p l : Str) : p.isPrefixOf l = false ↔ ¬ p <+: l := by
  rw [← isPrefixOf_true_iff]
  cases List.isPrefixOf p l <;> simp

theorem quoted_ne_nil (r : Str) : quoted r ≠ [] := by simp [quoted]

theorem closing_quote_unique (w : Str) :
    ∀ (w' z : Str), dq ∉ w → dq ∉ w' → w ++ [dq] <+: w' ++ dq :: z → w = w' := by
  induction w with
  | nil =>
    intro w' z _ h' h
    cases w' with
    | nil => rfl
    | cons a w'' =>
      simp only [List.nil_append, List.cons_append, List.cons_prefix_cons] at h
      exact absurd (by simp [h.1]) h'
  | cons a w1 ih =>
    intro w' z hw h' h
    cases w' with
    | nil =>
      simp only [List.nil_append, List.cons_append, List.cons_prefix_cons] at h
      exact absurd (by simp [h.1]) hw
    | cons b w'' =>
      simp only [List.cons_append, List.cons_prefix_cons] at h
      have hw1 : dq ∉ w1 := fun e => hw (List.mem_cons_of_mem _ e)
      have hw2 : dq ∉ w'' := fun e => h' (List.mem_cons_of_mem _ e)
      rw [h.1, ih w'' z hw1 hw2 h.2]

theorem closing_quote_within (r : Str) :
    ∀ (x y : Str), dq ∉ r → r ++ [dq] <+: x ++ dq :: y → r ++ [dq] <+: x ++ [dq] := by
  induction r with
  | nil =>
    intro x y _ h
    cases x with
    | nil => simp
    | cons a x' =>
      simp only [List.nil_append, List.cons_append, List.cons_prefix_cons] at h ⊢
      exact ⟨h.1, List.nil_prefix⟩
  | cons b r' ih =>
    intro x y hr h
    cases x with
    | nil =>
      simp only [List.nil_append, List.cons_append, List.cons_prefix_cons] at h
      exact absurd (by simp [h.1]) hr
    | cons a x' =>
      simp only [List.cons_append, List.cons_prefix_cons] at h ⊢
      have hr' : dq ∉ r' := fun e => hr (List.mem_cons_of_mem _ e)
      exact ⟨h.1, ih x' y hr' h.2⟩

theorem quoted_not_prefix_of_plain (r : Str) (c : Char) (l : Str) (hc : c ≠ dq) :
    (quoted r).isPrefixOf (c :: l) = false := by
  rw [isPrefixOf_false_iff]
  intro h
  simp only [quoted, List.cons_append, List.cons_prefix_cons] at h
  exact hc h.1.symm

theorem litReplace_plain_run (r t : Str) (w : Str) :
    ∀ (z : Str), dq ∉ w → litReplace (quoted r) t (w ++ z) = w ++ litReplace (quoted r) t z := by
  induction w with
  | nil => intro z _; rfl
  | cons c w ih =>
    intro z hw
    have hc : c ≠ dq := fun e => hw (by simp [e])
    have hw' : dq ∉ w := fun e => hw (List.mem_cons_of_mem _ e)
    rw [List.cons_append, litReplace_cons_miss _ _ _ _ (quoted_not_prefix_of_plain r c _ hc),
      ih z hw', List.cons_append]

theorem litReplace_first_quote (r t' : Str) (w : Str) :
    ∀ (text : Str), dq ∉ w → w ++ [dq] <+: litReplace (quoted r) (quoted t') text →
      w ++ [dq] <+: text := by
  induction w with
  | nil =>
    intro text _ h
    cases text with
    | nil => rw [litReplace_nil] at h; simp at h
    | cons c cs =>
      by_cases hm : (quoted r).isPrefixOf (c :: cs) = true
      · have hp := (isPrefixOf_true_iff _ _).mp hm
        simp only [quoted, List.cons_append, List.cons_prefix_cons] at hp
        simp only [List.nil_append, List.cons_prefix_cons]
        exact ⟨hp.1, List.nil_prefix⟩
      · rw [litReplace_cons_miss _ _ _ _ (Bool.eq_false_iff.mpr hm)] at h
        simp only [List.nil_append, List.cons_prefix_cons] at h ⊢
        exact ⟨h.1, List.nil_prefix⟩
  | cons a w1 ih =>
    intro text hw h
    have ha : a ≠ dq := fun e => hw (by simp [e])
    have hw1 : dq ∉ w1 := fun e => hw (List.mem_cons_of_mem _ e)
    cases text with
    | nil => rw [litReplace_nil] at h; simp at h
    | cons c cs =>
      by_cases hm : (quoted r).isPrefixOf (c :: cs) = true
      · rw [litReplace_cons_hit _ _ _ _ (quoted_ne_nil r) hm] at h
        simp only [quoted, List.cons_append, List.cons_prefix_cons] at h
        exact absurd h.1 ha
      · rw [litReplace_cons_miss _ _ _ _ (Bool.eq_false_iff.mpr hm)] at h
        simp only [List.cons_append, List.cons_prefix_cons] at h ⊢
        exact ⟨h.1, ih cs hw1 h.2⟩

theorem quoted_prefix_of_output (r t' : Str) (c : Char) (text : Str) (hr : dq ∉ r)
    (h : quoted r <+: c :: litReplace (quoted r) (quoted t') text) : quoted r <+: c :: text := by
  simp only [quoted, List.cons_append, List.cons_prefix_cons] at h ⊢
  exact ⟨h.1, litReplace_first_quote r t' r text hr h.2⟩

theorem quoted_infix_skip_plain (r : Str) (w : Str) :
    ∀ (z : Str), dq ∉ w → quoted r <:+: w ++ z → quoted r <:+: z := by
  induction w with
  | nil => intro z _ h; exact h
  | cons a w ih =>
    intro z hw h
    have ha : a ≠ dq := fun e => hw (by simp [e])
    have hw' : dq ∉ w := fun e => hw (List.mem_cons_of_mem _ e)
    rw [List.cons_append, List.infix_cons_iff] at h
    rcases h with h | h
    · simp only [quoted, List.cons_append, List.cons_prefix_cons] at h
      exact absurd h.1.symm ha
    · exact ih z hw' h

theorem litReplace_no_occurrence (r r2 : Str) (hr : dq ∉ r) (hr2 : dq ∉ r2) (hne : r2 ≠ r) :
    ∀ (n : Nat) (text : Str), text.length ≤ n → ¬ (quoted r ++ r ++ [dq]) <:+: text →
      ¬ quoted r <:+: litReplace (quoted r) (quoted r2) text := by
  intro n
  induction n with
  | zero =>
    intro text hlen _ h
    have : text = [] := List.length_eq_zero.mp (Nat.le_zero.mp hlen)
    subst this
    rw [litReplace_nil] at h
    exact quoted_ne_nil r (List.infix_nil.mp h)
  | succ n ih =>
    intro text hlen hfree h
    cases text with
    | nil =>
      rw [litReplace_nil] at h
      exact quoted_ne_nil r (List.infix_nil.mp h)
    | cons c cs =>
      by_cases hm : (quoted r).isPrefixOf (c :: cs) = true
      · have hp := (isPrefixOf_true_iff _ _).mp hm
        obtain ⟨tl, htl⟩ := hp
        have hdrop : (c :: cs).drop (quoted r).length = tl := by
          rw [← htl]; simp
        rw [litReplace_cons_hit _ _ _ _ (quoted_ne_nil r) hm, hdrop] at h
        have htl_len : tl.length ≤ n := by
          have e : (c :: cs).length = (quoted r).length + tl.length := by
            rw [← htl]; simp
          have : 0 < (quoted r).length := List.length_pos.mpr (quoted_ne_nil r)
          simp only [List.length_cons] at e hlen
          omega
        have htl_free : ¬ (quoted r ++ r ++ [dq]) <:+: tl := by
          intro hi
          apply hfree
          rw [← htl]
          exact hi.trans (List.suffix_append (quoted r) tl).isInfix
        have e1 : quoted r2 ++ litReplace (quoted r) (quoted r2) tl
            = dq :: (r2 ++ dq :: litReplace (quoted r) (quoted r2) tl) := by
          simp [quoted]
        rw [e1, List.infix_cons_iff] at h
        rcases h with h | h
        · simp only [quoted, List.cons_append, List.cons_prefix_cons, true_and] at h
          exact hne (closing_quote_unique r r2 _ hr hr2 h).symm
        · have h' := quoted_infix_skip_plain r r2 _ hr2 h
          rw [List.infix_cons_iff] at h'
          rcases h' with h' | h'
          · have h3 := quoted_prefix_of_output r r2 dq tl hr h'
            obtain ⟨y, hy⟩ := h3
            apply hfree
            refine ⟨[], y, ?_⟩
            rw [← htl]
            have : quoted r ++ tl = quoted r ++ r ++ [dq] ++ y := by
              have hy' : dq :: tl = dq :: (r ++ dq :: y) := by
                rw [← hy]; simp [quoted]
              have : tl = r ++ dq :: y := List.cons_injective hy'
              rw [this]; simp
            simpa using this.symm
          · exact ih tl htl_len htl_free h'
      · have hm2 := Bool.eq_false_iff.mpr hm
        rw [litReplace_cons_miss _ _ _ _ hm2, List.infix_cons_iff] at h
        rcases h with h | h
        · exact hm ((isPrefixOf_true_iff _ _).mpr (quoted_prefix_of_output r r2 c cs hr h))
        · have hcs : cs.length ≤ n := by simpa using hlen
          have hfree' : ¬ (quoted r ++ r ++ [dq]) <:+: cs :=
            fun hi => hfree (hi.trans (List.suffix_cons c cs).isInfix)
          exact ih cs hcs hfree' h

theorem litReplace_single_quote (r t : Str) : litReplace (quoted r) t [dq] = [dq] := by
  have h : (quoted r).isPrefixOf [dq] = false := by
    rw [isPrefixOf_false_iff]
    intro h
    have := h.length_le
    simp [quoted] at this
  rw [litReplace_cons_miss _ _ _ _ h, litReplace_nil]

theorem litReplace_starts_with_quote (r t' : Str) (post : Str) :
    ∃ B, litReplace (quoted r) (quoted t') (dq :: post) = dq :: B := by
  by_cases hm : (quoted r).isPrefixOf (dq :: post) = true
  · rw [litReplace_cons_hit _ _ _ _ (quoted_ne_nil r) hm]
    exact ⟨t' ++ [dq] ++ litReplace (quoted r) (quoted t') ((dq :: post).drop (quoted r).length),
      by simp [quoted]⟩
  · rw [litReplace_cons_miss _ _ _ _ (Bool.eq_false_iff.mpr hm)]
    exact ⟨_, rfl⟩

theorem drop_quoted_of_hit (r : Str) (pre z : Str)
    (h : quoted r <+: pre ++ [dq]) :
    ((pre ++ [dq] ++ z).drop (quoted r).length = z ∧ (pre ++ [dq]).drop (quoted r).length = []) ∨
    (∃ d, d.length < pre.length ∧ (pre ++ [dq] ++ z).drop (quoted r).length = d ++ [dq] ++ z ∧
      (pre ++ [dq]).drop (quoted r).length = d ++ [dq]) := by
  have hl := h.length_le
  have hpos : 0 < (quoted r).length := List.length_pos.mpr (quoted_ne_nil r)
  simp only [List.length_append, List.length_singleton] at hl
  by_cases he : (quoted r).length = pre.length + 1
  · left
    constructor
    · rw [List.drop_append_eq_append_drop]
      simp [he]
    · simp [he]
  · right
    have hlt : (quoted r).length ≤ pre.length := by omega
    refine ⟨pre.drop (quoted r).length, ?_, ?_, ?_⟩
    · simp only [List.length_drop]; omega
    · rw [List.append_assoc, List.drop_append_of_le_length hlt, List.append_assoc]
    · rw [List.drop_append_of_le_length hlt]

theorem litReplace_ends_with_quote (r t' : Str) :
    ∀ (n : Nat) (pre : Str), pre.length ≤ n →
      ∃ A, litReplace (quoted r) (quoted t') (pre ++ [dq]) = A ++ [dq] := by
  intro n
  induction n with
  | zero =>
    intro pre h
    have : pre = [] := List.length_eq_zero.mp (Nat.le_zero.mp h)
    subst this
    exact ⟨[], by simp [litReplace_single_quote]⟩
  | succ n ih =>
    intro pre h
    cases pre with
    | nil => exact ⟨[], by simp [litReplace_single_quote]⟩
    | cons c pre' =>
      by_cases hm : (quoted r).isPrefixOf (c :: pre' ++ [dq]) = true
      · have hp := (isPrefixOf_true_iff _ _).mp hm
        rw [List.cons_append] at hm
        rw [List.cons_append, litReplace_cons_hit _ _ _ _ (quoted_ne_nil r) hm]
        rcases drop_quoted_of_hit r (c :: pre') [] hp with ⟨_, h2⟩ | ⟨d, hd, _, h2⟩
        · rw [← List.cons_append, h2, litReplace_nil]
          exact ⟨dq :: t', by simp [quoted]⟩
        · rw [← List.cons_append, h2]
          have hdn : d.length ≤ n := by
            simp only [List.length_cons] at hd h; omega
          obtain ⟨A, hA⟩ := ih d hdn
          exact ⟨quoted t' ++ A, by rw [hA, List.append_assoc]⟩
      · rw [List.cons_append] at hm
        rw [List.cons_append, litReplace_cons_miss _ _ _ _ (Bool.eq_false_iff.mpr hm)]
        have hn : pre'.length ≤ n := by simpa using h
        obtain ⟨A, hA⟩ := ih pre' hn
        exact ⟨c :: A, by rw [hA, List.cons_append]⟩

theorem litReplace_keeps_other_quoted (r s t : Str) (hr : dq ∉ r) (hs : dq ∉ s) (hne : r ≠ s)
    (post : Str) :
    ∀ (n : Nat) (pre : Str), pre.length ≤ n →
      litReplace (quoted r) t (pre ++ [dq] ++ (s ++ dq :: post))
        = litReplace (quoted r) t (pre ++ [dq]) ++ s ++ litReplace (quoted r) t (dq :: post) := by
  have base : litReplace (quoted r) t ([] ++ [dq] ++ (s ++ dq :: post))
      = litReplace (quoted r) t ([] ++ [dq]) ++ s ++ litReplace (quoted r) t (dq :: post) := by
    have hmiss : (quoted r).isPrefixOf (dq :: (s ++ dq :: post)) = false := by
      rw [isPrefixOf_false_iff]
      intro h
      simp only [quoted, List.cons_append, List.cons_prefix_cons, true_and] at h
      exact hne (closing_quote_unique r s _ hr hs h)
    simp only [List.nil_append, List.singleton_append]
    rw [litReplace_cons_miss _ _ _ _ hmiss, litReplace_plain_run r t s _ hs,
      litReplace_single_quote]
    simp
  intro n
  induction n with
  | zero =>
    intro pre h
    have : pre = [] := List.length_eq_zero.mp (Nat.le_zero.mp h)
    subst this
    exact base
  | succ n ih =>
    intro pre h
    cases pre with
    | nil => exact base
    | cons c pre' =>
      by_cases hm : (quoted r).isPrefixOf (c :: pre' ++ [dq] ++ (s ++ dq :: post)) = true
      · have hp := (isPrefixOf_true_iff _ _).mp hm
        have hp2 : quoted r <+: (c :: pre') ++ [dq] := by
          have e : c :: pre' ++ [dq] ++ (s ++ dq :: post)
              = c :: (pre' ++ dq :: (s ++ dq :: post)) := by simp
          rw [e] at hp
          simp only [quoted, List.cons_append, List.cons_prefix_cons] at hp ⊢
          exact ⟨hp.1, closing_quote_within r pre' _ hr hp.2⟩
        have hm2 : (quoted r).isPrefixOf (c :: (pre' ++ [dq])) = true :=
          (isPrefixOf_true_iff _ _).mpr (by simpa using hp2)
        have hm3 : (quoted r).isPrefixOf (c :: (pre' ++ [dq] ++ (s ++ dq :: post))) = true := by
          simpa using hm
        have e1 : c :: pre' ++ [dq] ++ (s ++ dq :: post)
            = c :: (pre' ++ [dq] ++ (s ++ dq :: post)) := by simp
        have e2 : c :: pre' ++ [dq] = c :: (pre' ++ [dq]) := by simp
        rw [e1, e2, litReplace_cons_hit _ _ _ _ (quoted_ne_nil r) hm3,
          litReplace_cons_hit _ _ _ _ (quoted_ne_nil r) hm2, ← e1, ← e2]
        rcases drop_quoted_of_hit r (c :: pre') (s ++ dq :: post) hp2 with
          ⟨h1, h2⟩ | ⟨d, hd, h1, h2⟩
        · rw [h1, h2, litReplace_nil, litReplace_plain_run r t s _ hs]
          simp
        · rw [h1, h2]
          have hdn : d.length ≤ n := by
            simp only [List.length_cons] at hd h; omega
          rw [ih d hdn]
          simp
      · have hm3 : (quoted r).isPrefixOf (c :: (pre' ++ [dq] ++ (s ++ dq :: post))) = false := by
          rw [List.cons_append, List.cons_append] at hm
          exact Bool.eq_false_iff.mpr hm
        have hm2 : (quoted r).isPrefixOf (c :: (pre' ++ [dq])) = false := by
          rw [isPrefixOf_false_iff]
          intro hp
          rw [isPrefixOf_false_iff] at hm3
          apply hm3
          have e1 : c :: (pre' ++ [dq] ++ (s ++ dq :: post))
              = c :: (pre' ++ [dq]) ++ (s ++ dq :: post) := by simp
          rw [e1]
          exact hp.trans (List.prefix_append _ _)
        have e1 : c :: pre' ++ [dq] ++ (s ++ dq :: post)
            = c :: (pre' ++ [dq] ++ (s ++ dq :: post)) := by simp
        have e2 : c :: pre' ++ [dq] = c :: (pre' ++ [dq]) := by simp
        have hn : pre'.length ≤ n := by simpa using h
        rw [e1, e2, litReplace_cons_miss _ _ _ _ hm3, litReplace_cons_miss _ _ _ _ hm2,
          ih pre' hn]
        simp

/-! ## Plain objects and the file system -/

theorem find?_key_hit {α : Type} (e : Str × α) (es : List (Str × α)) (k : Str) (h : e.1 = k) :
    (e :: es).find? (fun e => e.1 == k) = some e :=
  List.find?_cons_of_pos _ (by simp [h])

theorem find?_key_miss {α : Type} (e : Str × α) (es : List (Str × α)) (k : Str) (h : ¬ e.1 = k) :
    (e :: es).find? (fun e => e.1 == k) = es.find? (fun e => e.1 == k) :=
  List.find?_cons_of_neg _ (by simp [h])

theorem find?_update {α : Type} (es : List (Str × α)) (k : Str) (v : α) (k' : Str) :
    (es.map (fun e => if e.1 == k then (k, v) else e)).find? (fun e => e.1 == k')
      = if k' = k then (if es.any (fun e => e.1 == k) then some (k, v) else none)
        else es.find? (fun e => e.1 == k') := by
  induction es with
  | nil => simp
  | cons e es ih =>
    rw [List.map_cons]
    by_cases h : e.1 = k
    · have hb : (e.1 == k) = true := by simp [h]
      simp only [hb, if_true]
      by_cases h' : k' = k
      · rw [find?_key_hit (k, v) _ _ h'.symm, if_pos h', List.any_cons, hb, Bool.true_or,
          if_pos rfl]
      · have h2 : ¬ k = k' := fun x => h' x.symm
        have h3 : ¬ e.1 = k' := fun x => h' (by rw [← x, h])
        rw [find?_key_miss (k, v) _ _ h2, ih, find?_key_miss e _ _ h3, if_neg h', if_neg h']
    · have hb : (e.1 == k) = false := by simp [h]
      simp only [hb, Bool.false_eq_true, if_false]
      by_cases h3 : e.1 = k'
      · have h' : ¬ k' = k := fun x => h (by rw [h3, x])
        rw [find?_key_hit _ _ _ h3, find?_key_hit _ _ _ h3, if_neg h']
      · rw [find?_key_miss _ _ _ h3, find?_key_miss _ _ _ h3, ih]
        by_cases h' : k' = k
        · rw [if_pos h', if_pos h', List.any_cons, hb, Bool.false_or]
        · rw [if_neg h', if_neg h']

namespace JSObj

variable {α : Type}

theorem hasOwn_eq_isSome (o : JSObj α) (k : Str) : o.hasOwn k = (o.get? k).isSome := by
  unfold hasOwn get?
  induction o.own with
  | nil => rfl
  | cons e es ih =>
    by_cases h : e.1 = k
    · have hb : (e.1 == k) = true := beq_iff_eq.mpr h
      rw [find?_key_hit _ _ _ h, List.any_cons, hb]
      rfl
    · have hb : (e.1 == k) = false := beq_eq_false_iff_ne.mpr h
      rw [find?_key_miss _ _ _ h, ← ih, List.any_cons, hb, Bool.false_or]

theorem get?_set (o : JSObj α) (k : Str) (v : α) (k' : Str) (hk : k ≠ "__proto__".toList) :
    (o.set k v).get? k' = if k' = k then some v else o.get? k' := by
  by_cases ho : o.hasOwn k = true
  · have ho' := ho
    unfold hasOwn at ho'
    simp only [set, if_neg hk, ho, if_true, get?, find?_update, ho']
    by_cases h' : k' = k <;> simp [h']
  · have hnone : o.own.find? (fun e => e.1 == k) = none := by
      have := hasOwn_eq_isSome o k
      rw [Bool.eq_false_iff.mpr ho] at this
      unfold get? at this
      cases hf : o.own.find? (fun e => e.1 == k) with
      | none => rfl
      | some x => rw [hf] at this; simp at this
    have e : (o.set k v).own = o.own ++ [(k, v)] := by
      simp only [set, if_neg hk, ho]
      rfl
    unfold get?
    rw [e, List.find?_append]
    by_cases h' : k' = k
    · subst h'
      rw [hnone, find?_key_hit (k', v) [] k' rfl, if_pos rfl]
      rfl
    · have h2 : ¬ k = k' := fun x => h' x.symm
      rw [find?_key_miss (k, v) [] k' h2, if_neg h']
      cases o.own.find? (fun e => e.1 == k') <;> rfl

theorem get?_modify (o : JSObj α) (k : Str) (f : α → α) (k' : Str) :
    (o.modify k f).get? k' = if k' = k then (o.get? k').map f else o.get? k' := by
  unfold modify get?
  induction o.own with
  | nil => simp
  | cons e es ih =>
    rw [List.map_cons]
    by_cases h : e.1 = k
    · have hb : (e.1 == k) = true := by simp [h]
      simp only [hb, if_true]
      by_cases h' : k' = k
      · have h1 : e.1 = k' := by rw [h, h']
        rw [find?_key_hit (e.1, f e.2) _ _ h1, find?_key_hit e _ _ h1, if_pos h']
        rfl
      · have h3 : ¬ e.1 = k' := fun x => h' (by rw [← x, h])
        rw [find?_key_miss (e.1, f e.2) _ _ h3, find?_key_miss e _ _ h3, ih]
    · have hb : (e.1 == k) = false := by simp [h]
      simp only [hb, Bool.false_eq_true, if_false]
      by_cases h3 : e.1 = k'
      · have h' : ¬ k' = k := fun x => h (by rw [h3, x])
        rw [find?_key_hit _ _ _ h3, find?_key_hit _ _ _ h3, if_neg h']
      · rw [find?_key_miss _ _ _ h3, find?_key_miss _ _ _ h3, ih]

theorem get?_empty (k : Str) : (empty : JSObj α).get? k = none := rfl

theorem mem_keys (o : JSObj α) (k : Str) : k ∈ o.keys ↔ o.hasOwn k = true := by
  unfold keys hasOwn
  rw [List.mem_append, (List.perm_insertionSort _ _).mem_iff]
  simp only [List.mem_filter, List.mem_map, List.any_eq_true, beq_iff_eq]
  constructor
  · rintro (⟨⟨e, he, rfl⟩, _⟩ | ⟨⟨e, he, rfl⟩, _⟩)
    · exact ⟨e, he, rfl⟩
    · exact ⟨e, he, rfl⟩
  · rintro ⟨e, he, rfl⟩
    by_cases hi : (arrayIndex? e.1).isSome = true
    · exact Or.inl ⟨⟨e, he, rfl⟩, hi⟩
    · exact Or.inr ⟨⟨e, he, rfl⟩, by simpa using hi⟩

end JSObj

namespace HtmlFiles

theorem entry?_assign (h : HtmlFiles) (p : Str) (v : Str × Bool) (d : Str) :
    (h.assign p v).entry? d = if d = p then some v else h.entry? d := by
  unfold assign entry?
  by_cases hp : p = "__proto__".toList
  · rw [if_pos hp]
    by_cases hd : d = "__proto__".toList
    · rw [if_pos hd, if_pos hd, if_pos (hd.trans hp.symm)]
    · rw [if_neg hd, if_neg hd, if_neg (fun e => hd (e.trans hp))]
  · rw [if_neg hp]
    by_cases hd : d = "__proto__".toList
    · rw [if_pos hd, if_pos hd, if_neg (fun e => hp (e.symm.trans hd))]
    · rw [if_neg hd, if_neg hd]
      exact JSObj.get?_set _ _ _ _ hp

theorem entry?_modify (h : HtmlFiles) (p : Str) (f : Str × Bool → Str × Bool) (d : Str) :
    (h.modify p f).entry? d = if d = p then (h.entry? d).map f else h.entry? d := by
  unfold modify entry?
  by_cases hp : p = "__proto__".toList
  · rw [if_pos hp]
    by_cases hd : d = "__proto__".toList
    · rw [if_pos hd, if_pos hd, if_pos (hd.trans hp.symm)]
    · rw [if_neg hd, if_neg hd, if_neg (fun e => hd (e.trans hp))]
  · rw [if_neg hp]
    by_cases hd : d = "__proto__".toList
    · rw [if_pos hd, if_pos hd, if_neg (fun e => hp (e.symm.trans hd))]
    · rw [if_neg hd, if_neg hd]
      exact JSObj.get?_modify _ _ _ _

theorem entry?_empty (d : Str) : HtmlFiles.empty.entry? d = none := by
  unfold entry? empty
  by_cases hd : d = "__proto__".toList
  · rw [if_pos hd]
  · rw [if_neg hd]; rfl

end HtmlFiles

theorem Changes.get_set (c : Changes) (kind : Kind) (o : JSObj Record) (kind' : Kind) :
    (c.set kind o).get kind' = if kind' = kind then o else c.get kind' := by
  cases kind <;> cases kind' <;> simp [Changes.set, Changes.get]

theorem find?_filter_other {α : Type} (es : List (Str × α)) (p d : Str) (h : ¬ d = p) :
    (es.filter (fun e => !(e.1 == p))).find? (fun e => e.1 == d)
      = es.find? (fun e => e.1 == d) := by
  induction es with
  | nil => rfl
  | cons e es ih =>
    by_cases he : e.1 = p
    · have hd : ¬ e.1 = d := fun x => h (by rw [← x, he])
      have hf : (!(e.1 == p)) = false := by simp [he]
      rw [List.filter_cons_of_neg (by simp [he]), find?_key_miss _ _ _ hd, ih]
    · rw [List.filter_cons_of_pos (by simp [he])]
      by_cases hd : e.1 = d
      · rw [find?_key_hit _ _ _ hd, find?_key_hit _ _ _ hd]
      · rw [find?_key_miss _ _ _ hd, find?_key_miss _ _ _ hd, ih]

theorem FS.readFile_writeFile (fs : FS) (p c d : Str) :
    (fs.writeFile p c).readFile d = if d = p then some c else fs.readFile d := by
  unfold FS.writeFile FS.readFile
  by_cases h : d = p
  · subst h
    rw [find?_key_hit (d, c) _ d rfl, if_pos rfl]
    rfl
  · have h2 : ¬ p = d := fun x => h x.symm
    rw [find?_key_miss (p, c) _ d h2, find?_filter_other _ _ _ h, if_neg h]

/-! ## Loops -/

theorem forEach_state_ind {σ α : Type} (body : σ → α → Res σ) (I : σ → Prop)
    (hstep : ∀ x s, I s → I (body s x).state) :
    ∀ (l : List α) (s : σ), I s → I (forEach body l s).state := by
  intro l
  induction l with
  | nil => intro s hs; exact hs
  | cons x xs ih =>
    intro s hs
    have h := hstep x s hs
    unfold forEach
    cases hb : body s x with
    | ok s' =>
      rw [hb] at h
      exact ih s' h
    | fail e s' =>
      rw [hb] at h
      exact h

theorem forEach_ok_ind {σ α : Type} (body : σ → α → Res σ) (I : σ → Prop) (R : σ → σ → Prop)
    (Q : α → σ → Prop) (hrefl : ∀ s, R s s) (htrans : ∀ a b c, R a b → R b c → R a c)
    (hmono : ∀ x s s', Q x s → R s s' → Q x s') :
    ∀ (l : List α),
      (∀ x ∈ l, ∀ s s', I s → body s x = .ok s' → I s' ∧ R s s' ∧ Q x s') →
      ∀ (s s' : σ), I s → forEach body l s = .ok s' → I s' ∧ R s s' ∧ ∀ x ∈ l, Q x s' := by
  intro l
  induction l with
  | nil =>
    intro _ s s' hs h
    simp only [forEach, Res.ok.injEq] at h
    subst h
    exact ⟨hs, hrefl s, by simp⟩
  | cons x xs ih =>
    intro hstep s s' hs h
    unfold forEach at h
    cases hb : body s x with
    | fail e s1 => rw [hb] at h; simp at h
    | ok s1 =>
      rw [hb] at h
      obtain ⟨hI1, hR1, hQ1⟩ := hstep x (List.mem_cons_self _ _) s s1 hs hb
      obtain ⟨hI', hR', hQ'⟩ :=
        ih (fun y hy => hstep y (List.mem_cons_of_mem _ hy)) s1 s' hI1 h
      refine ⟨hI', htrans _ _ _ hR1 hR', ?_⟩
      intro y hy
      rcases List.mem_cons.mp hy with rfl | hy
      · exact hmono _ _ _ hQ1 hR'
      · exact hQ' y hy

/-! ## The scan -/

theorem changes_get?_set (c : Changes) (kind : Kind) (ref : Str) (v : Record) (kind' : Kind)
    (ref' : Str) (hk : ref ≠ "__proto__".toList) :
    ((c.set kind ((c.get kind).set ref v)).get kind').get? ref'
      = if kind' = kind ∧ ref' = ref then some v else (c.get kind').get? ref' := by
  rw [Changes.get_set]
  by_cases hk : kind' = kind
  · subst hk
    rw [if_pos rfl, JSObj.get?_set _ _ _ _ ‹_›]
    by_cases hr : ref' = ref <;> simp [hr]
  · rw [if_neg hk]
    simp [hk]

theorem changes_get?_modify (c : Changes) (kind : Kind) (ref : Str) (f : Record → Record)
    (rec : Record) (hget : (c.get kind).get? ref = some rec) (kind' : Kind) (ref' : Str) :
    ((c.set kind ((c.get kind).modify ref f)).get kind').get? ref'
      = if kind' = kind ∧ ref' = ref then some (f rec) else (c.get kind').get? ref' := by
  rw [Changes.get_set]
  by_cases hk : kind' = kind
  · subst hk
    rw [if_pos rfl, JSObj.get?_modify]
    by_cases hr : ref' = ref
    · subst hr
      rw [if_pos rfl, if_pos ⟨rfl, rfl⟩, hget]
      rfl
    · rw [if_neg hr, if_neg (fun h => hr h.2)]
  · rw [if_neg hk]
    simp [hk]

theorem transformCalls_append (l1 l2 : List Effect) (kind : Kind) (ref : Str) :
    transformCalls (l1 ++ l2) kind ref = transformCalls l1 kind ref + transformCalls l2 kind ref := by
  simp [transformCalls, List.countP_append]

theorem Grows.refl (st : State) : Grows st st :=
  fun _ _ rec h => ⟨rec, h, fun _ hd => hd⟩

theorem Grows.trans {a b c : State} (h1 : Grows a b) (h2 : Grows b c) : Grows a c := by
  intro kind ref rec h
  obtain ⟨rec1, hr1, hs1⟩ := h1 kind ref rec h
  obtain ⟨rec2, hr2, hs2⟩ := h2 kind ref rec1 hr1
  exact ⟨rec2, hr2, fun d hd => hs2 d (hs1 d hd)⟩

theorem Recorded.mono {path : Str} {kind : Kind} {ref : Str} {st st' : State}
    (h : Recorded path kind ref st) (hg : Grows st st') : Recorded path kind ref st' := by
  obtain ⟨rec, hr, hp⟩ := h
  obtain ⟨rec', hr', hs⟩ := hg kind ref rec hr
  exact ⟨rec', hr', hs path hp⟩

/-- A property of the records survives the creation or the change of one record when the
new value has it. -/
theorem records_update (c c' : Changes) (kind : Kind) (ref : Str) (v : Record)
    (hc : ∀ kind' ref', (c'.get kind').get? ref'
      = if kind' = kind ∧ ref' = ref then some v else (c.get kind').get? ref')
    (P : Kind → Str → Record → Prop)
    (hold : ∀ k r rec, (c.get k).get? r = some rec → P k r rec) (hnew : P kind ref v) :
    ∀ k r rec, (c'.get k).get? r = some rec → P k r rec := by
  intro k r rec hr
  rw [hc] at hr
  by_cases h : k = kind ∧ r = ref
  · rw [if_pos h] at hr
    simp only [Option.some.injEq] at hr
    rw [h.1, h.2, ← hr]
    exact hnew
  · rw [if_neg h] at hr
    exact hold k r rec hr

theorem not_has_ne_proto {α : Type} (o : JSObj α) (ref : Str) (h : o.has ref = false) :
    ref ≠ "__proto__".toList := by
  intro e
  subst e
  unfold JSObj.has at h
  have := (Bool.or_eq_false_iff.mp h).2
  exact absurd this (by decide)

theorem scanMatch_ok (ext : Ext) (A : Str) (are : JSRegExp) (fs : FS) (path file : Str)
    (kind : Kind) (st st' : State) (ref : Str) (hI : ScanInv ext A are fs st)
    (hfile : fs.readFile path = some file) (href : ref ∈ refsOf kind file)
    (h : scanMatch ext A are path kind st ref = .ok st') :
    ScanInv ext A are fs st' ∧ (Grows st st' ∧ st'.htmlFiles = st.htmlFiles) ∧
      Recorded path kind ref st' := by
  unfold scanMatch at h
  by_cases hhas : (st.changes.get kind).has ref = true
  · simp only [hhas, if_true] at h
    cases hget : (st.changes.get kind).get? ref with
    | none => rw [hget] at h; simp at h
    | some rec =>
      rw [hget] at h
      simp only [Res.ok.injEq] at h
      subst h
      have hown : (st.changes.get kind).hasOwn ref = true := by
        rw [JSObj.hasOwn_eq_isSome, hget]; rfl
      have hc := changes_get?_modify st.changes kind ref
        (fun rec => { rec with htmlPaths := rec.htmlPaths ++ [path] }) rec hget
      refine ⟨⟨hI.fs_eq, hI.pure, ?_, ?_, ?_, ?_, hI.flags⟩, ⟨?_, rfl⟩, ?_⟩
      · intro kind' ref'
        have e : ((st.changes.set kind ((st.changes.get kind).modify ref
              (fun rec => { rec with htmlPaths := rec.htmlPaths ++ [path] }))).get kind').hasOwn ref'
            = (st.changes.get kind').hasOwn ref' := by
          rw [JSObj.hasOwn_eq_isSome, JSObj.hasOwn_eq_isSome, hc]
          by_cases hc' : kind' = kind ∧ ref' = ref
          · rw [if_pos hc', hc'.1, hc'.2, hget]; rfl
          · rw [if_neg hc']
        show transformCalls st.log kind' ref' = _
        rw [e]
        exact hI.calls kind' ref'
      · refine records_update st.changes _ kind ref _ hc
          (fun k r rec => ∀ d ∈ rec.htmlPaths, ∃ file, fs.readFile d = some file ∧ r ∈ refsOf k file)
          hI.refs ?_
        intro d hd
        rcases List.mem_append.mp hd with hd | hd
        · exact hI.refs _ _ rec hget d hd
        · rw [List.mem_singleton.mp hd]
          exact ⟨file, hfile, href⟩
      · exact records_update st.changes _ kind ref _ hc (fun _ _ rec => rec.htmlPaths ≠ [])
          hI.nonempty (by simp)
      · exact records_update st.changes _ kind ref _ hc
          (fun k r rec => rec.source = resolve A are r ∧
            ∃ c, fs.readFile (resolve A are r) = some c ∧
              ext.minify k c (resolve A are r) = some rec.content)
          hI.made (hI.made kind ref rec hget)
      · intro kind' ref' r hr
        by_cases hc' : kind' = kind ∧ ref' = ref
        · refine ⟨{ rec with htmlPaths := rec.htmlPaths ++ [path] }, ?_, ?_⟩
          · change ((st.changes.set kind _).get kind').get? ref' = _
            rw [hc, if_pos hc']
          · obtain ⟨hk, hr'⟩ := hc'
            subst hk; subst hr'
            rw [hget] at hr
            simp only [Option.some.injEq] at hr
            subst hr
            intro d hd
            exact List.mem_append_left _ hd
        · refine ⟨r, ?_, fun d hd => hd⟩
          change ((st.changes.set kind _).get kind').get? ref' = _
          rw [hc, if_neg hc']
          exact hr
      · refine ⟨{ rec with htmlPaths := rec.htmlPaths ++ [path] }, ?_, by simp⟩
        change ((st.changes.set kind _).get kind).get? ref = _
        rw [hc, if_pos ⟨rfl, rfl⟩]
  · simp only [hhas, Bool.false_eq_true, if_false] at h
    have hhas' : (st.changes.get kind).has ref = false := Bool.eq_false_iff.mpr hhas
    have hproto := not_has_ne_proto _ _ hhas'
    have hown : (st.changes.get kind).hasOwn ref = false := by
      unfold JSObj.has at hhas'
      exact (Bool.or_eq_false_iff.mp hhas').1
    have hnone : (st.changes.get kind).get? ref = none := by
      have := JSObj.hasOwn_eq_isSome (st.changes.get kind) ref
      rw [hown] at this
      cases hg : (st.changes.get kind).get? ref with
      | none => rfl
      | some x => rw [hg] at this; simp at this
    cases hread : st.fs.readFile (resolve A are ref) with
    | none => rw [hread] at h; simp at h
    | some content0 =>
      rw [hread] at h
      simp only at h
      cases hmin : ext.minify kind content0 (resolve A are ref) with
      | none => rw [hmin] at h; simp at h
      | some content =>
        rw [hmin] at h
        simp only [Res.ok.injEq] at h
        subst h
        have hc := fun kind' ref' => changes_get?_set st.changes kind ref
          ⟨content, resolve A are ref, [path]⟩ kind' ref' hproto
        refine ⟨⟨hI.fs_eq, ?_, ?_, ?_, ?_, ?_, hI.flags⟩, ⟨?_, rfl⟩, ?_⟩
        · intro e he
          rcases List.mem_append.mp he with he | he
          · exact hI.pure e he
          · simp only [List.mem_cons, List.mem_singleton, List.not_mem_nil, or_false] at he
            rcases he with rfl | rfl <;> rfl
        · intro kind' ref'
          show transformCalls (st.log ++ _) kind' ref' = _
          rw [transformCalls_append, hI.calls kind' ref', JSObj.hasOwn_eq_isSome,
            JSObj.hasOwn_eq_isSome]
          change _ = if (((st.changes.set kind _).get kind').get? ref').isSome = true then 1 else 0
          rw [hc]
          by_cases hc' : kind' = kind ∧ ref' = ref
          · obtain ⟨hk, hr'⟩ := hc'
            subst hk; subst hr'
            simp [hnone, transformCalls]
          · rw [if_neg hc']
            have : transformCalls [Effect.readFile (resolve A are ref),
                Effect.transform kind ref (resolve A are ref)] kind' ref' = 0 := by
              simp only [transformCalls, List.countP_cons, List.countP_nil]
              have : (kind == kind' && ref == ref') = false := by
                rw [Bool.and_eq_false_iff]
                by_cases hk : kind = kind'
                · right
                  have : ¬ ref = ref' := fun x => hc' ⟨hk.symm, x.symm⟩
                  simpa using this
                · left
                  simpa using hk
              simp [this]
            rw [this]
            simp
        · refine records_update st.changes _ kind ref _ hc
            (fun k r rec => ∀ d ∈ rec.htmlPaths, ∃ file, fs.readFile d = some file ∧ r ∈ refsOf k file)
            hI.refs ?_
          intro d hd
          rw [List.mem_singleton.mp hd]
          exact ⟨file, hfile, href⟩
        · exact records_update st.changes _ kind ref _ hc (fun _ _ rec => rec.htmlPaths ≠ [])
            hI.nonempty (by simp)
        · refine records_update st.changes _ kind ref _ hc
            (fun k r rec => rec.source = resolve A are r ∧
              ∃ c, fs.readFile (resolve A are r) = some c ∧
                ext.minify k c (resolve A are r) = some rec.content)
            hI.made ⟨rfl, content0, ?_, hmin⟩
          rw [← hI.fs_eq]
          exact hread
        · intro kind' ref' r hr
          by_cases hc' : kind' = kind ∧ ref' = ref
          · obtain ⟨hk, hr'⟩ := hc'
            subst hk; subst hr'
            rw [hnone] at hr
            simp at hr
          · refine ⟨r, ?_, fun d hd => hd⟩
            change ((st.changes.set kind _).get kind').get? ref' = _
            rw [hc, if_neg hc']
            exact hr
        · refine ⟨⟨content, resolve A are ref, [path]⟩, ?_, by simp⟩
          change ((st.changes.set kind _).get kind).get? ref = _
          rw [hc, if_pos ⟨rfl, rfl⟩]

theorem scanKind_ok (ext : Ext) (A : Str) (are : JSRegExp) (fs : FS) (path file : Str)
    (hfile : fs.readFile path = some file) (kind : Kind) (st st' : State) (hI : ScanInv ext A are fs st)
    (h : scanKind ext A are path file st kind = .ok st') :
    ScanInv ext A are fs st' ∧ (Grows st st' ∧ st'.htmlFiles = st.htmlFiles) ∧
      ∀ ref ∈ refsOf kind file, Recorded path kind ref st' := by
  unfold scanKind at h
  exact forEach_ok_ind (scanMatch ext A are path kind) (ScanInv ext A are fs)
    (fun s s' => Grows s s' ∧ s'.htmlFiles = s.htmlFiles)
    (fun ref s => Recorded path kind ref s)
    (fun s => ⟨Grows.refl s, rfl⟩)
    (fun a b c h1 h2 => ⟨h1.1.trans h2.1, h2.2.trans h1.2⟩)
    (fun _ _ _ hq hr => hq.mono hr.1)
    (refsOf kind file)
    (fun ref href s s' hs hb => scanMatch_ok ext A are fs path file kind s s' ref hs hfile href hb)
    st st' hI h

theorem ScanInv.readDoc {ext : Ext} {A : Str} {are : JSRegExp} {fs : FS} {st : State}
    (hI : ScanInv ext A are fs st) (path file : Str) (hfile : fs.readFile path = some file) :
    ScanInv ext A are fs { st with
      log := st.log ++ [.readFile path]
      htmlFiles := st.htmlFiles.assign path (file, false) } := by
  refine ⟨hI.fs_eq, ?_, ?_, hI.refs, hI.nonempty, hI.made, ?_⟩
  · intro e he
    rcases List.mem_append.mp he with he | he
    · exact hI.pure e he
    · rw [List.mem_singleton.mp he]; rfl
  · intro kind ref
    show transformCalls (st.log ++ _) kind ref = _
    rw [transformCalls_append, hI.calls kind ref]
    simp [transformCalls]
  · intro d entry hd
    change (st.htmlFiles.assign path (file, false)).entry? d = some entry at hd
    rw [HtmlFiles.entry?_assign] at hd
    by_cases hp : d = path
    · rw [if_pos hp] at hd
      simp only [Option.some.injEq] at hd
      rw [← hd, hp]
      exact ⟨rfl, hfile⟩
    · rw [if_neg hp] at hd
      exact hI.flags d entry hd

theorem scanDoc_ok (ext : Ext) (A : Str) (are : JSRegExp) (fs : FS) (path : Str)
    (st st' : State) (hI : ScanInv ext A are fs st) (h : scanDoc ext A are st path = .ok st') :
    ScanInv ext A are fs st' ∧ Grows st st' ∧
      ∀ file, fs.readFile path = some file →
        ∀ kind, ∀ ref ∈ refsOf kind file, Recorded path kind ref st' := by
  unfold scanDoc at h
  rw [show st.fs.readFile path = fs.readFile path from by rw [hI.fs_eq]] at h
  cases hread : fs.readFile path with
  | none => rw [hread] at h; simp at h
  | some file =>
    rw [hread] at h
    simp only at h
    have h3 := forEach_ok_ind (scanKind ext A are path file) (ScanInv ext A are fs)
      (fun s s' => Grows s s')
      (fun kind s => ∀ ref ∈ refsOf kind file, Recorded path kind ref s)
      Grows.refl (fun a b c h1 h2 => h1.trans h2)
      (fun _ _ _ hq hr ref href => (hq ref href).mono hr)
      Kind.all
      (fun kind _ s s' hs hb =>
        have r := scanKind_ok ext A are fs path file hread kind s s' hs hb
        ⟨r.1, r.2.1.1, r.2.2⟩)
      _ st' (hI.readDoc path file hread) h
    refine ⟨h3.1, ?_, ?_⟩
    · intro kind ref rec hr
      exact h3.2.1 kind ref rec hr
    · intro file' hf' kind ref href
      simp only [Option.some.injEq] at hf'
      subst hf'
      have hk : kind ∈ Kind.all := by cases kind <;> simp [Kind.all]
      exact h3.2.2 kind hk ref href

theorem State.init_get? (fs : FS) (kind : Kind) (ref : Str) :
    ((State.init fs).changes.get kind).get? ref = none := by
  cases kind <;> rfl

theorem ScanInv.init (ext : Ext) (A : Str) (are : JSRegExp) (fs : FS) :
    ScanInv ext A are fs (State.init fs) := by
  refine ⟨rfl, ?_, ?_, ?_, ?_, ?_, ?_⟩
  · intro e he; simp [State.init] at he
  · intro kind ref
    cases kind <;> rfl
  · intro kind ref rec hr
    rw [State.init_get?] at hr
    simp at hr
  · intro kind ref rec hr
    rw [State.init_get?] at hr
    simp at hr
  · intro kind ref rec hr
    rw [State.init_get?] at hr
    simp at hr
  · intro d entry hd
    change HtmlFiles.empty.entry? d = some entry at hd
    rw [HtmlFiles.entry?_empty] at hd
    simp at hd

theorem scan_ok (ext : Ext) (A : Str) (are : JSRegExp) (fs : FS) (htmlPaths : List Str)
    (st' : State) (h : scan ext A are htmlPaths (State.init fs) = .ok st') :
    ScanInv ext A are fs st' ∧
      ∀ path ∈ htmlPaths, ∀ file, fs.readFile path = some file →
        ∀ kind, ∀ ref ∈ refsOf kind file, Recorded path kind ref st' := by
  unfold scan at h
  have h3 := forEach_ok_ind (scanDoc ext A are) (ScanInv ext A are fs) (fun s s' => Grows s s')
    (fun path s => ∀ file, fs.readFile path = some file →
        ∀ kind, ∀ ref ∈ refsOf kind file, Recorded path kind ref s)
    Grows.refl (fun a b c h1 h2 => h1.trans h2)
    (fun _ _ _ hq hr file hf kind ref href => (hq file hf kind ref href).mono hr)
    htmlPaths
    (fun path _ s s' hs hb => scanDoc_ok ext A are fs path s s' hs hb)
    _ st' (ScanInv.init ext A are fs) h
  exact ⟨h3.1, h3.2.2⟩

/-! ## A failed scan leaves the file system alone -/

theorem Untouched.log_append {fs : FS} {st : State} (hI : Untouched fs st) (l : List Effect)
    (hl : ∀ e ∈ l, e.isMutation = false) : ∀ e ∈ st.log ++ l, e.isMutation = false := by
  intro e he
  rcases List.mem_append.mp he with he | he
  · exact hI.2 e he
  · exact hl e he

theorem scanMatch_untouched (ext : Ext) (A : Str) (are : JSRegExp) (fs : FS) (path : Str)
    (kind : Kind) (ref : Str) (st : State) (hI : Untouched fs st) :
    Untouched fs (scanMatch ext A are path kind st ref).state := by
  unfold scanMatch
  by_cases hhas : (st.changes.get kind).has ref = true
  · simp only [hhas, if_true]
    cases (st.changes.get kind).get? ref with
    | none => exact hI
    | some rec => exact hI
  · simp only [hhas, Bool.false_eq_true, if_false]
    cases st.fs.readFile (resolve A are ref) with
    | none =>
      refine ⟨hI.1, hI.log_append _ ?_⟩
      intro e he
      simp only [List.mem_cons, List.mem_singleton, List.not_mem_nil, or_false] at he
      rcases he with rfl | rfl <;> rfl
    | some content0 =>
      dsimp only
      cases ext.minify kind content0 (resolve A are ref) with
      | none =>
        refine ⟨hI.1, hI.log_append _ ?_⟩
        intro e he
        simp only [List.mem_cons, List.mem_singleton, List.not_mem_nil, or_false] at he
        rcases he with rfl | rfl | rfl <;> rfl
      | some content =>
        refine ⟨hI.1, hI.log_append _ ?_⟩
        intro e he
        simp only [List.mem_cons, List.mem_singleton, List.not_mem_nil, or_false] at he
        rcases he with rfl | rfl <;> rfl

theorem scanKind_untouched (ext : Ext) (A : Str) (are : JSRegExp) (fs : FS) (path file : Str)
    (kind : Kind) (st : State) (hI : Untouched fs st) :
    Untouched fs (scanKind ext A are path file st kind).state := by
  unfold scanKind
  exact forEach_state_ind (scanMatch ext A are path kind) (Untouched fs)
    (fun ref s hs => scanMatch_untouched ext A are fs path kind ref s hs) _ st hI

theorem Untouched.afterRead {fs : FS} {st : State} (hI : Untouched fs st) (path : Str)
    (hf : HtmlFiles) :
    Untouched fs { st with log := st.log ++ [.readFile path], htmlFiles := hf } := by
  refine ⟨hI.1, hI.log_append _ ?_⟩
  intro e he
  rw [List.mem_singleton.mp he]
  rfl

theorem scanDoc_untouched (ext : Ext) (A : Str) (are : JSRegExp) (fs : FS) (path : Str)
    (st : State) (hI : Untouched fs st) : Untouched fs (scanDoc ext A are st path).state := by
  unfold scanDoc
  cases st.fs.readFile path with
  | none =>
    refine ⟨hI.1, hI.log_append _ ?_⟩
    intro e he
    rw [List.mem_singleton.mp he]
    rfl
  | some file =>
    exact forEach_state_ind (scanKind ext A are path file) (Untouched fs)
      (fun kind s hs => scanKind_untouched ext A are fs path file kind s hs) _ _
      (hI.afterRead path _)

theorem Untouched.atStart (fs : FS) : Untouched fs (State.init fs) :=
  ⟨rfl, by intro e he; simp [State.init] at he⟩

theorem scan_untouched (ext : Ext) (A : Str) (are : JSRegExp) (fs : FS) (htmlPaths : List Str) :
    Untouched fs (scan ext A are htmlPaths (State.init fs)).state := by
  unfold scan
  exact forEach_state_ind (scanDoc ext A are) (Untouched fs)
    (fun path s hs => scanDoc_untouched ext A are fs path s hs) _ _ (Untouched.atStart fs)

/-! ## Where a scan stops -/

theorem forEach_append {σ α : Type} (body : σ → α → Res σ) (l1 l2 : List α) (s : σ) :
    forEach body (l1 ++ l2) s = (forEach body l1 s).andThen (forEach body l2) := by
  induction l1 generalizing s with
  | nil => rfl
  | cons x xs ih =>
    rw [List.cons_append]
    unfold forEach
    cases body s x with
    | ok s' => exact ih s'
    | fail e s' => rfl

/-- A loop whose body throws at an element reached without an error ends with that error. -/
theorem forEach_stops {σ α : Type} (body : σ → α → Res σ) (l1 l2 : List α) (x : α) (s a b : σ)
    (e : Err) (h1 : forEach body l1 s = .ok a) (h2 : body a x = .fail e b) :
    forEach body (l1 ++ x :: l2) s = .fail e b := by
  rw [forEach_append, h1]
  show forEach body (x :: l2) a = _
  unfold forEach
  rw [h2]

/-- A loop that ends with an error ends with the error of its body at one of the elements,
in a state reached through bodies that returned. -/
theorem forEach_fail_ind {σ α : Type} (body : σ → α → Res σ) (I : σ → Prop) :
    ∀ (l : List α), (∀ x ∈ l, ∀ a b, I a → body a x = .ok b → I b) →
      ∀ (s s' : σ) (e : Err), I s → forEach body l s = .fail e s' →
        ∃ x ∈ l, ∃ a, I a ∧ body a x = .fail e s' := by
  intro l
  induction l with
  | nil =>
    intro _ s s' e _ h
    simp [forEach] at h
  | cons x xs ih =>
    intro hstep s s' e hs h
    unfold forEach at h
    cases hb : body s x with
    | fail e1 s1 =>
      rw [hb] at h
      simp only [Res.fail.injEq] at h
      rw [h.1, h.2] at hb
      exact ⟨x, List.mem_cons_self _ _, s, hs, hb⟩
    | ok s1 =>
      rw [hb] at h
      obtain ⟨y, hy, a, ha, hya⟩ := ih (fun y hy => hstep y (List.mem_cons_of_mem _ hy)) s1 s' e
        (hstep x (List.mem_cons_self _ _) s s1 hs hb) h
      exact ⟨y, List.mem_cons_of_mem _ hy, a, ha, hya⟩

/-- The errors of one step of the scan: a reference that is `in` the object without being a
record is the name of an inherited property; otherwise the asset could not be read or could
not be transformed, and the message naming document, kind and reference was printed last. -/
theorem scanMatch_fail (ext : Ext) (A : Str) (are : JSRegExp) (fs : FS) (path : Str)
    (kind : Kind) (st st' : State) (ref : Str) (e : Err) (hfs : st.fs = fs)
    (h : scanMatch ext A are path kind st ref = .fail e st') :
    (ref ∈ objectPrototypeKeys ∧ e = .notAFunction kind ref) ∨
    (st'.log.getLast? = some (.consoleError path kind ref) ∧
      ((fs.readFile (resolve A are ref) = none ∧ e = .noEntry (resolve A are ref)) ∨
        ∃ c, fs.readFile (resolve A are ref) = some c ∧
          ext.minify kind c (resolve A are ref) = none ∧
          e = .transformFailed kind (resolve A are ref))) := by
  unfold scanMatch at h
  by_cases hhas : (st.changes.get kind).has ref = true
  · simp only [hhas, if_true] at h
    cases hget : (st.changes.get kind).get? ref with
    | some rec => rw [hget] at h; simp at h
    | none =>
      rw [hget] at h
      simp only [Res.fail.injEq] at h
      left
      refine ⟨?_, h.1.symm⟩
      have hown : (st.changes.get kind).hasOwn ref = false := by
        rw [JSObj.hasOwn_eq_isSome, hget]; rfl
      unfold JSObj.has at hhas
      rw [hown, Bool.false_or] at hhas
      simpa using hhas
  · simp only [hhas, Bool.false_eq_true, if_false] at h
    right
    rw [hfs] at h
    cases hread : fs.readFile (resolve A are ref) with
    | none =>
      rw [hread] at h
      simp only [Res.fail.injEq] at h
      refine ⟨?_, Or.inl ⟨rfl, h.1.symm⟩⟩
      rw [← h.2]
      simp
    | some content0 =>
      rw [hread] at h
      simp only at h
      cases hmin : ext.minify kind content0 (resolve A are ref) with
      | some content => rw [hmin] at h; simp at h
      | none =>
        rw [hmin] at h
        simp only [Res.fail.injEq] at h
        refine ⟨?_, Or.inr ⟨content0, rfl, hmin, h.1.symm⟩⟩
        rw [← h.2]
        simp

theorem scan_fail (ext : Ext) (A : Str) (are : JSRegExp) (fs : FS) (htmlPaths : List Str)
    (e : Err) (st : State) (h : scan ext A are htmlPaths (State.init fs) = .fail e st) :
    ScanFailure ext A are fs htmlPaths e st.log := by
  unfold scan at h
  obtain ⟨path, hpath, a, ha, hdoc⟩ := forEach_fail_ind (scanDoc ext A are) (ScanInv ext A are fs)
    htmlPaths (fun x _ a b hI hb => (scanDoc_ok ext A are fs x a b hI hb).1) _ st e
    (ScanInv.init ext A are fs) h
  unfold scanDoc at hdoc
  rw [show a.fs.readFile path = fs.readFile path from by rw [ha.fs_eq]] at hdoc
  cases hread : fs.readFile path with
  | none =>
    rw [hread] at hdoc
    simp only [Res.fail.injEq] at hdoc
    exact Or.inl ⟨path, hpath, hread, hdoc.1.symm⟩
  | some file =>
    rw [hread] at hdoc
    simp only at hdoc
    obtain ⟨kind, _, a2, ha2, hkind⟩ := forEach_fail_ind (scanKind ext A are path file)
      (ScanInv ext A are fs) Kind.all
      (fun k _ a b hI hb => (scanKind_ok ext A are fs path file hread k a b hI hb).1) _ st e
      (ha.readDoc path file hread) hdoc
    unfold scanKind at hkind
    obtain ⟨ref, href, a3, ha3, hm⟩ := forEach_fail_ind (scanMatch ext A are path kind)
      (ScanInv ext A are fs) (refsOf kind file)
      (fun r hr a b hI hb => (scanMatch_ok ext A are fs path file kind a b r hI hread hr hb).1)
      _ st e ha2 hkind
    exact Or.inr ⟨path, hpath, file, kind, ref, hread, href,
      scanMatch_fail ext A are fs path kind a3 st ref e ha3.fs_eq hm⟩

/-! ## Materialization and rewriting -/

theorem rewriteDoc_state (re : JSRegExp) (np : Str) (st : State) (d : Str) :
    (rewriteDoc re np st d).state.fs = st.fs ∧ (rewriteDoc re np st d).state.log = st.log ∧
      (rewriteDoc re np st d).state.changes = st.changes := by
  unfold rewriteDoc
  cases st.htmlFiles.entry? d <;> exact ⟨rfl, rfl, rfl⟩

theorem rewrite_loop_state (re : JSRegExp) (np : Str) (docs : List Str) (st : State) :
    (forEach (rewriteDoc re np) docs st).state.fs = st.fs ∧
      (forEach (rewriteDoc re np) docs st).state.log = st.log ∧
      (forEach (rewriteDoc re np) docs st).state.changes = st.changes := by
  apply forEach_state_ind (rewriteDoc re np)
    (fun s => s.fs = st.fs ∧ s.log = st.log ∧ s.changes = st.changes)
  · intro d s hs
    have h := rewriteDoc_state re np s d
    exact ⟨h.1.trans hs.1, h.2.1.trans hs.2.1, h.2.2.trans hs.2.2⟩
  · exact ⟨rfl, rfl, rfl⟩

theorem rewrite_loop (re : JSRegExp) (np : Str) :
    ∀ (docs : List Str) (st st2 : State), forEach (rewriteDoc re np) docs st = .ok st2 →
      ∀ d, (d ∈ docs → ∃ text flag, st.htmlFiles.entry? d = some (text, flag) ∧
              st2.htmlFiles.entry? d
                = some ((fun t => replace t re np)^[docs.count d] text, true)) ∧
           (d ∉ docs → st2.htmlFiles.entry? d = st.htmlFiles.entry? d) := by
  intro docs
  induction docs with
  | nil =>
    intro st st2 h d
    simp only [forEach, Res.ok.injEq] at h
    subst h
    simp
  | cons x xs ih =>
    intro st st2 h d
    unfold forEach at h
    cases hb : rewriteDoc re np st x with
    | fail e s1 => rw [hb] at h; simp at h
    | ok s1 =>
      rw [hb] at h
      unfold rewriteDoc at hb
      cases hx : st.htmlFiles.entry? x with
      | none => rw [hx] at hb; simp at hb
      | some entry =>
        rw [hx] at hb
        simp only [Res.ok.injEq] at hb
        have hs1 : ∀ k, s1.htmlFiles.entry? k
            = if k = x then some (replace entry.1 re np, true) else st.htmlFiles.entry? k := by
          intro k
          rw [← hb]
          show (st.htmlFiles.modify x _).entry? k = _
          rw [HtmlFiles.entry?_modify]
          by_cases hk : k = x
          · rw [if_pos hk, if_pos hk, hk, hx]
            rfl
          · rw [if_neg hk, if_neg hk]
        have ih' := ih s1 st2 h d
        constructor
        · intro hd
          by_cases hdx : d = x
          · subst hdx
            by_cases hdxs : d ∈ xs
            · obtain ⟨text, flag, h1, h2⟩ := ih'.1 hdxs
              rw [hs1, if_pos rfl] at h1
              simp only [Option.some.injEq, Prod.mk.injEq] at h1
              refine ⟨entry.1, entry.2, by rw [hx], ?_⟩
              rw [h2, List.count_cons_self, Function.iterate_succ_apply, ← h1.1]
            · refine ⟨entry.1, entry.2, by rw [hx], ?_⟩
              rw [ih'.2 hdxs, hs1, if_pos rfl, List.count_cons_self,
                List.count_eq_zero_of_not_mem hdxs]
              rfl
          · have hdxs : d ∈ xs := by
              rcases List.mem_cons.mp hd with h0 | h0
              · exact absurd h0 hdx
              · exact h0
            obtain ⟨text, flag, h1, h2⟩ := ih'.1 hdxs
            rw [hs1, if_neg hdx] at h1
            refine ⟨text, flag, h1, ?_⟩
            rw [h2, List.count_cons_of_ne hdx]
        · intro hd
          have hdx : ¬ d = x := fun e => hd (by simp [e])
          have hdxs : d ∉ xs := fun e => hd (List.mem_cons_of_mem _ e)
          rw [ih'.2 hdxs, hs1, if_neg hdx]

theorem materializeRecord_ok (ext : Ext) (level : Option Int) (kind : Kind) (st st2 : State)
    (path : Str) (h : materializeRecord ext level kind st path = .ok st2) :
    ∃ rec content re s1, (st.changes.get kind).get? path = some rec ∧
      (if truthy level = true then ext.gzipSync rec.content (level.getD 0)
        else some rec.content) = some content ∧
      pathRegEx path = some re ∧ s1.htmlFiles = st.htmlFiles ∧ s1.changes = st.changes ∧
      s1.log = st.log ++ [.writeFile (join (dirname rec.source)
          (hashedName ext level content rec.source)) content, .unlink rec.source] ∧
      forEach (rewriteDoc re (newPath path (hashedName ext level content rec.source)))
        rec.htmlPaths s1 = .ok st2 := by
  unfold materializeRecord at h
  cases hrec : (st.changes.get kind).get? path with
  | none => rw [hrec] at h; simp at h
  | some rec =>
    rw [hrec] at h
    dsimp only at h
    cases hgz : (if truthy level = true then ext.gzipSync rec.content (level.getD 0)
        else some rec.content) with
    | none => rw [hgz] at h; simp at h
    | some content =>
      rw [hgz] at h
      dsimp only at h
      cases hun : (st.fs.writeFile (join (dirname rec.source)
          (hashedName ext level content rec.source)) content).unlink rec.source with
      | none => rw [hun] at h; simp at h
      | some fs2 =>
        rw [hun] at h
        dsimp only at h
        cases hre : pathRegEx path with
        | none => rw [hre] at h; simp at h
        | some re =>
          rw [hre] at h
          dsimp only at h
          exact ⟨rec, content, re, (⟨fs2,
            st.log ++ [.writeFile (join (dirname rec.source)
              (hashedName ext level content rec.source)) content, .unlink rec.source],
            st.htmlFiles, st.changes⟩ : State), rfl, hgz, rfl, rfl, rfl, rfl, h⟩

theorem SameRecords.same (s : State) : SameRecords s s := ⟨rfl, fun _ _ => rfl⟩

theorem SameRecords.chain {a b c : State} (h1 : SameRecords a b) (h2 : SameRecords b c) :
    SameRecords a c :=
  ⟨h2.1.trans h1.1, fun k r => (h2.2 k r).trans (h1.2 k r)⟩

theorem materializeRecord_same (ext : Ext) (level : Option Int) (kind : Kind) (st st2 : State)
    (path : Str) (h : materializeRecord ext level kind st path = .ok st2) :
    SameRecords st st2 := by
  obtain ⟨rec, content, re, s1, _, _, _, _, hc, hl, hloop⟩ :=
    materializeRecord_ok ext level kind st st2 path h
  have hst := rewrite_loop_state re (newPath path (hashedName ext level content rec.source))
    rec.htmlPaths s1
  rw [hloop] at hst
  refine ⟨hst.2.2.trans hc, ?_⟩
  intro k r
  have e : st2.log = s1.log := hst.2.1
  rw [e, hl, transformCalls_append]
  simp [transformCalls]

theorem materializeKind_same (ext : Ext) (level : Option Int) (kind : Kind) (st st2 : State)
    (h : materializeKind ext level st kind = .ok st2) : SameRecords st st2 := by
  unfold materializeKind at h
  exact (forEach_ok_ind (materializeRecord ext level kind) (fun _ => True) SameRecords
    (fun _ _ => True) SameRecords.same (fun a b c h1 h2 => h1.chain h2)
    (fun _ _ _ _ _ => trivial) (st.changes.get kind).keys
    (fun path _ a b _ hab => ⟨trivial, materializeRecord_same ext level kind a b path hab, trivial⟩)
    st st2 trivial h).2.1

theorem materialize_same (ext : Ext) (level : Option Int) (st st2 : State)
    (h : materialize ext level st = .ok st2) : SameRecords st st2 := by
  unfold materialize at h
  exact (forEach_ok_ind (materializeKind ext level) (fun _ => True) SameRecords
    (fun _ _ => True) SameRecords.same (fun a b c h1 h2 => h1.chain h2)
    (fun _ _ _ _ _ => trivial) Kind.all
    (fun kind _ a b _ hab => ⟨trivial, materializeKind_same ext level kind a b hab, trivial⟩)
    st st2 trivial h).2.1

theorem materializeRecord_log (ext : Ext) (level : Option Int) (kind : Kind) (st : State)
    (path : Str) (rec : Record) (content : Str)
    (hrec : (st.changes.get kind).get? path = some rec)
    (hgz : (if truthy level = true then ext.gzipSync rec.content (level.getD 0)
        else some rec.content) = some content) :
    (materializeRecord ext level kind st path).state.log
      = st.log ++ [.writeFile (join (dirname rec.source)
          (hashedName ext level content rec.source)) content, .unlink rec.source] := by
  unfold materializeRecord
  rw [hrec]
  dsimp only
  rw [hgz]
  dsimp only
  cases (st.fs.writeFile (join (dirname rec.source)
      (hashedName ext level content rec.source)) content).unlink rec.source with
  | none => rfl
  | some fs2 =>
    dsimp only
    cases pathRegEx path with
    | none => rfl
    | some re =>
      dsimp only
      rw [(rewrite_loop_state re _ rec.htmlPaths _).2.1]

/-! ## Persist -/

theorem persistDoc_ok (st st' : State) (k : Str) (h : persistDoc st k = .ok st') :
    st'.htmlFiles = st.htmlFiles ∧ SameRecords st st' ∧
      (∀ entry, st.htmlFiles.own.get? k = some entry →
        (entry.2 = true → st'.fs = st.fs.writeFile k entry.1) ∧ (entry.2 = false → st' = st)) ∧
      (st.htmlFiles.own.get? k = none → ∀ d, d ≠ k → st'.fs.readFile d = st.fs.readFile d) := by
  unfold persistDoc at h
  cases hget : st.htmlFiles.own.get? k with
  | some entry =>
    rw [hget] at h
    dsimp only at h
    by_cases hflag : entry.2 = true
    · rw [if_pos hflag] at h
      simp only [Res.ok.injEq] at h
      subst h
      refine ⟨rfl, ⟨rfl, ?_⟩, ?_, by simp⟩
      · intro k r
        show transformCalls (st.log ++ _) k r = _
        rw [transformCalls_append]
        simp [transformCalls]
      · intro e he
        simp only [Option.some.injEq] at he
        subst he
        exact ⟨fun _ => rfl, fun hf => by rw [hflag] at hf; simp at hf⟩
    · rw [if_neg hflag] at h
      simp only [Res.ok.injEq] at h
      subst h
      refine ⟨rfl, SameRecords.same _, ?_, by simp⟩
      intro e he
      simp only [Option.some.injEq] at he
      subst he
      exact ⟨fun hf => absurd hf hflag, fun _ => rfl⟩
  | none =>
    rw [hget] at h
    dsimp only at h
    cases hp : st.htmlFiles.proto with
    | none => rw [hp] at h; simp at h
    | some array =>
      rw [hp] at h
      dsimp only at h
      by_cases hk : k = "0".toList
      · rw [if_pos hk] at h
        cases ha : array.1 with
        | nil =>
          rw [ha] at h
          simp only [Res.ok.injEq] at h
          subst h
          exact ⟨rfl, SameRecords.same _, by simp, fun _ _ _ => rfl⟩
        | cons c cs =>
          cases cs with
          | nil =>
            rw [ha] at h
            simp only [Res.ok.injEq] at h
            subst h
            exact ⟨rfl, SameRecords.same _, by simp, fun _ _ _ => rfl⟩
          | cons c2 cs2 =>
            rw [ha] at h
            simp only [Res.ok.injEq] at h
            subst h
            refine ⟨rfl, ⟨rfl, ?_⟩, by simp, ?_⟩
            · intro k r
              show transformCalls (st.log ++ _) k r = _
              rw [transformCalls_append]
              simp [transformCalls]
            · intro _ d hd
              show (st.fs.writeFile k [c]).readFile d = _
              rw [FS.readFile_writeFile, if_neg hd]
      · rw [if_neg hk] at h
        simp at h

/-! ## Paths -/

theorem splitSlash_ne_nil (s : Str) : splitSlash s ≠ [] := by
  cases s with
  | nil => simp [splitSlash]
  | cons c cs =>
    unfold splitSlash
    by_cases h : c = '/'
    · simp [h]
    · simp only [h, if_false]
      cases splitSlash cs <;> simp

theorem splitSlash_cons_ne (c : Char) (cs : Str) (h : c ≠ '/') :
    ∃ seg segs, splitSlash cs = seg :: segs ∧ splitSlash (c :: cs) = (c :: seg) :: segs := by
  cases hs : splitSlash cs with
  | nil => exact absurd hs (splitSlash_ne_nil cs)
  | cons seg segs =>
    refine ⟨seg, segs, rfl, ?_⟩
    rw [splitSlash]
    simp only [h, if_false, hs]

theorem splitSlash_append_slash (a b : Str) :
    splitSlash (a ++ '/' :: b) = splitSlash a ++ splitSlash b := by
  induction a with
  | nil => simp [splitSlash]
  | cons c a ih =>
    by_cases h : c = '/'
    · subst h
      simp [splitSlash, ih]
    · obtain ⟨seg, segs, h1, h2⟩ := splitSlash_cons_ne c a h
      obtain ⟨seg', segs', h1', h2'⟩ := splitSlash_cons_ne c (a ++ '/' :: b) h
      rw [List.cons_append, h2', h2]
      rw [ih, h1] at h1'
      simp only [List.cons_append, List.cons.injEq] at h1'
      rw [← h1'.1, ← h1'.2]
      rfl

theorem splitSlash_plain (s : Str) (h : '/' ∉ s) : splitSlash s = [s] := by
  induction s with
  | nil => rfl
  | cons c cs ih =>
    have hc : c ≠ '/' := fun e => h (by simp [e])
    have hcs : '/' ∉ cs := fun e => h (List.mem_cons_of_mem _ e)
    obtain ⟨seg, segs, h1, h2⟩ := splitSlash_cons_ne c cs hc
    rw [ih hcs] at h1
    simp only [List.cons.injEq] at h1
    rw [h2, ← h1.1, ← h1.2]

theorem splitSlash_no_slash (s : Str) : ∀ seg ∈ splitSlash s, '/' ∉ seg := by
  induction s with
  | nil => simp [splitSlash]
  | cons c cs ih =>
    by_cases h : c = '/'
    · subst h
      intro seg hseg
      simp only [splitSlash, if_true, List.mem_cons] at hseg
      rcases hseg with rfl | hseg
      · simp
      · exact ih seg hseg
    · obtain ⟨seg0, segs, h1, h2⟩ := splitSlash_cons_ne c cs h
      rw [h2]
      rw [h1] at ih
      intro seg hseg
      rcases List.mem_cons.mp hseg with rfl | hseg
      · intro hm
        rcases List.mem_cons.mp hm with e | e
        · exact h e.symm
        · exact ih seg0 (List.mem_cons_self _ _) e
      · exact ih seg (List.mem_cons_of_mem _ hseg)

theorem joinSlash_cons (s : Str) (t : List Str) (h : t ≠ []) :
    joinSlash (s :: t) = s ++ '/' :: joinSlash t := by
  cases t with
  | nil => exact absurd rfl h
  | cons a as => rfl

theorem joinSlash_append_singleton (X : List Str) (l : Str) (h : X ≠ []) :
    joinSlash (X ++ [l]) = joinSlash X ++ '/' :: l := by
  induction X with
  | nil => exact absurd rfl h
  | cons s t ih =>
    cases t with
    | nil => rfl
    | cons a as =>
      have hne : (a :: as) ≠ [] := by simp
      rw [List.cons_append, joinSlash_cons s _ (by simp), ih hne, joinSlash_cons s _ hne]
      simp

theorem splitSlash_joinSlash (segs : List Str) (hne : segs ≠ [])
    (h : ∀ s ∈ segs, '/' ∉ s) : splitSlash (joinSlash segs) = segs := by
  induction segs with
  | nil => exact absurd rfl hne
  | cons s t ih =>
    have hs : '/' ∉ s := h s (List.mem_cons_self _ _)
    cases t with
    | nil => exact splitSlash_plain s hs
    | cons a as =>
      have hne' : (a :: as) ≠ [] := by simp
      rw [joinSlash_cons s _ hne', splitSlash_append_slash, splitSlash_plain s hs,
        ih hne' (fun x hx => h x (List.mem_cons_of_mem _ hx))]
      rfl

theorem joinSlash_ne_nil (segs : List Str) (hne : segs ≠ []) (h : ∀ s ∈ segs, s ≠ []) :
    joinSlash segs ≠ [] := by
  cases segs with
  | nil => exact absurd rfl hne
  | cons s t =>
    cases t with
    | nil => exact h s (List.mem_cons_self _ _)
    | cons a as =>
      rw [joinSlash_cons s _ (by simp)]
      simp

theorem joinSlash_head (segs : List Str) (hne : segs ≠ []) (h : ∀ s ∈ segs, s ≠ [] ∧ '/' ∉ s) :
    (joinSlash segs).head? ≠ some '/' := by
  cases segs with
  | nil => exact absurd rfl hne
  | cons s t =>
    have hs := h s (List.mem_cons_self _ _)
    cases s with
    | nil => exact absurd rfl hs.1
    | cons c cs =>
      have hc : c ≠ '/' := fun e => hs.2 (by simp [e])
      cases t with
      | nil => simpa [joinSlash] using hc
      | cons a as =>
        rw [joinSlash_cons _ _ (by simp)]
        simpa using hc

theorem isName_of_plain (s : Str) (h : plainSegment s = true) : isName s := by
  simp only [plainSegment, Bool.and_eq_true, Bool.not_eq_true', bne_iff_ne, ne_eq,
    List.all_eq_true] at h
  obtain ⟨⟨⟨h1, h2⟩, h3⟩, h4⟩ := h
  refine ⟨?_, ?_, h3, h4⟩
  · intro e; subst e; simp at h1
  · intro hm
    have := h2 _ hm
    revert this
    decide

theorem plain_no_bslash (s : Str) (h : plainSegment s = true) : bslash ∉ s := by
  simp only [plainSegment, Bool.and_eq_true, List.all_eq_true] at h
  intro hm
  have := h.1.1.2 _ hm
  revert this
  decide

theorem normStep_name (allow : Bool) (res : List Str) (seg : Str) (h : isName seg) :
    normStep allow res seg = seg :: res := by
  unfold normStep
  have h1 : ¬ (seg = [] ∨ seg = ['.']) := by
    rintro (e | e)
    · exact h.1 e
    · exact h.2.2.1 e
  rw [if_neg h1, if_neg h.2.2.2]

theorem foldl_normStep_names (allow : Bool) (segs : List Str) :
    ∀ (res : List Str), (∀ s ∈ segs, isName s) →
      segs.foldl (normStep allow) res = segs.reverse ++ res := by
  induction segs with
  | nil => intro res _; rfl
  | cons s t ih =>
    intro res h
    rw [List.foldl_cons, normStep_name allow res s (h s (List.mem_cons_self _ _)),
      ih _ (fun x hx => h x (List.mem_cons_of_mem _ hx))]
    simp

theorem normStep_nil (allow : Bool) (res : List Str) : normStep allow res [] = res := by
  simp [normStep]



theorem dotdot_not_name : ¬ isName ['.', '.'] := fun h => h.2.2.2 rfl

theorem NormalStack.nil (allow : Bool) : NormalStack allow [] :=
  ⟨[], 0, rfl, by simp, by simp⟩

theorem NormalStack.step {allow : Bool} {S : List Str} (h : NormalStack allow S) (seg : Str)
    (hseg : '/' ∉ seg) : NormalStack allow (normStep allow S seg) := by
  obtain ⟨ps, k, rfl, hps, hk⟩ := h
  unfold normStep
  by_cases h1 : seg = [] ∨ seg = ['.']
  · rw [if_pos h1]
    exact ⟨ps, k, rfl, hps, hk⟩
  · rw [if_neg h1]
    by_cases h2 : seg = ['.', '.']
    · rw [if_pos h2]
      cases ps with
      | nil =>
        cases k with
        | zero =>
          simp only [List.replicate, List.append_nil]
          cases allow with
          | true => exact ⟨[], 1, by simp [h2, List.replicate], by simp, by simp⟩
          | false => exact NormalStack.nil false
        | succ n =>
          have ha : allow = true := hk (by simp)
          simp only [List.nil_append, List.replicate_succ, if_true, ha]
          exact ⟨[], n + 2, by simp [h2, List.replicate_succ], by simp, by simp⟩
      | cons p ps' =>
        have hp : p ≠ ['.', '.'] := (hps p (List.mem_cons_self _ _)).2.2.2
        simp only [List.cons_append, hp, if_false]
        exact ⟨ps', k, rfl, fun x hx => hps x (List.mem_cons_of_mem _ hx), hk⟩
    · rw [if_neg h2]
      have hname : isName seg :=
        ⟨fun e => h1 (Or.inl e), hseg, fun e => h1 (Or.inr e), h2⟩
      refine ⟨seg :: ps, k, rfl, ?_, hk⟩
      intro x hx
      rcases List.mem_cons.mp hx with rfl | hx
      · exact hname
      · exact hps x hx

theorem NormalStack.foldl {allow : Bool} (segs : List Str) :
    ∀ (S : List Str), NormalStack allow S → (∀ s ∈ segs, '/' ∉ s) →
      NormalStack allow (segs.foldl (normStep allow) S) := by
  induction segs with
  | nil => intro S h _; exact h
  | cons s t ih =>
    intro S h hs
    exact ih _ (h.step s (hs s (List.mem_cons_self _ _)))
      (fun x hx => hs x (List.mem_cons_of_mem _ hx))

theorem stackOf_normal (path : Str) :
    NormalStack (!(path.head? = some '/')) (stackOf path) :=
  NormalStack.foldl _ _ (NormalStack.nil _) (splitSlash_no_slash path)

theorem NormalStack.seg_ok {allow : Bool} {S : List Str} (h : NormalStack allow S) :
    ∀ s ∈ S, s ≠ [] ∧ '/' ∉ s := by
  obtain ⟨ps, k, rfl, hps, _⟩ := h
  intro s hs
  rcases List.mem_append.mp hs with hs | hs
  · exact ⟨(hps s hs).1, (hps s hs).2.1⟩
  · rw [(List.mem_replicate.mp hs).2]
    exact ⟨by simp, by decide⟩

theorem foldl_dotdots (k : Nat) (hk : k ≠ 0 → allow = true) :
    (List.replicate k ['.', '.']).foldl (normStep allow) [] = List.replicate k ['.', '.'] := by
  induction k with
  | zero => rfl
  | succ n ih =>
    have ha : allow = true := hk (by simp)
    rw [List.replicate_succ', List.foldl_append, ih (fun _ => ha), ← List.replicate_succ']
    cases n with
    | zero => simp [normStep, ha]
    | succ m => simp [normStep, ha, List.replicate_succ]

theorem NormalStack.stable {allow : Bool} {S : List Str} (h : NormalStack allow S) :
    S.reverse.foldl (normStep allow) [] = S := by
  obtain ⟨ps, k, rfl, hps, hk⟩ := h
  rw [List.reverse_append, List.foldl_append, List.reverse_replicate, foldl_dotdots k hk,
    foldl_normStep_names allow ps.reverse _ (fun s hs => hps s (List.mem_reverse.mp hs))]
  simp

/-! ### `dirname` -/

theorem dropWhile_slash_of_name (l rest : Str) (hl : l ≠ []) (hs : '/' ∉ l) :
    (l.reverse ++ rest).dropWhile (fun x => x == '/') = l.reverse ++ rest := by
  have hne : l.reverse ≠ [] := by simpa using hl
  cases hr : l.reverse with
  | nil => exact absurd hr hne
  | cons c cs =>
    have hc : c ∈ l := by
      rw [← List.mem_reverse, hr]
      exact List.mem_cons_self _ _
    have : c ≠ '/' := fun e => hs (e ▸ hc)
    rw [List.cons_append, List.dropWhile_cons_of_neg]
    simpa using this

theorem dropWhile_not_slash (xs : Str) (hs : '/' ∉ xs) (rest : Str) :
    (xs ++ '/' :: rest).dropWhile (fun x => x != '/') = '/' :: rest := by
  induction xs with
  | nil => simp [List.dropWhile]
  | cons c cs ih =>
    have hc : c ≠ '/' := fun e => hs (by simp [e])
    rw [List.cons_append, List.dropWhile_cons_of_pos (by simpa using hc)]
    exact ih (fun e => hs (List.mem_cons_of_mem _ e))

theorem dropWhile_not_slash_all (xs : Str) (hs : '/' ∉ xs) :
    xs.dropWhile (fun x => x != '/') = [] := by
  induction xs with
  | nil => rfl
  | cons c cs ih =>
    have hc : c ≠ '/' := fun e => hs (by simp [e])
    rw [List.dropWhile_cons_of_pos (by simpa using hc)]
    exact ih (fun e => hs (List.mem_cons_of_mem _ e))

theorem dirname_body (body l : Str) (hb : body ≠ []) (hb2 : body ≠ ['/']) (hl : l ≠ [])
    (hs : '/' ∉ l) : dirname (body ++ '/' :: l) = body := by
  cases body with
  | nil => exact absurd rfl hb
  | cons c bt =>
    have hrev : (bt ++ '/' :: l).reverse = l.reverse ++ '/' :: bt.reverse := by simp
    have hu : ((bt ++ '/' :: l).reverse.dropWhile (fun x => x == '/')).dropWhile
        (fun x => x != '/') = '/' :: bt.reverse := by
      rw [hrev, dropWhile_slash_of_name l _ hl hs,
        dropWhile_not_slash l.reverse (fun e => hs (List.mem_reverse.mp e))]
    simp only [dirname, List.cons_append, hu]
    have h1 : ('/' :: bt.reverse) ≠ [] := by simp
    rw [if_neg h1]
    have h2 : ¬ (c = '/' ∧ ('/' :: bt.reverse).length = 1) := by
      rintro ⟨hc, hlen⟩
      apply hb2
      have : bt = [] := by
        simp only [List.length_cons, List.length_reverse] at hlen
        exact List.length_eq_zero.mp (by omega)
      rw [hc, this]
    rw [if_neg h2]
    simp

theorem dirname_single (c : Char) (l : Str) (hs : '/' ∉ l) :
    dirname (c :: l) = if c = '/' then ['/'] else ['.'] := by
  have hrev : '/' ∉ l.reverse := fun e => hs (List.mem_reverse.mp e)
  have hu : (l.reverse.dropWhile (fun x => x == '/')).dropWhile (fun x => x != '/') = [] := by
    have : l.reverse.dropWhile (fun x => x == '/') = l.reverse := by
      cases hr : l.reverse with
      | nil => rfl
      | cons a as =>
        have ha : a ≠ '/' := fun e => hrev (by rw [hr, e]; exact List.mem_cons_self _ _)
        rw [List.dropWhile_cons_of_neg]
        simpa using ha
    rw [this]
    exact dropWhile_not_slash_all _ hrev
  simp only [dirname, hu, if_true]

/-! ## What a match of the three patterns captures -/

theorem canonicalize_dq (ic : Bool) : canonicalize ic dq = dq := by
  cases ic <;> decide

theorem lower_toNat (x : Char) (h1 : 'a' ≤ x) (h2 : x ≤ 'z') : 97 ≤ x.toNat ∧ x.toNat ≤ 122 := by
  have e1 : ('a' : Char).toNat ≤ x.toNat := h1
  have e2 : x.toNat ≤ ('z' : Char).toNat := h2
  exact ⟨e1, e2⟩

theorem canonicalize_eq_dq (ic : Bool) (x : Char) (h : canonicalize ic x = dq) : x = dq := by
  unfold canonicalize at h
  by_cases hc : (ic && decide ('a' ≤ x) && decide (x ≤ 'z')) = true
  · rw [if_pos hc] at h
    simp only [Bool.and_eq_true, decide_eq_true_eq] at hc
    obtain ⟨h1, h2⟩ := lower_toNat x hc.1.2 hc.2
    exfalso
    generalize x.toNat = n at h h1 h2
    interval_cases n <;> revert h <;> decide
  · rw [if_neg hc] at h
    exact h

theorem Consumed.nothing (s : MState) : Consumed s s [] := ⟨rfl, rfl, rfl⟩

theorem Consumed.append {a b c : MState} {w1 w2 : Str} (h1 : Consumed a b w1)
    (h2 : Consumed b c w2) : Consumed a c (w1 ++ w2) := by
  refine ⟨h2.1.trans h1.1, ?_, ?_⟩
  · rw [h1.2.1, h2.2.1, List.append_assoc]
  · rw [h2.2.2, h1.2.2, List.length_append, Nat.add_assoc]

theorem Consumed.one (s : MState) (x : Char) (xs : Str) (h : s.rest = x :: xs) :
    Consumed s ⟨s.pos + 1, xs, s.caps⟩ [x] := ⟨rfl, h, rfl⟩

theorem repeatMatcher_sound (P : Char → Prop) (m : MState → MCont → Option MState)
    (hm : ∀ s k r, m s k = some r → ∃ s' w, k s' = some r ∧ Consumed s s' w ∧ ∀ c ∈ w, P c) :
    ∀ (n : Nat) (k : MCont) (s r : MState), repeatMatcher m k n s = some r →
      ∃ s' w, k s' = some r ∧ Consumed s s' w ∧ ∀ c ∈ w, P c := by
  intro n
  induction n with
  | zero =>
    intro k s r h
    exact ⟨s, [], h, Consumed.nothing s, by simp⟩
  | succ n ih =>
    intro k s r h
    unfold repeatMatcher at h
    cases hb : m s (fun s' => if s'.pos = s.pos then none else repeatMatcher m k n s') with
    | none =>
      rw [hb] at h
      exact ⟨s, [], h, Consumed.nothing s, by simp⟩
    | some r' =>
      rw [hb] at h
      simp only [Option.some.injEq] at h
      subst h
      obtain ⟨s1, w1, hk1, hc1, hp1⟩ := hm s _ r' hb
      by_cases hpos : s1.pos = s.pos
      · rw [if_pos hpos] at hk1
        simp at hk1
      · rw [if_neg hpos] at hk1
        obtain ⟨s2, w2, hk2, hc2, hp2⟩ := ih k s1 r' hk1
        refine ⟨s2, w1 ++ w2, hk2, hc1.append hc2, ?_⟩
        intro c hc
        rcases List.mem_append.mp hc with hc | hc
        · exact hp1 c hc
        · exact hp2 c hc

/-- A pattern without groups that matches, matches by consuming a text whose characters it
accepts and then running its continuation, the captures being left as they were. -/
theorem RegEx.m_sound (ic : Bool) (P : Char → Prop) (re : RegEx) :
    re.groupFree = true → re.Accepts ic P →
      ∀ (s : MState) (k : MCont) (r : MState), re.m ic s k = some r →
        ∃ s' w, k s' = some r ∧ Consumed s s' w ∧ ∀ c ∈ w, P c := by
  induction re with
  | empty =>
    intro _ _ s k r h
    exact ⟨s, [], h, Consumed.nothing s, by simp⟩
  | char c =>
    intro _ hP s k r h
    unfold RegEx.m at h
    cases hr : s.rest with
    | nil => rw [hr] at h; simp at h
    | cons x xs =>
      rw [hr] at h
      dsimp only at h
      by_cases hx : canonicalize ic x = canonicalize ic c
      · rw [if_pos hx] at h
        refine ⟨_, [x], h, Consumed.one s x xs hr, ?_⟩
        intro y hy
        rw [List.mem_singleton.mp hy]
        exact hP x hx
      · rw [if_neg hx] at h
        simp at h
  | dot =>
    intro _ hP s k r h
    unfold RegEx.m at h
    cases hr : s.rest with
    | nil => rw [hr] at h; simp at h
    | cons x xs =>
      rw [hr] at h
      dsimp only at h
      by_cases hx : isLineTerminator x = true
      · rw [if_pos hx] at h
        simp at h
      · rw [if_neg hx] at h
        refine ⟨_, [x], h, Consumed.one s x xs hr, ?_⟩
        intro y hy
        rw [List.mem_singleton.mp hy]
        exact hP x (Bool.eq_false_iff.mpr hx)
  | cls items =>
    intro _ hP s k r h
    unfold RegEx.m at h
    cases hr : s.rest with
    | nil => rw [hr] at h; simp at h
    | cons x xs =>
      rw [hr] at h
      dsimp only at h
      by_cases hx : items.any (ClassItem.test ic x) = true
      · rw [if_pos hx] at h
        refine ⟨_, [x], h, Consumed.one s x xs hr, ?_⟩
        intro y hy
        rw [List.mem_singleton.mp hy]
        exact hP x hx
      · rw [if_neg hx] at h
        simp at h
  | bol =>
    intro _ _ s k r h
    unfold RegEx.m at h
    by_cases hp : s.pos = 0
    · rw [if_pos hp] at h
      exact ⟨s, [], h, Consumed.nothing s, by simp⟩
    · rw [if_neg hp] at h
      simp at h
  | seq a b iha ihb =>
    intro hg hP s k r h
    simp only [RegEx.groupFree, Bool.and_eq_true] at hg
    unfold RegEx.m at h
    obtain ⟨s1, w1, hk1, hc1, hp1⟩ := iha hg.1 hP.1 s _ r h
    obtain ⟨s2, w2, hk2, hc2, hp2⟩ := ihb hg.2 hP.2 s1 k r hk1
    refine ⟨s2, w1 ++ w2, hk2, hc1.append hc2, ?_⟩
    intro c hc
    rcases List.mem_append.mp hc with hc | hc
    · exact hp1 c hc
    · exact hp2 c hc
  | alt a b iha ihb =>
    intro hg hP s k r h
    simp only [RegEx.groupFree, Bool.and_eq_true] at hg
    unfold RegEx.m at h
    cases ha : a.m ic s k with
    | some r' =>
      rw [ha] at h
      simp only [Option.some.injEq] at h
      subst h
      exact iha hg.1 hP.1 s k r' ha
    | none =>
      rw [ha] at h
      exact ihb hg.2 hP.2 s k r h
  | star a iha =>
    intro hg hP s k r h
    simp only [RegEx.groupFree] at hg
    unfold RegEx.m at h
    exact repeatMatcher_sound P (a.m ic) (fun s k r h => iha hg hP s k r h) _ k s r h
  | group n a _ =>
    intro hg
    simp [RegEx.groupFree] at hg

theorem RegEx.accepts_true (ic : Bool) (re : RegEx) : re.Accepts ic (fun _ => True) := by
  induction re with
  | seq a b iha ihb => exact ⟨iha, ihb⟩
  | alt a b iha ihb => exact ⟨iha, ihb⟩
  | star a iha => exact iha
  | group n a iha => exact iha
  | empty => trivial
  | bol => trivial
  | char c => intro _ _; trivial
  | dot => intro _ _; trivial
  | cls items => intro _ _; trivial

/-- What a pattern without groups consumes is a prefix of the input left. -/
theorem RegEx.m_plain (ic : Bool) (re : RegEx) (hg : re.groupFree = true) (s : MState)
    (k : MCont) (r : MState) (h : re.m ic s k = some r) :
    ∃ s' w, k s' = some r ∧ Consumed s s' w := by
  obtain ⟨s', w, hk, hc, _⟩ := RegEx.m_sound ic (fun _ => True) re hg (RegEx.accepts_true ic re)
    s k r h
  exact ⟨s', w, hk, hc⟩

theorem lit_groupFree (p : Str) : (RegEx.lit p).groupFree = true := by
  induction p with
  | nil => rfl
  | cons c cs ih => simp [RegEx.lit, RegEx.groupFree, ih]

theorem char_dq_sound (ic : Bool) (s : MState) (k : MCont) (r : MState)
    (h : (RegEx.char dq).m ic s k = some r) :
    ∃ xs, s.rest = dq :: xs ∧ k ⟨s.pos + 1, xs, s.caps⟩ = some r := by
  unfold RegEx.m at h
  cases hr : s.rest with
  | nil => rw [hr] at h; simp at h
  | cons x xs =>
    rw [hr] at h
    dsimp only at h
    by_cases hx : canonicalize ic x = canonicalize ic dq
    · rw [if_pos hx] at h
      rw [canonicalize_dq] at hx
      rw [canonicalize_eq_dq ic x hx]
      exact ⟨xs, rfl, h⟩
    · rw [if_neg hx] at h
      simp at h

/-- A group between two double quotes: when the pattern `"`, group `n`, `"` matches, the
input holds the captured text between quotes, the captured text has no quote, and the
continuation runs with this text as capture `n`. -/
theorem quoted_group_sound (ic : Bool) (n : Nat) (G : RegEx) (hg : G.groupFree = true)
    (hP : G.Accepts ic (fun c => c ≠ dq)) (s : MState) (k : MCont) (r : MState)
    (h : (RegEx.char dq).m ic s
      (fun s1 => (RegEx.group n G).m ic s1 (fun s2 => (RegEx.char dq).m ic s2 k)) = some r) :
    ∃ w s3, s.rest = quoted w ++ s3.rest ∧ dq ∉ w ∧
      s3.caps = s.caps.set (n - 1) (some w) ∧ k s3 = some r := by
  obtain ⟨xs, hxs, h1⟩ := char_dq_sound ic s _ r h
  unfold RegEx.m at h1
  obtain ⟨s2, w, h2, hc2, hp2⟩ := RegEx.m_sound ic (fun c => c ≠ dq) G hg hP _ _ r h1
  obtain ⟨ys, hys, h3⟩ := char_dq_sound ic _ k r h2
  simp only at hys h3
  obtain ⟨hcaps, hrest, hpos⟩ := hc2
  simp only at hcaps hrest hpos
  refine ⟨w, _, ?_, fun hm => hp2 dq hm rfl, ?_, h3⟩
  · rw [hxs, hrest, hys]
    simp [quoted]
  · simp only
    rw [hcaps, hrest, hpos]
    simp

theorem seq_m (ic : Bool) (a b : RegEx) (s : MState) (k : MCont) :
    (RegEx.seq a b).m ic s k = a.m ic s (fun s' => b.m ic s' k) := rfl

theorem lit_snoc_m (ic : Bool) (c : Char) (p : Str) :
    ∀ (s : MState) (k : MCont),
      (RegEx.lit (p ++ [c])).m ic s k
        = (RegEx.lit p).m ic s (fun s' => (RegEx.char c).m ic s' k) := by
  induction p with
  | nil => intro s k; rfl
  | cons a p ih =>
    intro s k
    show (RegEx.seq (.char a) (RegEx.lit (p ++ [c]))).m ic s k
      = (RegEx.seq (.char a) (RegEx.lit p)).m ic s _
    rw [seq_m, seq_m]
    congr 1
    funext s'
    exact ih s' k

/-- A pattern without groups in front of another one consumes a prefix and hands over. -/
theorem seq_plain (ic : Bool) (a b : RegEx) (hg : a.groupFree = true) (s : MState) (k : MCont)
    (r : MState) (h : (RegEx.seq a b).m ic s k = some r) :
    ∃ s1 w1, b.m ic s1 k = some r ∧ Consumed s s1 w1 :=
  RegEx.m_plain ic a hg s _ r h

/-- The tail `..="`, group `n`, `"` of the patterns, followed by a pattern without
groups: the input holds the captured text between quotes, the captured text has no quote,
and at the end of the match the text is capture `n` and the other captures are as before. -/
theorem quoted_tail_sound (ic : Bool) (n : Nat) (G : RegEx) (hg : G.groupFree = true)
    (hP : G.Accepts ic (fun c => c ≠ dq)) (p : Str) (rest : RegEx) (hrest : rest.groupFree = true)
    (s r : MState)
    (h : (RegEx.lit (p ++ [dq])).m ic s
      (fun s1 => (RegEx.group n G).m ic s1
        (fun s2 => (RegEx.char dq).m ic s2 (fun s3 => rest.m ic s3 some))) = some r) :
    ∃ pre w mid, s.rest = pre ++ quoted w ++ mid ++ r.rest ∧ dq ∉ w ∧
      r.caps = s.caps.set (n - 1) (some w) := by
  rw [lit_snoc_m] at h
  obtain ⟨s1, w1, h1, hc1⟩ := RegEx.m_plain ic (RegEx.lit p) (lit_groupFree p) s _ r h
  obtain ⟨w, s3, hq, hw, hcaps, h3⟩ := quoted_group_sound ic n G hg hP s1 _ r h1
  obtain ⟨s4, w4, h4, hc4⟩ := RegEx.m_plain ic rest hrest s3 some r h3
  simp only [Option.some.injEq] at h4
  subst h4
  refine ⟨w1, w, w4, ?_, hw, ?_⟩
  · rw [hc1.2.1, hq, hc4.2.1]
    simp [quoted]
  · rw [hc4.1, hcaps, hc1.1]

/-- The same tail when nothing follows the closing quote. -/
theorem quoted_tail_sound_last (ic : Bool) (n : Nat) (G : RegEx) (hg : G.groupFree = true)
    (hP : G.Accepts ic (fun c => c ≠ dq)) (p : Str) (s r : MState)
    (h : (RegEx.lit (p ++ [dq])).m ic s
      (fun s1 => (RegEx.group n G).m ic s1 (fun s2 => (RegEx.char dq).m ic s2 some)) = some r) :
    ∃ pre w mid, s.rest = pre ++ quoted w ++ mid ++ r.rest ∧ dq ∉ w ∧
      r.caps = s.caps.set (n - 1) (some w) :=
  quoted_tail_sound ic n G hg hP p .empty rfl s r h

/-- A match consumed `w1` before the tail: the quoted capture is further to the right. -/
theorem Consumed.quoted {s s1 r : MState} {w1 : Str} {Q : Str → Prop} (hc : Consumed s s1 w1)
    (h : ∃ pre w mid, s1.rest = pre ++ quoted w ++ mid ++ r.rest ∧ dq ∉ w ∧ Q w) :
    ∃ pre w mid, s.rest = pre ++ quoted w ++ mid ++ r.rest ∧ dq ∉ w ∧ Q w := by
  obtain ⟨pre, w, mid, h1, h2, h3⟩ := h
  refine ⟨w1 ++ pre, w, mid, ?_, h2, h3⟩
  rw [hc.2.1, h1]
  simp

theorem matchAllGo_succ (r : JSRegExp) (fuel pos : Nat) (rest : Str) :
    matchAllGo r (fuel + 1) pos rest
      = match matchHere r pos rest with
        | some st =>
          if st.pos = pos then
            match rest with
            | [] => [⟨pos, rest.take (st.pos - pos), st.caps⟩]
            | _ :: cs => ⟨pos, rest.take (st.pos - pos), st.caps⟩ :: matchAllGo r fuel (pos + 1) cs
          else ⟨pos, rest.take (st.pos - pos), st.caps⟩ :: matchAllGo r fuel st.pos st.rest
        | none =>
          match rest with
          | [] => []
          | _ :: cs => matchAllGo r fuel (pos + 1) cs := by
  cases rest <;> rfl

theorem refChars_groupFree : refChars.groupFree = true := rfl

theorem refChars_accepts (ic : Bool) : refChars.Accepts ic (fun c => c ≠ dq) := by
  have h : ∀ x, [ClassItem.word, .ch '/', .ch '.', .ch '-'].any (ClassItem.test ic x) = true →
      x ≠ dq := by
    intro x hx e
    subst e
    revert hx
    cases ic <;> decide
  exact ⟨h, h⟩

theorem char_accepts (ic : Bool) (c : Char) (hc : canonicalize ic c ≠ dq) :
    (RegEx.char c).Accepts ic (fun c => c ≠ dq) := by
  intro x hx e
  subst e
  rw [canonicalize_dq] at hx
  exact hc hx.symm

theorem svgName_accepts (ic : Bool) :
    (RegEx.seq refChars (.lit ".svg".toList)).Accepts ic (fun c => c ≠ dq) := by
  refine ⟨refChars_accepts ic, ?_, ?_, ?_, ?_, trivial⟩
  · exact char_accepts ic _ (by cases ic <;> decide)
  · exact char_accepts ic _ (by cases ic <;> decide)
  · exact char_accepts ic _ (by cases ic <;> decide)
  · exact char_accepts ic _ (by cases ic <;> decide)

theorem matchedRef_first (res : MatchResult) (w : Str) (h : res.caps = [some w]) :
    matchedRef res = w := by
  unfold matchedRef
  rw [h]
  rfl

theorem matchSound_js : MatchSound .js := by
  intro pos rest st h
  have e : (matchers .js).re = .seq (.lit "<script".toList) (.seq (.star .dot)
      (.seq (.lit ("src=".toList ++ [dq])) (.seq (.group 1 refChars) (.char dq)))) := rfl
  unfold matchHere at h
  rw [e] at h
  obtain ⟨s1, w1, h1, hc1⟩ := seq_plain _ _ _ (lit_groupFree _) _ _ _ h
  obtain ⟨s2, w2, h2, hc2⟩ := seq_plain _ (.star .dot) _ rfl _ _ _ h1
  obtain ⟨pre, w, mid, hq, hw, hcaps⟩ := hc1.quoted (hc2.quoted
    (quoted_tail_sound_last _ 1 refChars refChars_groupFree (refChars_accepts _) _ s2 st h2))
  refine ⟨pre, w, mid, hq, hw, ?_⟩
  intro res hres
  apply matchedRef_first
  rw [hres, hcaps, hc2.1, hc1.1]
  rfl

theorem matchSound_svg : MatchSound .svg := by
  intro pos rest st h
  have e : (matchers .svg).re = .seq (.lit "<img".toList) (.seq (.star .dot)
      (.seq (.lit ("src=".toList ++ [dq]))
        (.seq (.group 1 (.seq refChars (.lit ".svg".toList))) (.char dq)))) := rfl
  unfold matchHere at h
  rw [e] at h
  obtain ⟨s1, w1, h1, hc1⟩ := seq_plain _ _ _ (lit_groupFree _) _ _ _ h
  obtain ⟨s2, w2, h2, hc2⟩ := seq_plain _ (.star .dot) _ rfl _ _ _ h1
  obtain ⟨pre, w, mid, hq, hw, hcaps⟩ := hc1.quoted (hc2.quoted
    (quoted_tail_sound_last _ 1 (.seq refChars (.lit ".svg".toList)) rfl (svgName_accepts _) _
      s2 st h2))
  refine ⟨pre, w, mid, hq, hw, ?_⟩
  intro res hres
  apply matchedRef_first
  rw [hres, hcaps, hc2.1, hc1.1]
  rfl

theorem matchSound_css : MatchSound .css := by
  intro pos rest st h
  have e : (matchers .css).re = .seq (.lit "<link".toList) (.seq (.star .dot)
      (.alt
        (.seq relStylesheet (.seq (.star .dot) (.seq (.lit ("href=".toList ++ [dq]))
          (.seq (.group 1 refChars) (.char dq)))))
        (.seq (.lit ("href=".toList ++ [dq])) (.seq (.group 2 refChars)
          (.seq (.char dq) (.seq (.star .dot) relStylesheet)))))) := rfl
  unfold matchHere at h
  rw [e] at h
  obtain ⟨s1, w1, h1, hc1⟩ := seq_plain _ _ _ (lit_groupFree _) _ _ _ h
  obtain ⟨s2, w2, h2, hc2⟩ := seq_plain _ (.star .dot) _ rfl _ _ _ h1
  have hcaps2 : s2.caps = [none, none] := by
    rw [hc2.1, hc1.1]
    rfl
  unfold RegEx.m at h2
  cases ha : (RegEx.seq relStylesheet (.seq (.star .dot) (.seq (.lit ("href=".toList ++ [dq]))
      (.seq (.group 1 refChars) (.char dq))))).m (matchers .css).ignoreCase s2 some with
  | some r =>
    rw [ha] at h2
    simp only [Option.some.injEq] at h2
    subst h2
    obtain ⟨s3, w3, h3, hc3⟩ := seq_plain _ relStylesheet _ rfl _ _ _ ha
    obtain ⟨s4, w4, h4, hc4⟩ := seq_plain _ (.star .dot) _ rfl _ _ _ h3
    obtain ⟨pre, w, mid, hq, hw, hcaps⟩ := hc1.quoted (hc2.quoted (hc3.quoted (hc4.quoted
      (quoted_tail_sound_last _ 1 refChars refChars_groupFree (refChars_accepts _) _ s4 r h4))))
    refine ⟨pre, w, mid, hq, hw, ?_⟩
    intro res hres
    unfold matchedRef
    rw [hres, hcaps, hc4.1, hc3.1, hcaps2]
    rfl
  | none =>
    rw [ha] at h2
    dsimp only at h2
    obtain ⟨pre, w, mid, hq, hw, hcaps⟩ := hc1.quoted (hc2.quoted
      (quoted_tail_sound _ 2 refChars refChars_groupFree (refChars_accepts _) _
        (.seq (.star .dot) relStylesheet) rfl s2 st h2))
    refine ⟨pre, w, mid, hq, hw, ?_⟩
    intro res hres
    unfold matchedRef
    rw [hres, hcaps, hcaps2]
    rfl

theorem matchSound (kind : Kind) : MatchSound kind := by
  cases kind
  · exact matchSound_js
  · exact matchSound_css
  · exact matchSound_svg

theorem matchAllGo_sound (kind : Kind) :
    ∀ (fuel pos : Nat) (rest : Str), ∀ res ∈ matchAllGo (matchers kind) fuel pos rest,
      dq ∉ matchedRef res ∧ quoted (matchedRef res) <:+: rest := by
  intro fuel
  induction fuel with
  | zero => intro pos rest res h; simp [matchAllGo] at h
  | succ n ih =>
    intro pos rest res h
    rw [matchAllGo_succ] at h
    cases hm : matchHere (matchers kind) pos rest with
    | none =>
      rw [hm] at h
      cases rest with
      | nil => simp at h
      | cons c cs =>
        dsimp only at h
        obtain ⟨h1, h2⟩ := ih (pos + 1) cs res h
        exact ⟨h1, h2.trans (List.suffix_cons c cs).isInfix⟩
    | some st =>
      rw [hm] at h
      dsimp only at h
      obtain ⟨pre, w, mid, hq, hw, href⟩ := matchSound kind pos rest st hm
      have hhead : ∀ m i, dq ∉ matchedRef ⟨i, m, st.caps⟩ ∧
          quoted (matchedRef ⟨i, m, st.caps⟩) <:+: rest := by
        intro m i
        rw [href ⟨i, m, st.caps⟩ rfl]
        refine ⟨hw, ?_⟩
        rw [hq]
        exact ⟨pre, mid ++ st.rest, by simp⟩
      by_cases hpos : st.pos = pos
      · rw [if_pos hpos] at h
        cases rest with
        | nil =>
          rw [List.mem_singleton] at h
          rw [h]
          exact hhead _ _
        | cons c cs =>
          dsimp only at h
          rcases List.mem_cons.mp h with h | h
          · rw [h]
            exact hhead _ _
          · obtain ⟨h1, h2⟩ := ih (pos + 1) cs res h
            exact ⟨h1, h2.trans (List.suffix_cons c cs).isInfix⟩
      · rw [if_neg hpos] at h
        rcases List.mem_cons.mp h with h | h
        · rw [h]
          exact hhead _ _
        · obtain ⟨h1, h2⟩ := ih st.pos st.rest res h
          refine ⟨h1, h2.trans ?_⟩
          rw [hq]
          exact (List.suffix_append _ _).isInfix

/-- A reference matched in a document holds no double quote and stands between double
quotes in the text of the document. -/
theorem refsOf_quoted (kind : Kind) (file ref : Str) (h : ref ∈ refsOf kind file) :
    dq ∉ ref ∧ quoted ref <:+: file := by
  unfold refsOf matchAll at h
  obtain ⟨res, hres, rfl⟩ := List.mem_map.mp h
  exact matchAllGo_sound kind _ _ _ res hres

/-! ## What a rewrite leaves in place -/

theorem isDigit_ne_dq (d : Char) (h : isDigit d = true) : d ≠ dq := by
  intro e
  subst e
  revert h
  decide

/-- The characters a `$` pattern of a template uses after the `$` are never a double quote. -/
theorem refReplacement_skip (m b a : Str) (caps : List (Option Str)) (u : Str) :
    (refReplacement m b a caps u).2 ≤ u.length ∧
      dq ∉ u.take (refReplacement m b a caps u).2 := by
  cases u with
  | nil => exact ⟨Nat.le_refl _, by simp [refReplacement]⟩
  | cons d t =>
    unfold refReplacement
    dsimp only
    by_cases h1 : d = dollar
    · rw [if_pos h1]
      refine ⟨by simp, ?_⟩
      simp only [List.take_succ_cons, List.take_zero, List.mem_singleton]
      rw [h1]
      decide
    · rw [if_neg h1]
      by_cases h2 : d = '&'
      · rw [if_pos h2]
        refine ⟨by simp, ?_⟩
        simp only [List.take_succ_cons, List.take_zero, List.mem_singleton]
        rw [h2]
        decide
      · rw [if_neg h2]
        by_cases h3 : d = Char.ofNat 96
        · rw [if_pos h3]
          refine ⟨by simp, ?_⟩
          simp only [List.take_succ_cons, List.take_zero, List.mem_singleton]
          rw [h3]
          decide
        · rw [if_neg h3]
          by_cases h4 : d = Char.ofNat 39
          · rw [if_pos h4]
            refine ⟨by simp, ?_⟩
            simp only [List.take_succ_cons, List.take_zero, List.mem_singleton]
            rw [h4]
            decide
          · rw [if_neg h4]
            by_cases h5 : isDigit d = true
            · rw [if_pos h5]
              have hd := isDigit_ne_dq d h5
              have hone : ∀ (x : Str × Nat), x.2 = 1 →
                  x.2 ≤ (d :: t).length ∧ dq ∉ (d :: t).take x.2 := by
                intro x hx
                rw [hx]
                refine ⟨by simp, ?_⟩
                simp only [List.take_succ_cons, List.take_zero, List.mem_singleton]
                exact fun e => hd e.symm
              have hone' : ∀ (c : Prop) [Decidable c] (x y : Str),
                  (if c then (x, 1) else (y, 1) : Str × Nat).2 = 1 := by
                intro c _ x y
                by_cases hc : c
                · rw [if_pos hc]
                · rw [if_neg hc]
              cases t with
              | nil => exact hone _ (hone' _ _ _)
              | cons e t' =>
                dsimp only
                by_cases h6 : isDigit e = true ∧ digitVal d * 10 + digitVal e ≤ caps.length
                · rw [if_pos h6]
                  have he := isDigit_ne_dq e h6.1
                  have htwo : ∀ (x : Str × Nat), x.2 = 2 →
                      x.2 ≤ (d :: e :: t').length ∧ dq ∉ (d :: e :: t').take x.2 := by
                    intro x hx
                    rw [hx]
                    refine ⟨by simp, ?_⟩
                    simp only [List.take_succ_cons, List.take_zero, List.mem_cons,
                      List.mem_singleton, List.not_mem_nil, or_false]
                    rintro (e1 | e1)
                    · exact hd e1.symm
                    · exact he e1.symm
                  by_cases h7 : 1 ≤ digitVal d * 10 + digitVal e
                  · rw [if_pos h7]
                    exact htwo _ rfl
                  · rw [if_neg h7]
                    exact htwo _ rfl
                · rw [if_neg h6]
                  exact hone _ (hone' _ _ _)
            · rw [if_neg h5]
              exact ⟨by simp, by simp⟩

theorem getSubstitutionGo_ends_with_quote (m b a : Str) (caps : List (Option Str)) :
    ∀ (t : Str) (skip : Nat), skip ≤ t.length → dq ∉ t.take skip →
      ∃ X, getSubstitutionGo m b a caps skip (t ++ [dq]) = X ++ [dq] := by
  intro t
  induction t with
  | nil =>
    intro skip hs _
    have : skip = 0 := by simpa using hs
    subst this
    refine ⟨[], ?_⟩
    have hne : ¬ dq = dollar := by decide
    simp [getSubstitutionGo, hne]
  | cons c t ih =>
    intro skip hs hq
    cases skip with
    | succ n =>
      have hn : n ≤ t.length := by simpa using hs
      have hq' : dq ∉ t.take n := by
        intro e
        apply hq
        rw [List.take_succ_cons]
        exact List.mem_cons_of_mem _ e
      obtain ⟨X, hX⟩ := ih n hn hq'
      exact ⟨X, by rw [List.cons_append, getSubstitutionGo, hX]⟩
    | zero =>
      rw [List.cons_append, getSubstitutionGo]
      by_cases hc : c = dollar
      · rw [if_pos hc]
        obtain ⟨hle, hnq⟩ := refReplacement_skip m b a caps (t ++ [dq])
        have hlt : (refReplacement m b a caps (t ++ [dq])).2 ≤ t.length := by
          by_contra hcon
          have hge : (t ++ [dq]).length ≤ (refReplacement m b a caps (t ++ [dq])).2 := by
            rw [List.length_append, List.length_singleton]
            omega
          rw [List.take_of_length_le hge] at hnq
          exact hnq (by simp)
        have hq' : dq ∉ t.take (refReplacement m b a caps (t ++ [dq])).2 := by
          rw [List.take_append_of_le_length hlt] at hnq
          exact hnq
        obtain ⟨X, hX⟩ := ih _ hlt hq'
        exact ⟨(refReplacement m b a caps (t ++ [dq])).1 ++ X, by rw [hX, List.append_assoc]⟩
      · rw [if_neg hc]
        obtain ⟨X, hX⟩ := ih 0 (Nat.zero_le _) (by simp)
        exact ⟨c :: X, by rw [hX, List.cons_append]⟩

/-- The text substituted for a match, when the template is a quoted string, starts and ends
with a double quote, whatever `$` patterns the template holds. -/
theorem getSubstitution_quoted (m b a : Str) (caps : List (Option Str)) (t : Str) :
    ∃ X, getSubstitution m b a caps (quoted t) = dq :: X ++ [dq] := by
  obtain ⟨X, hX⟩ := getSubstitutionGo_ends_with_quote m b a caps t 0 (Nat.zero_le _) (by simp)
  refine ⟨X, ?_⟩
  have hne : ¬ dq = dollar := by decide
  show getSubstitutionGo m b a caps 0 (dq :: (t ++ [dq])) = _
  rw [getSubstitutionGo, if_neg hne, hX]
  rfl

theorem replaceAllGo_nil_lit (r t input : Str) (fuel pos : Nat) :
    replaceAllGo ⟨litSeq (quoted r) .empty, false, true⟩ t input (fuel + 1) pos [] = [] := by
  simp [replaceAllGo, matchHere_lit, quoted]

theorem replaceAllGo_hit_lit (r t input : Str) (fuel pos : Nat) (rest : Str)
    (h : (quoted r).isPrefixOf rest = true) :
    ∃ X, replaceAllGo ⟨litSeq (quoted r) .empty, false, true⟩ (quoted t) input (fuel + 1) pos rest
      = dq :: X ++ dq ::
          replaceAllGo ⟨litSeq (quoted r) .empty, false, true⟩ (quoted t) input fuel
            (pos + (quoted r).length) (rest.drop (quoted r).length) := by
  obtain ⟨X, hX⟩ := getSubstitution_quoted (rest.take (pos + (quoted r).length - pos))
    (input.take pos) (rest.drop (quoted r).length) [] t
  refine ⟨X, ?_⟩
  have hne : ¬ (pos + (quoted r).length = pos) := by
    simp [quoted]
  cases rest with
  | nil => simp [quoted] at h
  | cons c cs =>
    simp only [replaceAllGo, matchHere_lit, h, if_true, hne, if_false]
    rw [hX]
    simp

theorem replaceAllGo_miss_lit (r t input : Str) (fuel pos : Nat) (c : Char) (cs : Str)
    (h : (quoted r).isPrefixOf (c :: cs) = false) :
    replaceAllGo ⟨litSeq (quoted r) .empty, false, true⟩ t input (fuel + 1) pos (c :: cs)
      = c :: replaceAllGo ⟨litSeq (quoted r) .empty, false, true⟩ t input fuel (pos + 1) cs := by
  simp [replaceAllGo, matchHere_lit, h]

/-- Rewriting the quoted `r` into any quoted template keeps, where it stands, a run of
characters without quote up to its closing quote, and keeps every other quoted string
without quote inside. -/
theorem replaceAllGo_keeps (r t input : Str) (hr : dq ∉ r) :
    ∀ (fuel pos : Nat) (rest : Str), rest.length < fuel →
      (∀ w, dq ∉ w → w ++ [dq] <+: rest →
        w ++ [dq] <+: replaceAllGo ⟨litSeq (quoted r) .empty, false, true⟩ (quoted t) input
          fuel pos rest) ∧
      (∀ s, dq ∉ s → s ≠ r → quoted s <:+: rest →
        quoted s <:+: replaceAllGo ⟨litSeq (quoted r) .empty, false, true⟩ (quoted t) input
          fuel pos rest) := by
  intro fuel
  induction fuel with
  | zero => intro pos rest h; simp at h
  | succ n ih =>
    intro pos rest hlen
    cases rest with
    | nil =>
      rw [replaceAllGo_nil_lit]
      refine ⟨?_, ?_⟩
      · intro w _ h
        have := h.length_le
        simp at this
      · intro s _ _ h
        have := h.length_le
        simp [quoted] at this
    | cons c cs =>
      by_cases hm : (quoted r).isPrefixOf (c :: cs) = true
      · obtain ⟨X, hX⟩ := replaceAllGo_hit_lit r t input n pos (c :: cs) hm
        rw [hX]
        have hp := (isPrefixOf_true_iff _ _).mp hm
        obtain ⟨rest', hrest⟩ := hp
        have hdrop : (c :: cs).drop (quoted r).length = rest' := by
          rw [← hrest, List.drop_left]
        rw [hdrop]
        have hlen' : rest'.length < n := by
          have : (c :: cs).length = (quoted r).length + rest'.length := by
            rw [← hrest, List.length_append]
          simp only [quoted, List.length_cons, List.length_append] at this hlen
          omega
        obtain ⟨ih1, ih2⟩ := ih (pos + (quoted r).length) rest' hlen'
        have hc : c = dq := by
          have := hrest
          simp only [quoted, List.cons_append, List.cons.injEq] at this
          exact this.1.symm
        refine ⟨?_, ?_⟩
        · intro w hw h
          cases w with
          | nil =>
            simp only [List.nil_append, List.cons_append, List.cons_prefix_cons]
            exact ⟨trivial, List.nil_prefix⟩
          | cons a w' =>
            simp only [List.cons_append, List.cons_prefix_cons] at h
            exact absurd (by simp [h.1, hc]) hw
        · intro s hs hne h
          have hsplit : c :: cs = dq :: (r ++ dq :: rest') := by
            rw [← hrest]
            simp [quoted]
          rw [hsplit, List.infix_cons_iff] at h
          rcases h with h | h
          · simp only [quoted, List.cons_append, List.cons_prefix_cons, true_and] at h
            exact absurd (closing_quote_unique s r rest' hs hr h) hne
          · have h2 := quoted_infix_skip_plain s r (dq :: rest') hr h
            rw [List.infix_cons_iff] at h2
            have hsuf : (dq :: replaceAllGo ⟨litSeq (quoted r) .empty, false, true⟩ (quoted t)
                input n (pos + (quoted r).length) rest')
                <:+: (dq :: X ++ dq :: replaceAllGo ⟨litSeq (quoted r) .empty, false, true⟩
                  (quoted t) input n (pos + (quoted r).length) rest') :=
              (List.suffix_append (dq :: X) _).isInfix
            rcases h2 with h2 | h2
            · simp only [quoted, List.cons_append, List.cons_prefix_cons, true_and] at h2
              have h3 := ih1 s hs h2
              refine List.IsInfix.trans ?_ hsuf
              apply List.IsPrefix.isInfix
              simp only [quoted, List.cons_append, List.cons_prefix_cons, true_and]
              exact h3
            · exact ((ih2 s hs hne h2).trans (List.suffix_cons _ _).isInfix).trans hsuf
      · have hm2 : (quoted r).isPrefixOf (c :: cs) = false := Bool.eq_false_iff.mpr hm
        rw [replaceAllGo_miss_lit r _ input n pos c cs hm2]
        have hlen' : cs.length < n := by simpa using hlen
        obtain ⟨ih1, ih2⟩ := ih (pos + 1) cs hlen'
        refine ⟨?_, ?_⟩
        · intro w hw h
          cases w with
          | nil =>
            simp only [List.nil_append, List.cons_prefix_cons] at h ⊢
            exact ⟨h.1, List.nil_prefix⟩
          | cons a w' =>
            simp only [List.cons_append, List.cons_prefix_cons] at h ⊢
            have hw' : dq ∉ w' := fun e => hw (List.mem_cons_of_mem _ e)
            exact ⟨h.1, ih1 w' hw' h.2⟩
        · intro s hs hne h
          rw [List.infix_cons_iff] at h ⊢
          rcases h with h | h
          · left
            simp only [quoted, List.cons_append, List.cons_prefix_cons] at h ⊢
            exact ⟨h.1, ih1 s hs h.2⟩
          · right
            exact ih2 s hs hne h

/-- C5 for any new reference: rewriting `r` keeps every other quoted reference of the text. -/
theorem replace_keeps_quoted (r t s text : Str) (hr : dq ∉ r) (hs : dq ∉ s) (hne : s ≠ r)
    (h : quoted s <:+: text) :
    quoted s <:+: replace text ⟨litSeq (quoted r) .empty, false, true⟩ (quoted t) := by
  unfold replace
  simp only [if_true]
  exact (replaceAllGo_keeps r t text hr (text.length + 1) 0 text (Nat.lt_succ_self _)).2 s hs hne h

theorem litReplace_creates (p t : Str) (hp : p ≠ []) :
    ∀ (text : Str), p <:+: text → t <:+: litReplace p t text := by
  intro text
  induction text with
  | nil =>
    intro h
    have := h.length_le
    have hl : 0 < p.length := List.length_pos.mpr hp
    simp only [List.length_nil] at this
    omega
  | cons c cs ih =>
    intro h
    by_cases hm : p.isPrefixOf (c :: cs) = true
    · rw [litReplace_cons_hit p t c cs hp hm]
      exact (List.prefix_append _ _).isInfix
    · have hm2 : p.isPrefixOf (c :: cs) = false := Bool.eq_false_iff.mpr hm
      rw [litReplace_cons_miss p t c cs hm2]
      rw [List.infix_cons_iff] at h
      rcases h with h | h
      · exact absurd ((isPrefixOf_true_iff _ _).mpr h) hm
      · exact (ih h).trans (List.suffix_cons _ _).isInfix

/-- One rewrite of `r` into a new reference without `$` and `"`: a text that holds the
quoted `r` or the quoted new reference holds the quoted new reference afterwards. -/
theorem replace_new_reference (r n2 text : Str) (hr : dq ∉ r) (hd : dollar ∉ n2) (hq : dq ∉ n2)
    (h : quoted r <:+: text ∨ quoted n2 <:+: text) :
    quoted n2 <:+: replace text ⟨litSeq (quoted r) .empty, false, true⟩ (quoted n2) := by
  have hdq : dollar ∉ quoted n2 := by
    have : dollar ≠ dq := by decide
    simp [quoted, hd, this]
  have hcreate : quoted r <:+: text →
      quoted n2 <:+: replace text ⟨litSeq (quoted r) .empty, false, true⟩ (quoted n2) := by
    intro h1
    rw [replace_pathRegEx r _ _ hdq]
    exact litReplace_creates _ _ (quoted_ne_nil r) text h1
  rcases h with h | h
  · exact hcreate h
  · by_cases hne : n2 = r
    · rw [hne] at h
      exact hcreate h
    · exact replace_keeps_quoted r n2 n2 text hr hq hne h

theorem iterate_new_reference (r n2 : Str) (hr : dq ∉ r) (hd : dollar ∉ n2) (hq : dq ∉ n2) :
    ∀ (n : Nat) (text : Str), 0 < n → (quoted r <:+: text ∨ quoted n2 <:+: text) →
      quoted n2 <:+:
        (fun t => replace t ⟨litSeq (quoted r) .empty, false, true⟩ (quoted n2))^[n] text := by
  intro n
  induction n with
  | zero => intro _ h; exact absurd h (by decide)
  | succ n ih =>
    intro text _ h
    rw [Function.iterate_succ_apply]
    have h1 := replace_new_reference r n2 text hr hd hq h
    cases n with
    | zero => exact h1
    | succ m => exact ih _ (Nat.succ_pos _) (Or.inr h1)

theorem iterate_keeps_quoted (r t s : Str) (hr : dq ∉ r) (hs : dq ∉ s) (hne : s ≠ r) :
    ∀ (n : Nat) (text : Str), quoted s <:+: text →
      quoted s <:+:
        (fun x => replace x ⟨litSeq (quoted r) .empty, false, true⟩ (quoted t))^[n] text := by
  intro n
  induction n with
  | zero => intro text h; exact h
  | succ n ih =>
    intro text h
    rw [Function.iterate_succ_apply]
    exact ih _ (replace_keeps_quoted r t s text hr hs hne h)

/-! ## The new reference of a record, from its materialization to the end of the run -/

/-- A loop with one element set apart: `I1` holds until the body has run for `x`, `I2`
from then on. -/
theorem forEach_phase {σ α : Type} (body : σ → α → Res σ) (x : α) (C I1 I2 : σ → Prop) :
    ∀ (l : List α),
      (∀ y ∈ l, ∀ s s', C s → body s y = .ok s' → C s') →
      (∀ y ∈ l, y ≠ x → ∀ s s', C s → body s y = .ok s' → (I1 s → I1 s') ∧ (I2 s → I2 s')) →
      (∀ s s', C s → body s x = .ok s' → I1 s ∨ I2 s → I2 s') →
      ∀ s s', C s → forEach body l s = .ok s' →
        C s' ∧ (I1 s → x ∈ l → I2 s') ∧ (I1 s → I1 s' ∨ I2 s') ∧ (I2 s → I2 s') := by
  intro l
  induction l with
  | nil =>
    intro _ _ _ s s' hC h
    simp only [forEach, Res.ok.injEq] at h
    subst h
    exact ⟨hC, fun _ hx => absurd hx (List.not_mem_nil _), fun h1 => Or.inl h1, fun h2 => h2⟩
  | cons y ys ih =>
    intro hCs hother hx s s' hC h
    unfold forEach at h
    cases hb : body s y with
    | fail e s1 => rw [hb] at h; simp at h
    | ok s1 =>
      rw [hb] at h
      have hC1 := hCs y (List.mem_cons_self _ _) s s1 hC hb
      obtain ⟨hC', hA, hB, hD⟩ := ih (fun z hz => hCs z (List.mem_cons_of_mem _ hz))
        (fun z hz => hother z (List.mem_cons_of_mem _ hz)) hx s1 s' hC1 h
      by_cases hyx : y = x
      · subst hyx
        have hstep := hx s s1 hC hb
        exact ⟨hC', fun h1 _ => hD (hstep (Or.inl h1)), fun h1 => Or.inr (hD (hstep (Or.inl h1))),
          fun h2 => hD (hstep (Or.inr h2))⟩
      · obtain ⟨ho1, ho2⟩ := hother y (List.mem_cons_self _ _) hyx s s1 hC hb
        refine ⟨hC', ?_, fun h1 => hB (ho1 h1), fun h2 => hD (ho2 h2)⟩
        intro h1 hmem
        rcases List.mem_cons.mp hmem with e | hmem
        · exact absurd e.symm hyx
        · exact hA (ho1 h1) hmem

theorem forEach_keeps {σ α : Type} (body : σ → α → Res σ) (C I : σ → Prop) (l : List α)
    (hstep : ∀ y ∈ l, ∀ s s', C s → body s y = .ok s' → C s' ∧ (I s → I s'))
    (s s' : σ) (hC : C s) (h : forEach body l s = .ok s') : C s' ∧ (I s → I s') := by
  have := forEach_ok_ind body C (fun a b => I a → I b) (fun _ _ => True) (fun _ h => h)
    (fun _ _ _ h1 h2 h => h2 (h1 h)) (fun _ _ _ _ _ => trivial) l
    (fun y hy a b ha hab => ⟨(hstep y hy a b ha hab).1, (hstep y hy a b ha hab).2, trivial⟩)
    s s' hC h
  exact ⟨this.1, this.2.1⟩

/-- What the materialization of one record does to the documents: each referencing
document is rewritten once per listing and flagged, the others are left as they are. -/
theorem materializeRecord_text (ext : Ext) (level : Option Int) (kind : Kind) (st st2 : State)
    (r : Str) (h : materializeRecord ext level kind st r = .ok st2) :
    ∃ rec content, (st.changes.get kind).get? r = some rec ∧
      (if truthy level = true then ext.gzipSync rec.content (level.getD 0)
        else some rec.content) = some content ∧
      st2.changes = st.changes ∧
      ∀ d, (d ∈ rec.htmlPaths → ∃ text flag, st.htmlFiles.entry? d = some (text, flag) ∧
              st2.htmlFiles.entry? d
                = some ((fun t => replace t ⟨litSeq (quoted r) .empty, false, true⟩
                    (quoted (newReference ext level r content rec.source)))^[
                      rec.htmlPaths.count d] text, true)) ∧
           (d ∉ rec.htmlPaths → st2.htmlFiles.entry? d = st.htmlFiles.entry? d) := by
  obtain ⟨rec, content, re, s1, hrec, hgz, hre, hh, _, _, hloop⟩ :=
    materializeRecord_ok ext level kind st st2 r h
  rw [pathRegEx_eq] at hre
  simp only [Option.some.injEq] at hre
  subst hre
  refine ⟨rec, content, hrec, hgz, (materializeRecord_same ext level kind st st2 r h).1, ?_⟩
  intro d
  have hl := rewrite_loop _ _ rec.htmlPaths s1 st2 hloop d
  rw [hh] at hl
  exact hl

/-- The materialization of a record keeps, in every document, the quoted strings other
than its own original reference. -/
theorem materializeRecord_keeps (ext : Ext) (level : Option Int) (kind : Kind) (st st2 : State)
    (r : Str) (h : materializeRecord ext level kind st r = .ok st2) (hr : dq ∉ r)
    (d s : Str) (hs : dq ∉ s) (hne : s ≠ r) :
    (DocHolds d s st → DocHolds d s st2) ∧ (DocChanged d s st → DocChanged d s st2) := by
  obtain ⟨rec, content, _, _, _, htext⟩ := materializeRecord_text ext level kind st st2 r h
  by_cases hmem : d ∈ rec.htmlPaths
  · obtain ⟨text, flag, h1, h2⟩ := (htext d).1 hmem
    refine ⟨?_, ?_⟩
    · intro hd text2 flag2 he
      rw [h2] at he
      simp only [Option.some.injEq, Prod.mk.injEq] at he
      rw [← he.1]
      exact iterate_keeps_quoted r _ s hr hs hne _ text (hd text flag h1)
    · rintro ⟨t, he, hin⟩
      rw [h1] at he
      simp only [Option.some.injEq, Prod.mk.injEq] at he
      refine ⟨_, h2, ?_⟩
      rw [he.1]
      exact iterate_keeps_quoted r _ s hr hs hne _ t hin
  · have e := (htext d).2 hmem
    refine ⟨?_, ?_⟩
    · intro hd text2 flag2 he
      rw [e] at he
      exact hd text2 flag2 he
    · rintro ⟨t, he, hin⟩
      exact ⟨t, by rw [e]; exact he, hin⟩

/-- The materialization of a record puts its new reference, quoted, into every referencing
document that held the quoted original reference (or the quoted new reference already),
and flags the document. -/
theorem materializeRecord_substitutes (ext : Ext) (level : Option Int) (kind : Kind)
    (st st2 : State) (r : Str) (rec : Record) (content : Str)
    (h : materializeRecord ext level kind st r = .ok st2)
    (hrec : (st.changes.get kind).get? r = some rec)
    (hgz : (if truthy level = true then ext.gzipSync rec.content (level.getD 0)
        else some rec.content) = some content)
    (hr : dq ∉ r) (hd : dollar ∉ newReference ext level r content rec.source)
    (hq : dq ∉ newReference ext level r content rec.source) (d : Str) (hmem : d ∈ rec.htmlPaths)
    (hold : DocHolds d r st ∨ DocChanged d (newReference ext level r content rec.source) st) :
    DocChanged d (newReference ext level r content rec.source) st2 := by
  obtain ⟨rec', content', hrec', hgz', _, htext⟩ :=
    materializeRecord_text ext level kind st st2 r h
  rw [hrec] at hrec'
  simp only [Option.some.injEq] at hrec'
  subst hrec'
  rw [hgz] at hgz'
  simp only [Option.some.injEq] at hgz'
  subst hgz'
  obtain ⟨text, flag, h1, h2⟩ := (htext d).1 hmem
  refine ⟨_, h2, ?_⟩
  have hcount : 0 < rec.htmlPaths.count d := List.count_pos_iff.mpr hmem
  apply iterate_new_reference r _ hr hd hq _ text hcount
  rcases hold with hh | ⟨t, he, hin⟩
  · exact Or.inl (hh text flag h1)
  · rw [h1] at he
    simp only [Option.some.injEq, Prod.mk.injEq] at he
    rw [he.1]
    exact Or.inr hin

theorem ScanInv.key_quoted {ext : Ext} {A : Str} {are : JSRegExp} {fs : FS} {st : State}
    (hI : ScanInv ext A are fs st) (kind : Kind) (ref : Str) (rec : Record)
    (h : (st.changes.get kind).get? ref = some rec) : dq ∉ ref := by
  have hne := hI.nonempty kind ref rec h
  obtain ⟨d, hd⟩ := List.exists_mem_of_ne_nil _ hne
  obtain ⟨file, _, href⟩ := hI.refs kind ref rec h d hd
  exact (refsOf_quoted kind file ref href).1

theorem Kind.mem_all (kind : Kind) : kind ∈ Kind.all := by
  cases kind <;> simp [Kind.all]

/-- A materialization that completes has run the step of every record. -/
theorem materialize_visits (ext : Ext) (level : Option Int) (st1 st2 : State)
    (hmat : materialize ext level st1 = .ok st2) (kind : Kind) (ref : Str)
    (hkey : ref ∈ (st1.changes.get kind).keys) :
    ∃ s s', s.changes = st1.changes ∧ materializeRecord ext level kind s ref = .ok s' := by
  by_contra hcon
  have hfailstep : ∀ s, s.changes = st1.changes →
      ∀ s', materializeRecord ext level kind s ref ≠ .ok s' :=
    fun s hs s' hok => hcon ⟨s, s', hs, hok⟩
  unfold materialize at hmat
  have hphase := forEach_phase (materializeKind ext level) kind
    (fun s => s.changes = st1.changes) (fun _ => True) (fun _ => False) Kind.all
    (fun k _ s s' hs hb => (materializeKind_same ext level k s s' hb).1.trans hs)
    (fun k _ _ s s' _ _ => ⟨fun _ => trivial, fun h => h⟩)
    (fun s s' hs hb _ => by
      unfold materializeKind at hb
      rw [hs] at hb
      have hinner := forEach_phase (materializeRecord ext level kind) ref
        (fun s => s.changes = st1.changes) (fun _ => True) (fun _ => False)
        (st1.changes.get kind).keys
        (fun r _ a b ha hab => (materializeRecord_same ext level kind a b r hab).1.trans ha)
        (fun r _ _ a b _ _ => ⟨fun _ => trivial, fun h => h⟩)
        (fun a b ha hab _ => hfailstep a ha b hab)
        s s' hs hb
      exact hinner.2.1 trivial hkey)
    st1 st2 rfl hmat
  exact hphase.2.1 trivial (Kind.mem_all kind)

/-- The whole materialization, seen from one record and one of its documents. -/
theorem materialize_new_reference (ext : Ext) (A : Str) (are : JSRegExp) (fs : FS)
    (level : Option Int) (st1 st2 : State) (hI : ScanInv ext A are fs st1)
    (hmat : materialize ext level st1 = .ok st2)
    (kind : Kind) (ref : Str) (rec : Record)
    (hrec : (st1.changes.get kind).get? ref = some rec) :
    ∃ content, (if truthy level = true then ext.gzipSync rec.content (level.getD 0)
        else some rec.content) = some content ∧
      (dollar ∉ newReference ext level ref content rec.source →
        dq ∉ newReference ext level ref content rec.source →
        (∀ kind' ref', ((st1.changes.get kind').get? ref').isSome = true →
          (kind', ref') ≠ (kind, ref) →
          ref' ≠ ref ∧ ref' ≠ newReference ext level ref content rec.source) →
        ∀ d ∈ rec.htmlPaths,
          DocChanged d (newReference ext level ref content rec.source) st2) := by
  have hkey : ref ∈ (st1.changes.get kind).keys := by
    rw [JSObj.mem_keys, JSObj.hasOwn_eq_isSome, hrec]
    rfl
  have hrq : dq ∉ ref := hI.key_quoted kind ref rec hrec
  obtain ⟨s0, s0', hs0, hok0⟩ := materialize_visits ext level st1 st2 hmat kind ref hkey
  obtain ⟨rec0, content, hrec0, hgz, _, _⟩ := materializeRecord_text ext level kind s0 s0' ref hok0
  rw [hs0, hrec] at hrec0
  simp only [Option.some.injEq] at hrec0
  subst hrec0
  refine ⟨content, hgz, ?_⟩
  intro hd hq hother d hmem
  obtain ⟨file, hfile, href⟩ := hI.refs kind ref rec hrec d hmem
  have hstart : DocHolds d ref st1 := by
    intro text flag hentry
    have hfl := hI.flags d (text, flag) hentry
    rw [hfile] at hfl
    simp only [Option.some.injEq] at hfl
    rw [← hfl.2]
    exact (refsOf_quoted kind file ref href).2
  unfold materialize at hmat
  have hrecord : ∀ (k : Kind) (r : Str), (k, r) ≠ (kind, ref) → ∀ s s',
      s.changes = st1.changes → materializeRecord ext level k s r = .ok s' →
      (DocHolds d ref s → DocHolds d ref s') ∧
      (DocChanged d (newReference ext level ref content rec.source) s →
        DocChanged d (newReference ext level ref content rec.source) s') := by
    intro k r hne s s' hs hb
    obtain ⟨rec', _, hrec', _, _, _⟩ := materializeRecord_text ext level k s s' r hb
    rw [hs] at hrec'
    have hr' : dq ∉ r := hI.key_quoted k r rec' hrec'
    have hdiff := hother k r (by rw [hrec']; rfl) hne
    exact ⟨(materializeRecord_keeps ext level k s s' r hb hr' d ref hrq
        (fun e => hdiff.1 e.symm)).1,
      (materializeRecord_keeps ext level k s s' r hb hr' d _ hq (fun e => hdiff.2 e.symm)).2⟩
  have hphase := forEach_phase (materializeKind ext level) kind
    (fun s => s.changes = st1.changes) (DocHolds d ref)
    (DocChanged d (newReference ext level ref content rec.source)) Kind.all
    (fun k _ s s' hs hb => (materializeKind_same ext level k s s' hb).1.trans hs)
    (fun k _ hk s s' hs hb => by
      unfold materializeKind at hb
      have h1 := forEach_keeps (materializeRecord ext level k) (fun s => s.changes = st1.changes)
        (DocHolds d ref) (s.changes.get k).keys
        (fun r _ a b ha hab => ⟨(materializeRecord_same ext level k a b r hab).1.trans ha,
          (hrecord k r (fun e => hk (Prod.mk.inj e).1) a b ha hab).1⟩) s s' hs hb
      have h2 := forEach_keeps (materializeRecord ext level k) (fun s => s.changes = st1.changes)
        (DocChanged d (newReference ext level ref content rec.source)) (s.changes.get k).keys
        (fun r _ a b ha hab => ⟨(materializeRecord_same ext level k a b r hab).1.trans ha,
          (hrecord k r (fun e => hk (Prod.mk.inj e).1) a b ha hab).2⟩) s s' hs hb
      exact ⟨h1.2, h2.2⟩)
    (fun s s' hs hb hold => by
      unfold materializeKind at hb
      rw [hs] at hb
      have hinner := forEach_phase (materializeRecord ext level kind) ref
        (fun s => s.changes = st1.changes) (DocHolds d ref)
        (DocChanged d (newReference ext level ref content rec.source))
        (st1.changes.get kind).keys
        (fun r _ a b ha hab => (materializeRecord_same ext level kind a b r hab).1.trans ha)
        (fun r _ hr a b ha hab => hrecord kind r (fun e => hr (Prod.mk.inj e).2) a b ha hab)
        (fun a b ha hab hold' =>
          materializeRecord_substitutes ext level kind a b ref rec content hab
            (by rw [ha]; exact hrec) hgz hrq hd hq d hmem hold')
        s s' hs hb
      rcases hold with h1 | h2
      · exact hinner.2.1 h1 hkey
      · exact hinner.2.2.2 h2)
    st1 st2 rfl hmat
  exact hphase.2.1 hstart (Kind.mem_all kind)

/-! ## The last loop -/

theorem persist_ok (st2 st3 : State) (h : persist st2 = .ok st3) :
    st3.htmlFiles = st2.htmlFiles ∧ SameRecords st2 st3 ∧
      ∀ d text, d ≠ "__proto__".toList → st2.htmlFiles.entry? d = some (text, true) →
        st3.fs.readFile d = some text := by
  unfold persist at h
  have hsame := forEach_ok_ind persistDoc (fun s => s.htmlFiles = st2.htmlFiles) SameRecords
    (fun _ _ => True) SameRecords.same (fun a b c h1 h2 => h1.chain h2)
    (fun _ _ _ _ _ => trivial) st2.htmlFiles.keys
    (fun k _ a b ha hab => ⟨(persistDoc_ok a b k hab).1.trans ha, (persistDoc_ok a b k hab).2.1,
      trivial⟩) st2 st3 rfl h
  refine ⟨hsame.1, hsame.2.1, ?_⟩
  intro d text hd hentry
  have hown : st2.htmlFiles.own.get? d = some (text, true) := by
    unfold HtmlFiles.entry? at hentry
    rw [if_neg hd] at hentry
    exact hentry
  have hkey : d ∈ st2.htmlFiles.keys := by
    unfold HtmlFiles.keys
    apply List.mem_append_left
    rw [JSObj.mem_keys, JSObj.hasOwn_eq_isSome, hown]
    rfl
  have hphase := forEach_phase persistDoc d (fun s => s.htmlFiles = st2.htmlFiles)
    (fun _ => True) (fun s => s.fs.readFile d = some text) st2.htmlFiles.keys
    (fun k _ a b ha hab => (persistDoc_ok a b k hab).1.trans ha)
    (fun k _ hk a b ha hab => by
      refine ⟨fun _ => trivial, ?_⟩
      intro hread
      obtain ⟨_, _, hsome, hnone⟩ := persistDoc_ok a b k hab
      cases hg : a.htmlFiles.own.get? k with
      | none => rw [hnone hg d (fun e => hk e.symm)]; exact hread
      | some entry =>
        by_cases hf : entry.2 = true
        · rw [(hsome entry hg).1 hf, FS.readFile_writeFile, if_neg (fun e => hk e.symm)]
          exact hread
        · rw [(hsome entry hg).2 (Bool.eq_false_iff.mpr hf)]
          exact hread)
    (fun a b ha hab _ => by
      obtain ⟨_, _, hsome, _⟩ := persistDoc_ok a b d hab
      have hg : a.htmlFiles.own.get? d = some (text, true) := by rw [ha]; exact hown
      rw [(hsome _ hg).1 rfl, FS.readFile_writeFile, if_pos rfl])
    st2 st3 rfl h
  exact hphase.2.1 trivial hkey

theorem run_ok (ext : Ext) (A : Str) (gzipArg : Option Str) (htmlPaths : List Str) (fs : FS)
    (st3 : State) (h : run ext A gzipArg htmlPaths fs = .ok st3) :
    ∃ are st1 st2, assetRegEx A = some are ∧
      scan ext A are htmlPaths (State.init fs) = .ok st1 ∧
      materialize ext (gzipLevel gzipArg) st1 = .ok st2 ∧ persist st2 = .ok st3 := by
  unfold run at h
  by_cases hne : htmlPaths = []
  · rw [if_pos hne] at h
    simp at h
  · rw [if_neg hne] at h
    cases hre : assetRegEx A with
    | none => rw [hre] at h; simp at h
    | some are =>
      rw [hre] at h
      dsimp only at h
      cases hs : scan ext A are htmlPaths (State.init fs) with
      | fail e s => rw [hs] at h; simp [Res.andThen] at h
      | ok st1 =>
        rw [hs] at h
        cases hm : materialize ext (gzipLevel gzipArg) st1 with
        | fail e s => simp [Res.andThen, hm] at h
        | ok st2 =>
          simp only [Res.andThen, hm] at h
          exact ⟨are, st1, st2, rfl, hs, hm, h⟩

theorem refChar_ne_dq (r : Str) (hr : ∀ c ∈ r, isRefChar c = true) : dq ∉ r := by
  intro h
  have := hr dq h
  revert this
  decide

/-- C4, as stated, fails: rewriting the reference `a` to `b` in the text `"a"a"` replaces only
the first of its two occurrences of `"a"` (they share a quote), and the result `"b"a"` still
ends with the occurrence `"a"`. -/
theorem C4_overlapping_occurrence_remains :
    (pathRegEx "a".toList).map (fun re => replace "\"a\"a\"".toList re (quoted "b".toList))
      = some ("\"b".toList ++ quoted "a".toList) := by
  decide

/-- C4, amended: for a reference `r` over the detection alphabet and a new reference `r2`
without `$` or `"`, the rewrite step is the left-to-right replacement of the occurrences of
`"r"` that do not overlap an occurrence already replaced; and no occurrence of `"r"` remains
when `r2` differs from `r` and the text has no two occurrences sharing a quote (`"r"r"`). -/
theorem C4_rewrite_replaces_scanned_occurrences (r r2 text : Str)
    (hr : ∀ c ∈ r, isRefChar c = true) (hd : dollar ∉ r2) (hq : dq ∉ r2) :
    ∃ re, pathRegEx r = some re ∧
      replace text re (quoted r2) = litReplace (quoted r) (quoted r2) text ∧
      (r2 ≠ r → ¬ (quoted r ++ r ++ [dq]) <:+: text →
        ¬ quoted r <:+: replace text re (quoted r2)) := by
  have hdq : dollar ∉ quoted r2 := by
    have : dollar ≠ dq := by decide
    simp [quoted, hd, this]
  refine ⟨_, pathRegEx_eq r, replace_pathRegEx r _ text hdq, ?_⟩
  intro hne hfree
  rw [replace_pathRegEx r _ text hdq]
  exact litReplace_no_occurrence r r2 (refChar_ne_dq r hr) hq hne text.length text
    (Nat.le_refl _) hfree

/-- C5: for references `r`, `s` over the detection alphabet with `r` a proper substring of `s`
and a new reference without `$`, rewriting `r` leaves every quoted occurrence `"s"` of the text
in place: the text before it (up to its opening quote) and the text after it (from its closing
quote) are rewritten on their own, and `"s"` stands between the two results. -/
theorem C5_longer_reference_untouched (r s r2 pre post : Str)
    (hr : ∀ c ∈ r, isRefChar c = true) (hs : ∀ c ∈ s, isRefChar c = true)
    (hsub : r <:+: s) (hne : r ≠ s) (hd : dollar ∉ r2) :
    ∃ re A B, pathRegEx r = some re ∧
      replace (pre ++ quoted s ++ post) re (quoted r2) = A ++ quoted s ++ B ∧
      replace (pre ++ [dq]) re (quoted r2) = A ++ [dq] ∧
      replace (dq :: post) re (quoted r2) = dq :: B := by
  have hdq : dollar ∉ quoted r2 := by
    have : dollar ≠ dq := by decide
    simp [quoted, hd, this]
  obtain ⟨A, hA⟩ := litReplace_ends_with_quote r r2 pre.length pre (Nat.le_refl _)
  obtain ⟨B, hB⟩ := litReplace_starts_with_quote r r2 post
  refine ⟨_, A, B, pathRegEx_eq r, ?_, ?_, ?_⟩
  · rw [replace_pathRegEx r _ _ hdq]
    have e : pre ++ quoted s ++ post = pre ++ [dq] ++ (s ++ dq :: post) := by simp [quoted]
    rw [e, litReplace_keeps_other_quoted r s _ (refChar_ne_dq r hr) (refChar_ne_dq s hs) hne post
      pre.length pre (Nat.le_refl _), hA, hB]
    simp [quoted]
  · rw [replace_pathRegEx r _ _ hdq, hA]
  · rw [replace_pathRegEx r _ _ hdq, hB]

/-- C1 (amended): in a run that completes, for every document `path`, every kind and every
reference `ref` matched in the document: the transform of the kind was invoked exactly once
for `ref`; there is one record for `ref`, with `path` among its referencing documents; and
with `content` the bytes written for the record and the new reference
`slash(join(dirname(ref), md5(content) + ext))`: if the new reference holds neither `$` nor
`"`, and no other record of the run (of any kind) has `ref` or the new reference as its
original reference, then at the end of the run every referencing document of the record is
flagged as changed and its text holds the quoted new reference, the same for all of them;
and this text is what the file of the document holds, unless the document is named
`__proto__`. -/
theorem C1_transform_once_new_reference_kept (ext : Ext) (A : Str) (gzipArg : Option Str)
    (htmlPaths : List Str) (fs : FS) (st3 : State) (path file : Str) (kind : Kind) (ref : Str)
    (hrun : run ext A gzipArg htmlPaths fs = .ok st3)
    (hp : path ∈ htmlPaths) (hf : fs.readFile path = some file) (hm : ref ∈ refsOf kind file) :
    transformCalls st3.log kind ref = 1 ∧
    ∃ rec content, (st3.changes.get kind).get? ref = some rec ∧ path ∈ rec.htmlPaths ∧
      (if truthy (gzipLevel gzipArg) = true
        then ext.gzipSync rec.content ((gzipLevel gzipArg).getD 0) else some rec.content)
        = some content ∧
      (dollar ∉ newReference ext (gzipLevel gzipArg) ref content rec.source →
        dq ∉ newReference ext (gzipLevel gzipArg) ref content rec.source →
        (∀ kind' ref', ((st3.changes.get kind').get? ref').isSome = true →
          (kind', ref') ≠ (kind, ref) →
          ref' ≠ ref ∧ ref' ≠ newReference ext (gzipLevel gzipArg) ref content rec.source) →
        ∀ d ∈ rec.htmlPaths, ∃ text, st3.htmlFiles.entry? d = some (text, true) ∧
          quoted (newReference ext (gzipLevel gzipArg) ref content rec.source) <:+: text ∧
          (d ≠ "__proto__".toList → st3.fs.readFile d = some text)) := by
  obtain ⟨are, st1, st2, _, hscan, hmat, hpersist⟩ := run_ok ext A gzipArg htmlPaths fs st3 hrun
  obtain ⟨hI, hrec⟩ := scan_ok ext A are fs htmlPaths st1 hscan
  obtain ⟨rec, hget, hpath⟩ := hrec path hp file hf kind ref hm
  have hs12 := materialize_same ext (gzipLevel gzipArg) st1 st2 hmat
  obtain ⟨hh, hs23, hdisk⟩ := persist_ok st2 st3 hpersist
  have hch : st3.changes = st1.changes := hs23.1.trans hs12.1
  obtain ⟨content, hgz, hkept⟩ := materialize_new_reference ext A are fs (gzipLevel gzipArg)
    st1 st2 hI hmat kind ref rec hget
  refine ⟨?_, rec, content, by rw [hch]; exact hget, hpath, hgz, ?_⟩
  · rw [hs23.2, hs12.2, hI.calls kind ref, JSObj.hasOwn_eq_isSome, hget]
    rfl
  · intro hd hq hother d hmem
    rw [hch] at hother
    obtain ⟨text, hentry, hin⟩ := hkept hd hq hother d hmem
    refine ⟨text, by rw [hh]; exact hentry, hin, ?_⟩
    intro hproto
    exact hdisk d text hproto hentry

/-! ## The claims about the run -/

/-- C7: for a record with source path `p` and minified content `c`: an omitted level parses
to `NaN`; with the level `NaN` or 0 the write call of the record has the bytes `c` and the
destination `join(dirname(p), md5(c) + extname(p))`; with a non-zero level `n` and
`g = gzipSync(c, n)` it has the bytes `g` and the destination
`join(dirname(p), md5(g) + extname(p) + ".gz")`. -/
theorem C7_written_bytes_and_destination (ext : Ext) (level : Option Int) (kind : Kind)
    (st : State) (path : Str) (rec : Record)
    (hrec : (st.changes.get kind).get? path = some rec) :
    gzipLevel none = none ∧
    ((level = none ∨ level = some 0) →
      (materializeRecord ext level kind st path).state.log
        = st.log ++ [.writeFile
            (join (dirname rec.source) (ext.md5hex rec.content ++ extname rec.source))
            rec.content, .unlink rec.source]) ∧
    (∀ (n : Int) (g : Str), level = some n → n ≠ 0 → ext.gzipSync rec.content n = some g →
      (materializeRecord ext level kind st path).state.log
        = st.log ++ [.writeFile
            (join (dirname rec.source) (ext.md5hex g ++ extname rec.source ++ ".gz".toList))
            g, .unlink rec.source]) := by
  refine ⟨by decide, ?_, ?_⟩
  · intro hl
    have ht : truthy level = false := by
      rcases hl with rfl | rfl <;> rfl
    have := materializeRecord_log ext level kind st path rec rec.content hrec (by simp [ht])
    rw [this]
    simp [hashedName, ht]
  · intro n g hl hn hg
    subst hl
    have ht : truthy (some n) = true := by simp [truthy, hn]
    have := materializeRecord_log ext (some n) kind st path rec g hrec (by simp [ht, hg])
    rw [this]
    simp [hashedName, ht]

/-- C8: a failure to read or to transform a referenced asset during the scan ends the run
with that error and with the file system untouched. Three statements, for every input.
First: if the asset of any reference matched in any document cannot be read or cannot be
transformed, the run fails, the file system is the one the run started with, no write or
unlink call has been made, and the error is the one of the step at which the scan stopped
(`ScanFailure`). Second: at the step at which the scan reaches a reference that has no
record (the documents, kinds and matches before it being scanned without an error), a read
that fails ends the run with exactly that error, and so does a transform that fails, the
message naming the document, the kind and the reference being the last thing logged.
Third: whenever the scan fails, for whatever reason, the run ends with that error and
nothing has been written or deleted. -/
theorem C8_failed_asset_aborts_run (ext : Ext) (A : Str) (gzipArg : Option Str)
    (htmlPaths : List Str) (fs : FS) (are : JSRegExp) (hre : assetRegEx A = some are) :
    (∀ path file kind ref, path ∈ htmlPaths → fs.readFile path = some file →
      ref ∈ refsOf kind file →
      (fs.readFile (resolve A are ref) = none ∨
        ∃ c, fs.readFile (resolve A are ref) = some c ∧
          ext.minify kind c (resolve A are ref) = none) →
      ∃ e st, run ext A gzipArg htmlPaths fs = .fail e st ∧ st.fs = fs ∧
        (∀ eff ∈ st.log, eff.isMutation = false) ∧
        ScanFailure ext A are fs htmlPaths e st.log) ∧
    (∀ (ps1 ps2 : List Str) (path file : Str) (ks1 ks2 : List Kind) (kind : Kind)
      (rs1 rs2 : List Str) (ref : Str) (s1 s2 s3 : State),
      htmlPaths = ps1 ++ path :: ps2 →
      scan ext A are ps1 (State.init fs) = .ok s1 →
      fs.readFile path = some file →
      Kind.all = ks1 ++ kind :: ks2 →
      forEach (scanKind ext A are path file) ks1
        { s1 with
          log := s1.log ++ [.readFile path]
          htmlFiles := s1.htmlFiles.assign path (file, false) } = .ok s2 →
      refsOf kind file = rs1 ++ ref :: rs2 →
      forEach (scanMatch ext A are path kind) rs1 s2 = .ok s3 →
      (s3.changes.get kind).has ref = false →
      (s3.fs = fs ∧ ∀ eff ∈ s3.log, eff.isMutation = false) ∧
      (fs.readFile (resolve A are ref) = none →
        run ext A gzipArg htmlPaths fs
          = .fail (.noEntry (resolve A are ref))
              { s3 with
                log := s3.log ++ [.readFile (resolve A are ref),
                  .consoleError path kind ref] }) ∧
      (∀ c, fs.readFile (resolve A are ref) = some c →
        ext.minify kind c (resolve A are ref) = none →
        run ext A gzipArg htmlPaths fs
          = .fail (.transformFailed kind (resolve A are ref))
              { s3 with
                log := s3.log ++ [.readFile (resolve A are ref),
                  .transform kind ref (resolve A are ref), .consoleError path kind ref] })) ∧
    (∀ e st, scan ext A are htmlPaths (State.init fs) = .fail e st →
      run ext A gzipArg htmlPaths fs = .fail e st ∧ st.fs = fs ∧
        (∀ eff ∈ st.log, eff.isMutation = false) ∧
        ScanFailure ext A are fs htmlPaths e st.log) := by
  have hrun : ∀ e st, scan ext A are htmlPaths (State.init fs) = .fail e st →
      run ext A gzipArg htmlPaths fs = .fail e st := by
    intro e st hfail
    have hne : htmlPaths ≠ [] := by
      intro h
      subst h
      simp [scan, forEach] at hfail
    unfold run
    rw [if_neg hne, hre]
    dsimp only
    rw [hfail]
    rfl
  have hthird : ∀ e st, scan ext A are htmlPaths (State.init fs) = .fail e st →
      run ext A gzipArg htmlPaths fs = .fail e st ∧ st.fs = fs ∧
        (∀ eff ∈ st.log, eff.isMutation = false) ∧
        ScanFailure ext A are fs htmlPaths e st.log := by
    intro e st hfail
    have hu := scan_untouched ext A are fs htmlPaths
    rw [hfail] at hu
    exact ⟨hrun e st hfail, hu.1, hu.2, scan_fail ext A are fs htmlPaths e st hfail⟩
  refine ⟨?_, ?_, hthird⟩
  · intro path file kind ref hp hf hm hbad
    cases hs : scan ext A are htmlPaths (State.init fs) with
    | fail e st => exact ⟨e, st, hthird e st hs⟩
    | ok st1 =>
      exfalso
      obtain ⟨hI, hrec⟩ := scan_ok ext A are fs htmlPaths st1 hs
      obtain ⟨rec, hget, _⟩ := hrec path hp file hf kind ref hm
      obtain ⟨_, c, hc, hmin⟩ := hI.made kind ref rec hget
      rcases hbad with hnone | ⟨c', hc', hmin'⟩
      · rw [hnone] at hc
        simp at hc
      · rw [hc'] at hc
        simp only [Option.some.injEq] at hc
        subst hc
        rw [hmin'] at hmin
        simp at hmin
  · intro ps1 ps2 path file ks1 ks2 kind rs1 rs2 ref s1 s2 s3 hdocs h1 hfile hkinds h2 hrefs h3
      hnew
    have hu1 : Untouched fs s1 := by
      have := scan_untouched ext A are fs ps1
      rw [h1] at this
      exact this
    have hu2 : Untouched fs s2 := by
      have := forEach_state_ind (scanKind ext A are path file) (Untouched fs)
        (fun kind s hs => scanKind_untouched ext A are fs path file kind s hs) ks1 _
        (hu1.afterRead path (s1.htmlFiles.assign path (file, false)))
      rw [h2] at this
      exact this
    have hu3 : Untouched fs s3 := by
      have := forEach_state_ind (scanMatch ext A are path kind) (Untouched fs)
        (fun ref s hs => scanMatch_untouched ext A are fs path kind ref s hs) rs1 _ hu2
      rw [h3] at this
      exact this
    have hstop : ∀ e b, scanMatch ext A are path kind s3 ref = .fail e b →
        run ext A gzipArg htmlPaths fs = .fail e b := by
      intro e b hm
      apply hrun
      have hk : scanKind ext A are path file s2 kind = .fail e b := by
        unfold scanKind
        rw [hrefs]
        exact forEach_stops _ rs1 rs2 ref s2 s3 b e h3 hm
      have hd : scanDoc ext A are s1 path = .fail e b := by
        unfold scanDoc
        rw [show s1.fs.readFile path = some file from by rw [hu1.1]; exact hfile]
        dsimp only
        rw [hkinds]
        exact forEach_stops _ ks1 ks2 kind _ s2 b e h2 hk
      unfold scan
      rw [hdocs]
      exact forEach_stops _ ps1 ps2 path _ s1 b e h1 hd
    refine ⟨hu3, ?_, ?_⟩
    · intro hnone
      apply hstop
      unfold scanMatch
      simp only [hnew, Bool.false_eq_true, if_false]
      rw [show s3.fs.readFile (resolve A are ref) = none from by rw [hu3.1]; exact hnone]
    · intro c hc hmin
      apply hstop
      unfold scanMatch
      simp only [hnew, Bool.false_eq_true, if_false]
      rw [show s3.fs.readFile (resolve A are ref) = some c from by rw [hu3.1]; exact hc]
      dsimp only
      rw [hmin]

/-! ### `normalize` and `join` -/

theorem normalize_of_stack (p : Str) (S : List Str) (hS : stackOf p = S)
    (hlast : ∃ front x, p = front ++ [x] ∧ x ≠ '/') (hne : joinSlash S.reverse ≠ []) :
    normalize p = rootOf p ++ joinSlash S.reverse := by
  obtain ⟨front, x, hp, hx⟩ := hlast
  have hpne : p ≠ [] := by rw [hp]; simp
  have htr : ¬ (p.getLast? = some '/') := by
    rw [hp, List.getLast?_append]
    simpa using hx
  have hres : normalizeString p (!decide (p.head? = some '/')) = joinSlash S.reverse := by
    rw [← hS]; rfl
  unfold normalize
  rw [if_neg hpne]
  simp only [hres, if_neg hne, if_neg htr, List.append_nil]
  rfl

theorem joinSlash_last (init : List Str) (l : Str) (hl : l ≠ []) (hs : '/' ∉ l) :
    ∃ front x, joinSlash (init ++ [l]) = front ++ [x] ∧ x ≠ '/' := by
  obtain ⟨l', x, rfl⟩ : ∃ l' x, l = l' ++ [x] := by
    rcases List.eq_nil_or_concat l with h | ⟨l', x, h⟩
    · exact absurd h hl
    · exact ⟨l', x, by rw [h, List.concat_eq_append]⟩
  have hx : x ≠ '/' := fun e => hs (by simp [e])
  cases init with
  | nil => exact ⟨l', x, rfl, hx⟩
  | cons a as =>
    rw [joinSlash_append_singleton _ _ (by simp)]
    exact ⟨joinSlash (a :: as) ++ '/' :: l', x, by simp, hx⟩

theorem stackOf_append (A b : Str) (hA : A ≠ []) :
    stackOf (A ++ '/' :: b)
      = (splitSlash b).foldl (normStep (!(A.head? = some '/'))) (stackOf A) := by
  have hh : (A ++ '/' :: b).head? = A.head? := by
    cases A with
    | nil => exact absurd rfl hA
    | cons c cs => rfl
  unfold stackOf
  rw [hh, splitSlash_append_slash, List.foldl_append]

theorem rootOf_append (A b : Str) (hA : A ≠ []) : rootOf (A ++ b) = rootOf A := by
  cases A with
  | nil => exact absurd rfl hA
  | cons c cs => rfl

theorem join_names (A : Str) (hA : A ≠ []) (lead : Bool) (init : List Str) (l : Str)
    (hinit : ∀ s ∈ init, isName s) (hl : isName l) :
    join A ((if lead then ['/'] else []) ++ joinSlash (init ++ [l]))
      = rootOf A ++ joinSlash ((stackOf A).reverse ++ (init ++ [l])) := by
  have hsegs : ∀ s ∈ init ++ [l], isName s := by
    intro s hs
    rcases List.mem_append.mp hs with hs | hs
    · exact hinit s hs
    · rw [List.mem_singleton.mp hs]; exact hl
  have hjne : joinSlash (init ++ [l]) ≠ [] :=
    joinSlash_ne_nil _ (by simp) (fun s hs => (hsegs s hs).1)
  have hbne : (if lead then ['/'] else []) ++ joinSlash (init ++ [l]) ≠ [] := by
    cases lead <;> simp [hjne]
  have hsplit : splitSlash ((if lead then ['/'] else []) ++ joinSlash (init ++ [l]))
      = (if lead then [[]] else []) ++ (init ++ [l]) := by
    have h0 := splitSlash_joinSlash (init ++ [l]) (by simp) (fun s hs => (hsegs s hs).2.1)
    cases lead with
    | true => simp [splitSlash, h0]
    | false => simpa using h0
  have hstack : stackOf (A ++ '/' :: ((if lead then ['/'] else []) ++ joinSlash (init ++ [l])))
      = (init ++ [l]).reverse ++ stackOf A := by
    rw [stackOf_append A _ hA, hsplit]
    cases lead with
    | true =>
      simp only [if_true, List.singleton_append, List.foldl_cons, normStep_nil]
      exact foldl_normStep_names _ _ _ hsegs
    | false =>
      simp only [Bool.false_eq_true, if_false, List.nil_append]
      exact foldl_normStep_names _ _ _ hsegs
  obtain ⟨front, x, hfx, hx⟩ := joinSlash_last init l hl.1 hl.2.1
  unfold join
  rw [if_neg hA, if_neg hbne]
  rw [normalize_of_stack _ _ hstack ⟨A ++ '/' :: ((if lead then ['/'] else []) ++ front), x,
    by rw [hfx]; simp, hx⟩]
  · rw [rootOf_append A _ hA]
    simp
  · simp only [List.reverse_append, List.reverse_reverse]
    apply joinSlash_ne_nil
    · simp
    · intro s hs
      rcases List.mem_append.mp hs with hs | hs
      · exact ((stackOf_normal A).seg_ok s (List.mem_reverse.mp hs)).1
      · exact (hsegs s hs).1

theorem join_nil_names (init : List Str) (l : Str) (hinit : ∀ s ∈ init, isName s)
    (hl : isName l) : join [] (joinSlash (init ++ [l])) = joinSlash (init ++ [l]) := by
  have hsegs : ∀ s ∈ init ++ [l], isName s := by
    intro s hs
    rcases List.mem_append.mp hs with hs | hs
    · exact hinit s hs
    · rw [List.mem_singleton.mp hs]; exact hl
  have hjne : joinSlash (init ++ [l]) ≠ [] :=
    joinSlash_ne_nil _ (by simp) (fun s hs => (hsegs s hs).1)
  have hhead : (joinSlash (init ++ [l])).head? ≠ some '/' :=
    joinSlash_head _ (by simp) (fun s hs => ⟨(hsegs s hs).1, (hsegs s hs).2.1⟩)
  have hstack : stackOf (joinSlash (init ++ [l])) = (init ++ [l]).reverse := by
    unfold stackOf
    rw [splitSlash_joinSlash _ (by simp) (fun s hs => (hsegs s hs).2.1),
      foldl_normStep_names _ _ _ hsegs]
    simp
  have hroot : rootOf (joinSlash (init ++ [l])) = [] := by
    unfold rootOf
    rw [if_neg hhead]
  unfold join
  rw [if_pos rfl, if_neg hjne,
    normalize_of_stack _ _ hstack (joinSlash_last init l hl.1 hl.2.1), hroot]
  · simp
  · simpa using hjne

theorem join_dir_name (abs : Bool) (X : List Str) (name : Str) (hX : X ≠ [])
    (hstable : X.foldl (normStep (!abs)) [] = X.reverse)
    (hok : ∀ s ∈ X, s ≠ [] ∧ '/' ∉ s) (hname : isName name) :
    join ((if abs then ['/'] else []) ++ joinSlash X) name
      = (if abs then ['/'] else []) ++ joinSlash (X ++ [name]) := by
  have hjne : joinSlash X ≠ [] := joinSlash_ne_nil _ hX (fun s hs => (hok s hs).1)
  have hDne : (if abs then ['/'] else []) ++ joinSlash X ≠ [] := by
    cases abs <;> simp [hjne]
  have hhead : ((if abs then ['/'] else []) ++ joinSlash X).head? = some '/' ↔ abs = true := by
    cases abs with
    | true => simp
    | false => simpa using joinSlash_head X hX hok
  have hallow : (!decide (((if abs then ['/'] else []) ++ joinSlash X).head? = some '/'))
      = !abs := by
    cases abs with
    | true => simp
    | false =>
      have := joinSlash_head X hX hok
      simp [this]
  have hsplit : splitSlash ((if abs then ['/'] else []) ++ joinSlash X)
      = (if abs then [[]] else []) ++ X := by
    have h0 := splitSlash_joinSlash X hX (fun s hs => (hok s hs).2)
    cases abs with
    | true => simp [splitSlash, h0]
    | false => simpa using h0
  have hstackD : stackOf ((if abs then ['/'] else []) ++ joinSlash X) = X.reverse := by
    unfold stackOf
    rw [hallow, hsplit]
    cases abs with
    | true =>
      simp only [if_true, List.singleton_append, List.foldl_cons, normStep_nil]
      exact hstable
    | false =>
      simp only [Bool.false_eq_true, if_false, List.nil_append]
      exact hstable
  have hstack : stackOf (((if abs then ['/'] else []) ++ joinSlash X) ++ '/' :: name)
      = name :: X.reverse := by
    rw [stackOf_append _ _ hDne, hstackD, splitSlash_plain name hname.2.1, List.foldl_cons,
      List.foldl_nil, normStep_name _ _ _ hname]
  obtain ⟨front, x, hfx, hx⟩ := joinSlash_last [] name hname.1 hname.2.1
  have hroot : rootOf (((if abs then ['/'] else []) ++ joinSlash X) ++ '/' :: name)
      = (if abs then ['/'] else []) := by
    rw [rootOf_append _ _ hDne]
    unfold rootOf
    cases abs with
    | true => simp
    | false =>
      have := joinSlash_head X hX hok
      simp [this]
  unfold join
  rw [if_neg hDne, if_neg hname.1]
  rw [normalize_of_stack _ _ hstack ⟨((if abs then ['/'] else []) ++ joinSlash X) ++ '/' :: front,
    x, by
      have : name = front ++ [x] := by simpa [joinSlash] using hfx
      rw [this]; simp, hx⟩]
  · rw [hroot]
    simp
  · simp only [List.reverse_cons, List.reverse_reverse]
    apply joinSlash_ne_nil
    · simp
    · intro s hs
      rcases List.mem_append.mp hs with hs | hs
      · exact (hok s hs).1
      · rw [List.mem_singleton.mp hs]; exact hname.1

theorem join_dot_name (name : Str) (hname : isName name) : join ['.'] name = name := by
  have h0 : stackOf ['.'] = [] := by decide
  have hstack : stackOf (['.'] ++ '/' :: name) = [name] := by
    rw [stackOf_append _ _ (by simp), splitSlash_plain name hname.2.1, h0, List.foldl_cons,
      List.foldl_nil, normStep_name _ _ _ hname]
  obtain ⟨front, x, hfx, hx⟩ := joinSlash_last [] name hname.1 hname.2.1
  have hn : name = front ++ [x] := by simpa [joinSlash] using hfx
  unfold join
  rw [if_neg (by simp), if_neg hname.1]
  rw [normalize_of_stack _ _ hstack ⟨['.'] ++ '/' :: front, x, by rw [hn]; simp, hx⟩]
  · simp [rootOf, joinSlash]
  · simpa [joinSlash] using hname.1

theorem join_root_name (name : Str) (hname : isName name) : join ['/'] name = '/' :: name := by
  have h0 : stackOf ['/'] = [] := by decide
  have hstack : stackOf (['/'] ++ '/' :: name) = [name] := by
    rw [stackOf_append _ _ (by simp), splitSlash_plain name hname.2.1, h0, List.foldl_cons,
      List.foldl_nil, normStep_name _ _ _ hname]
  obtain ⟨front, x, hfx, hx⟩ := joinSlash_last [] name hname.1 hname.2.1
  have hn : name = front ++ [x] := by simpa [joinSlash] using hfx
  unfold join
  rw [if_neg (by simp), if_neg hname.1,
    normalize_of_stack _ _ hstack ⟨['/'] ++ '/' :: front, x, by rw [hn]; simp, hx⟩]
  · simp [rootOf, joinSlash]
  · simpa [joinSlash] using hname.1



/-! ### Stripping the asset prefix, `slash` -/

theorem seq_bol_m (X : RegEx) (s : MState) (k : MCont) :
    (RegEx.seq .bol X).m false s k = if s.pos = 0 then X.m false s k else none := rfl

theorem matchHere_asset (b : Str) (pos : Nat) (rest : Str) :
    matchHere ⟨.seq .bol (.seq (.char '/') (litSeq b .empty)), false, false⟩ pos rest
      = if pos = 0 then
          (if ('/' :: b).isPrefixOf rest = true then
            some ⟨b.length + 1, rest.drop (b.length + 1), []⟩
          else none)
        else none := by
  have e : RegEx.seq (.char '/') (litSeq b .empty) = litSeq ('/' :: b) .empty := rfl
  have hg : (RegEx.seq .bol (litSeq ('/' :: b) .empty)).nGroups = 0 := by
    show 0 + (litSeq ('/' :: b) .empty).nGroups = 0
    rw [litSeq_nGroups]
    rfl
  unfold matchHere
  simp only [e, hg, List.replicate, seq_bol_m, litSeq_m]
  by_cases hpos : pos = 0
  · subst hpos
    simp only [if_true, List.length_cons, Nat.zero_add]
    by_cases hp : ('/' :: b).isPrefixOf rest = true
    · simp only [hp, if_true]
      rfl
    · simp only [hp, if_false]
      rfl
  · simp only [hpos, if_false]

theorem replaceFirstGo_asset_later (b input : Str) (rest : Str) :
    ∀ (pos : Nat), pos ≠ 0 →
      replaceFirstGo ⟨.seq .bol (.seq (.char '/') (litSeq b .empty)), false, false⟩ [] input
        pos rest = rest := by
  induction rest with
  | nil =>
    intro pos hpos
    simp [replaceFirstGo, matchHere_asset, hpos]
  | cons c cs ih =>
    intro pos hpos
    simp [replaceFirstGo, matchHere_asset, hpos, ih (pos + 1) (by omega)]

theorem strip_eq (b x : Str) :
    replace x ⟨.seq .bol (.seq (.char '/') (litSeq b .empty)), false, false⟩ []
      = if ('/' :: b).isPrefixOf x = true then x.drop (b.length + 1) else x := by
  unfold replace
  simp only [Bool.false_eq_true, if_false]
  cases x with
  | nil => simp [replaceFirstGo, matchHere_asset, List.isPrefixOf]
  | cons c cs =>
    by_cases h : ('/' :: b).isPrefixOf (c :: cs) = true
    · simp [replaceFirstGo, matchHere_asset, h, getSubstitution, getSubstitutionGo]
    · simp [replaceFirstGo, matchHere_asset, h, replaceFirstGo_asset_later]

theorem strip_relative (b x : Str) (h : x.head? ≠ some '/') :
    replace x ⟨.seq .bol (.seq (.char '/') (litSeq b .empty)), false, false⟩ [] = x := by
  rw [strip_eq]
  have : ('/' :: b).isPrefixOf x = false := by
    cases x with
    | nil => rfl
    | cons c cs =>
      have hc : ¬ '/' = c := by
        intro e
        apply h
        rw [← e]
        rfl
      simp [List.isPrefixOf, hc]
  rw [this]
  rfl

theorem strip_prefixed (b y : Str) :
    replace ('/' :: b ++ '/' :: y)
        ⟨.seq .bol (.seq (.char '/') (litSeq b .empty)), false, false⟩ []
      = '/' :: y := by
  rw [strip_eq]
  have h : ('/' :: b).isPrefixOf ('/' :: b ++ '/' :: y) = true := by
    rw [isPrefixOf_true_iff]
    exact ⟨'/' :: y, by simp⟩
  rw [if_pos h]
  have : ('/' :: b ++ '/' :: y) = ('/' :: b) ++ ('/' :: y) := by simp
  rw [this, show b.length + 1 = ('/' :: b).length from rfl, List.drop_left]

theorem slash_plain (p : Str) (h : bslash ∉ p) : slash p = p := by
  unfold slash
  split
  · rfl
  · have : p.map (fun c => if c = bslash then '/' else c) = p.map id := by
      apply List.map_congr_left
      intro c hc
      have hne : c ≠ bslash := fun e => h (e ▸ hc)
      simp [hne]
    rw [this, List.map_id]



/-! ### The new reference and the destination -/

theorem join_rel_names (A : Str) (init : List Str) (l : Str) (hinit : ∀ s ∈ init, isName s)
    (hl : isName l) :
    join A (joinSlash (init ++ [l]))
      = rootOf A ++ joinSlash ((stackOf A).reverse ++ (init ++ [l])) := by
  by_cases hA : A = []
  · subst hA
    have h0 : stackOf ([] : Str) = [] := by decide
    rw [join_nil_names init l hinit hl, h0]
    rfl
  · have := join_names A hA false init l hinit hl
    simpa using this

theorem rootOf_eq (A : Str) :
    rootOf A = if decide (A.head? = some '/') = true then ['/'] else [] := by
  unfold rootOf
  by_cases h : A.head? = some '/' <;> simp [h]

theorem dirname_then_join (abs : Bool) (X : List Str) (l name : Str)
    (hstable : X.foldl (normStep (!abs)) [] = X.reverse)
    (hok : ∀ s ∈ X, s ≠ [] ∧ '/' ∉ s) (hl : isName l) (hname : isName name) :
    join (dirname ((if abs then ['/'] else []) ++ joinSlash (X ++ [l]))) name
      = (if abs then ['/'] else []) ++ joinSlash (X ++ [name]) := by
  cases X with
  | nil =>
    obtain ⟨c, l', rfl⟩ : ∃ c l', l = c :: l' := by
      cases l with
      | nil => exact absurd rfl hl.1
      | cons c l' => exact ⟨c, l', rfl⟩
    have hc : c ≠ '/' := fun e => hl.2.1 (by simp [e])
    have hl' : '/' ∉ l' := fun e => hl.2.1 (List.mem_cons_of_mem _ e)
    cases abs with
    | true =>
      have e : (if true = true then ['/'] else []) ++ joinSlash ([] ++ [c :: l'])
          = '/' :: (c :: l') := rfl
      rw [e, dirname_single '/' (c :: l') hl.2.1, if_pos rfl, join_root_name name hname]
      rfl
    | false =>
      have e : (if false = true then ['/'] else []) ++ joinSlash ([] ++ [c :: l'])
          = c :: l' := rfl
      rw [e, dirname_single c l' hl', if_neg hc, join_dot_name name hname]
      rfl
  | cons a as =>
    have hX : (a :: as) ≠ [] := by simp
    have hjne : joinSlash (a :: as) ≠ [] := joinSlash_ne_nil _ hX (fun s hs => (hok s hs).1)
    have hbody : (if abs then ['/'] else []) ++ joinSlash (a :: as) ≠ [] := by
      cases abs <;> simp [hjne]
    have hbody2 : (if abs then ['/'] else []) ++ joinSlash (a :: as) ≠ ['/'] := by
      cases abs with
      | true =>
        intro e
        simp only [if_true, List.singleton_append, List.cons.injEq, true_and] at e
        exact hjne e
      | false =>
        intro e
        simp only [Bool.false_eq_true, if_false, List.nil_append] at e
        have := joinSlash_head (a :: as) hX hok
        rw [e] at this
        exact this rfl
    rw [joinSlash_append_singleton _ _ hX, ← List.append_assoc,
      dirname_body _ l hbody hbody2 hl.1 hl.2.1,
      join_dir_name abs (a :: as) name hX hstable hok hname]

theorem resolved_dirname_then_join (A : Str) (init : List Str) (l name : Str)
    (hinit : ∀ s ∈ init, isName s) (hl : isName l) (hname : isName name) :
    join (dirname (rootOf A ++ joinSlash ((stackOf A).reverse ++ (init ++ [l])))) name
      = rootOf A ++ joinSlash ((stackOf A).reverse ++ (init ++ [name])) := by
  have hN := stackOf_normal A
  have hstable : ((stackOf A).reverse ++ init).foldl
      (normStep (!decide (A.head? = some '/'))) [] = ((stackOf A).reverse ++ init).reverse := by
    rw [List.foldl_append, hN.stable, foldl_normStep_names _ _ _ hinit]
    simp
  have hok : ∀ s ∈ (stackOf A).reverse ++ init, s ≠ [] ∧ '/' ∉ s := by
    intro s hs
    rcases List.mem_append.mp hs with hs | hs
    · exact hN.seg_ok s (List.mem_reverse.mp hs)
    · exact ⟨(hinit s hs).1, (hinit s hs).2.1⟩
  rw [rootOf_eq, ← List.append_assoc, ← List.append_assoc]
  exact dirname_then_join _ _ l name hstable hok hl hname



theorem mem_joinSlash (segs : List Str) (c : Char) (h : c ∈ joinSlash segs) :
    c = '/' ∨ ∃ s ∈ segs, c ∈ s := by
  induction segs with
  | nil => simp [joinSlash] at h
  | cons s t ih =>
    cases t with
    | nil => exact Or.inr ⟨s, List.mem_cons_self _ _, h⟩
    | cons a as =>
      rw [joinSlash_cons s _ (by simp)] at h
      rcases List.mem_append.mp h with h | h
      · exact Or.inr ⟨s, List.mem_cons_self _ _, h⟩
      · rcases List.mem_cons.mp h with h | h
        · exact Or.inl h
        · rcases ih h with h | ⟨x, hx, hc⟩
          · exact Or.inl h
          · exact Or.inr ⟨x, List.mem_cons_of_mem _ hx, hc⟩

theorem joinSlash_no_bslash (segs : List Str) (h : ∀ s ∈ segs, bslash ∉ s) :
    bslash ∉ joinSlash segs := by
  intro hm
  rcases mem_joinSlash segs bslash hm with e | ⟨s, hs, hc⟩
  · revert e; decide
  · exact h s hs hc

theorem hashed_name_plain (hash ext : Str) (hhash : hash ≠ [] ∧ ∀ c ∈ hash, isHexDigit c = true)
    (hext : ∀ c ∈ ext, isSegChar c = true) :
    isName (hash ++ ext) ∧ bslash ∉ hash ++ ext := by
  have hseg : ∀ c ∈ hash ++ ext, isSegChar c = true := by
    intro c hc
    rcases List.mem_append.mp hc with hc | hc
    · have := hhash.2 c hc
      revert this
      simp only [isHexDigit, isSegChar, isWordChar, Bool.or_eq_true, Bool.and_eq_true,
        decide_eq_true_eq, beq_iff_eq]
      intro h
      rcases h with h | h
      · exact Or.inl (Or.inl (Or.inl (Or.inr h)))
      · refine Or.inl (Or.inl (Or.inl (Or.inl (Or.inl ⟨h.1, ?_⟩))))
        exact le_trans h.2 (by decide)
    · exact hext c hc
  obtain ⟨c, cs, hcs⟩ : ∃ c cs, hash = c :: cs := by
    cases hash with
    | nil => exact absurd rfl hhash.1
    | cons c cs => exact ⟨c, cs, rfl⟩
  have hc : c ≠ '.' := by
    intro e
    have := hhash.2 c (by rw [hcs]; exact List.mem_cons_self _ _)
    rw [e] at this
    revert this
    decide
  refine ⟨⟨?_, ?_, ?_, ?_⟩, ?_⟩
  · rw [hcs]; simp
  · intro hm
    have := hseg _ hm
    revert this
    decide
  · rw [hcs]
    intro e
    simp only [List.cons_append, List.cons.injEq] at e
    exact hc e.1
  · rw [hcs]
    intro e
    simp only [List.cons_append, List.cons.injEq] at e
    exact hc e.1
  · intro hm
    have := hseg _ hm
    revert this
    decide

/-- C10, as stated, fails: with the asset directory `assets` and the reference
`//assets/app.js` the new reference `/assets/<name>` resolves to `assets/<name>`, while the
file was written to `assets/assets/<name>`. -/
theorem C10_double_slash_reference_misresolves :
    (assetRegEx "assets".toList).map (fun are =>
      (resolve "assets".toList are
          (slash (join (dirname "//assets/app.js".toList)
            "d41d8cd98f00b204e9800998ecf8427e.js".toList)),
        join (dirname (resolve "assets".toList are "//assets/app.js".toList))
          "d41d8cd98f00b204e9800998ecf8427e.js".toList))
      = some ("assets/d41d8cd98f00b204e9800998ecf8427e.js".toList,
          "assets/assets/d41d8cd98f00b204e9800998ecf8427e.js".toList) := by
  decide

/-- C10, amended: for every asset directory and every reference made of one or more plain
segments (non-empty, over word characters, `.` and `-`, not `.` or `..`) separated by single
slashes, either relative or prefixed by `/<base name of the asset directory>/` with a plain
base name, the new reference (directory of the reference joined with the hash followed by the
extension) resolves under the rule of line 63 to the destination of the materialized file. -/
theorem C10_new_reference_resolves_to_destination (A : Str) (are : JSRegExp)
    (init : List Str) (last hash ext r : Str)
    (hre : assetRegEx A = some are)
    (hinit : ∀ s ∈ init, plainSegment s = true) (hlast : plainSegment last = true)
    (hhash : hash ≠ [] ∧ ∀ c ∈ hash, isHexDigit c = true)
    (hext : ∀ c ∈ ext, isSegChar c = true)
    (hr : r = joinSlash (init ++ [last]) ∨
      (plainSegment (basename A) = true ∧
        r = '/' :: basename A ++ '/' :: joinSlash (init ++ [last]))) :
    resolve A are (slash (join (dirname r) (hash ++ ext)))
      = join (dirname (resolve A are r)) (hash ++ ext) := by
  rw [assetRegEx_eq] at hre
  simp only [Option.some.injEq] at hre
  subst hre
  obtain ⟨hname, hnb⟩ := hashed_name_plain hash ext hhash hext
  have hinit' : ∀ s ∈ init, isName s := fun s hs => isName_of_plain s (hinit s hs)
  have hlast' : isName last := isName_of_plain last hlast
  have hinitb : ∀ s ∈ init, bslash ∉ s := fun s hs => plain_no_bslash s (hinit s hs)
  unfold resolve
  rcases hr with hr | ⟨hb, hr⟩
  · subst hr
    have hhead : ∀ l, isName l → (joinSlash (init ++ [l])).head? ≠ some '/' := by
      intro l hl
      apply joinSlash_head _ (by simp)
      intro s hs
      rcases List.mem_append.mp hs with hs | hs
      · exact ⟨(hinit' s hs).1, (hinit' s hs).2.1⟩
      · rw [List.mem_singleton.mp hs]; exact ⟨hl.1, hl.2.1⟩
    have hnew : join (dirname (joinSlash (init ++ [last]))) (hash ++ ext)
        = joinSlash (init ++ [hash ++ ext]) := by
      have := dirname_then_join false init last (hash ++ ext)
        (by rw [foldl_normStep_names _ _ _ hinit']; simp)
        (fun s hs => ⟨(hinit' s hs).1, (hinit' s hs).2.1⟩) hlast' hname
      simpa using this
    have hnob : bslash ∉ joinSlash (init ++ [hash ++ ext]) := by
      apply joinSlash_no_bslash
      intro s hs
      rcases List.mem_append.mp hs with hs | hs
      · exact hinitb s hs
      · rw [List.mem_singleton.mp hs]; exact hnb
    rw [hnew, slash_plain _ hnob, strip_relative _ _ (hhead _ hname),
      strip_relative _ _ (hhead _ hlast'), join_rel_names A init _ hinit' hname,
      join_rel_names A init _ hinit' hlast',
      resolved_dirname_then_join A init last _ hinit' hlast' hname]
  · subst hr
    have hb' : isName (basename A) := isName_of_plain _ hb
    have hA : A ≠ [] := by
      intro e
      rw [e] at hb
      revert hb
      decide
    have hshape : ∀ l, '/' :: basename A ++ '/' :: joinSlash (init ++ [l])
        = (if true = true then ['/'] else []) ++ joinSlash ((basename A :: init) ++ [l]) := by
      intro l
      have e : (basename A :: init) ++ [l] = basename A :: (init ++ [l]) := rfl
      rw [e, joinSlash_cons _ _ (by simp)]
      rfl
    have hnew : join (dirname ('/' :: basename A ++ '/' :: joinSlash (init ++ [last])))
        (hash ++ ext) = '/' :: basename A ++ '/' :: joinSlash (init ++ [hash ++ ext]) := by
      have hall : ∀ s ∈ basename A :: init, isName s := by
        intro s hs
        rcases List.mem_cons.mp hs with rfl | hs
        · exact hb'
        · exact hinit' s hs
      rw [hshape last, hshape (hash ++ ext)]
      exact dirname_then_join true (basename A :: init) last (hash ++ ext)
        (by rw [foldl_normStep_names _ _ _ hall]; simp)
        (fun s hs => ⟨(hall s hs).1, (hall s hs).2.1⟩) hlast' hname
    have hnob : bslash ∉ '/' :: basename A ++ '/' :: joinSlash (init ++ [hash ++ ext]) := by
      rw [hshape]
      intro hm
      rcases List.mem_append.mp hm with hm | hm
      · revert hm; decide
      · refine joinSlash_no_bslash _ ?_ hm
        intro s hs
        rcases List.mem_append.mp hs with hs | hs
        · rcases List.mem_cons.mp hs with rfl | hs
          · exact plain_no_bslash _ hb
          · exact hinitb s hs
        · rw [List.mem_singleton.mp hs]; exact hnb
    have hj := fun l (hl : isName l) => join_names A hA true init l hinit' hl
    simp only [if_true, List.singleton_append] at hj
    rw [hnew, slash_plain _ hnob, strip_prefixed, strip_prefixed, hj _ hname, hj _ hlast',
      resolved_dirname_then_join A init last _ hinit' hlast' hname]

/-! ## The claims the code does not meet, at concrete inputs -/

/-- C2 (code bug): with two script tags on one line the greedy `.*` of the script pattern
runs to the last `src="..."` of the line, the only match captures `b.js`, and the run ends
without an error, without a record for `a.js` and with `assets/a.js` still in place. -/
theorem C2_first_script_tag_on_line_missed :
    refsOf .js twoScriptsPage = ["b.js".toList] ∧
    (run sampleExt "assets".toList none ["index.html".toList] twoScriptsFS).error? = none ∧
    ((run sampleExt "assets".toList none ["index.html".toList] twoScriptsFS).state.changes.get
      .js).get? "a.js".toList = none ∧
    (run sampleExt "assets".toList none ["index.html".toList] twoScriptsFS).state.fs.readFile
      "assets/a.js".toList = some "var a;".toList := by
  decide

/-- C3 (code bug): `/assets/app.js` and `app.js` both resolve to `assets/app.js`; both are
transformed, the first record is written and its source unlinked, and the `unlink` of the
second record fails for want of the file: the run ends with that error and `index.html` is
never written back. -/
theorem C3_second_unlink_fails :
    (run sampleExt "assets".toList none ["index.html".toList] sharedSourceFS).error?
      = some (.noEntry "assets/app.js".toList) ∧
    transformCalls
      (run sampleExt "assets".toList none ["index.html".toList] sharedSourceFS).state.log
      .js "/assets/app.js".toList = 1 ∧
    transformCalls
      (run sampleExt "assets".toList none ["index.html".toList] sharedSourceFS).state.log
      .js "app.js".toList = 1 ∧
    (run sampleExt "assets".toList none ["index.html".toList] sharedSourceFS).state.fs.readFile
      "index.html".toList = some sharedSourcePage := by
  decide

/-- C9 (code bug): for the reference `constructor` no record was created before, yet
`match in target` is true (the property is inherited from `Object.prototype`), the scanner
takes the branch that appends and the run ends with a TypeError: the transform is not
invoked and no record is created. This holds whatever the libraries and the gzip argument. -/
theorem C9_inherited_property_taken_for_record (ext : Ext) (gzipArg : Option Str) :
    (JSObj.empty : JSObj Record).has "constructor".toList = true ∧
    (run ext "assets".toList gzipArg ["index.html".toList] constructorFS).error?
      = some (.notAFunction .js "constructor".toList) ∧
    transformCalls (run ext "assets".toList gzipArg ["index.html".toList] constructorFS).state.log
      .js "constructor".toList = 0 ∧
    ((run ext "assets".toList gzipArg ["index.html".toList] constructorFS).state.changes.get
      .js).get? "constructor".toList = none :=
  ⟨rfl, rfl, rfl, rfl⟩

/-- C6 (code bug): a document named `__proto__` that references a script is flagged as
changed by the rewriting, but it is no own property of `htmlFiles`: the last loop visits the
inherited keys `0` and `1` instead, writes the first character of the text to a file `0`
and ends with a TypeError at `1`; the document itself is never written back and keeps the
old reference on disk, although the script it names was deleted. -/
theorem C6_flagged_document_not_written_back :
    (run sampleExt "assets".toList none ["__proto__".toList] protoDocFS).error?
      = some (.notIterable "1".toList) ∧
    (run sampleExt "assets".toList none ["__proto__".toList] protoDocFS).state.htmlFiles.entry?
        "__proto__".toList
      = some ("<script src=\"/assets/d41d8cd98f00b204e9800998ecf8427e.js\"></script>".toList,
          true) ∧
    (run sampleExt "assets".toList none ["__proto__".toList] protoDocFS).state.htmlFiles.keys
      = ["0".toList, "1".toList] ∧
    (run sampleExt "assets".toList none ["__proto__".toList] protoDocFS).state.log.filter
        Effect.isMutation
      = [.writeFile "assets/d41d8cd98f00b204e9800998ecf8427e.js".toList "var x;".toList,
          .unlink "assets/app.js".toList, .writeFile "0".toList "<".toList] ∧
    (run sampleExt "assets".toList none ["__proto__".toList] protoDocFS).state.fs.readFile
        "__proto__".toList
      = some "<script src=\"/assets/app.js\"></script>".toList ∧
    (run sampleExt "assets".toList none ["__proto__".toList] protoDocFS).state.fs.readFile
        "assets/app.js".toList = none := by
  decide

/-- C1 as stated fails: `a.html` and `b.html` both reference `x.js`, and `a.html` also
references a script that is named like the new name of `x.js`. The run completes and
invokes the transform once for `x.js`, but the two pages do not end with the same new
reference for it: the record of the hash-named script is materialized later and rewrites,
in `a.html` only, the reference that had just been substituted for `x.js`; `b.html` keeps
the first new reference, whose file that later record has deleted. -/
theorem C1_later_record_rewrites_new_reference :
    (run twoDigestsExt "assets".toList none ["a.html".toList, "b.html".toList]
      hashNamedFS).error? = none ∧
    transformCalls
      (run twoDigestsExt "assets".toList none ["a.html".toList, "b.html".toList]
        hashNamedFS).state.log .js "x.js".toList = 1 ∧
    (((run twoDigestsExt "assets".toList none ["a.html".toList, "b.html".toList]
        hashNamedFS).state.changes.get .js).get? "x.js".toList).map Record.htmlPaths
      = some ["a.html".toList, "b.html".toList] ∧
    (run twoDigestsExt "assets".toList none ["a.html".toList, "b.html".toList]
        hashNamedFS).state.fs.readFile "a.html".toList
      = some ("<script src=\"0cc175b9c0f1b6a831c399e269772661.js\"></script>\n"
          ++ "<script src=\"0cc175b9c0f1b6a831c399e269772661.js\"></script>").toList ∧
    (run twoDigestsExt "assets".toList none ["a.html".toList, "b.html".toList]
        hashNamedFS).state.fs.readFile "b.html".toList
      = some "<script src=\"9d00725e0b4ab0d0bd4e8d4d8c4b8f2a.js\"></script>".toList ∧
    (run twoDigestsExt "assets".toList none ["a.html".toList, "b.html".toList]
        hashNamedFS).state.fs.readFile "assets/9d00725e0b4ab0d0bd4e8d4d8c4b8f2a.js".toList
      = none := by
  decide

/-! ## Witnesses -/

/-- Witness of C1 (amended): the run over `demoFS` completes; its page `index.html`
references `/assets/app.js` twice, and ends with the new reference in both places. -/
theorem C1_witness :
    run sampleExt "assets".toList none demoPaths demoFS = .ok demoDone ∧
    "index.html".toList ∈ demoPaths ∧
    demoFS.readFile "index.html".toList = some demoPage ∧
    "/assets/app.js".toList ∈ refsOf .js demoPage ∧
    demoDone.fs.readFile "index.html".toList
      = some (("<script src=\"/assets/d41d8cd98f00b204e9800998ecf8427e.js\"></script>\n"
          ++ "<script src=\"/assets/d41d8cd98f00b204e9800998ecf8427e.js\"></script>\n"
          ++ "<link rel=\"stylesheet\" href=\"/assets/d41d8cd98f00b204e9800998ecf8427e.css\">").toList) ∧
    (transformCalls demoDone.log .js "/assets/app.js".toList = 1 ∧
      ∃ rec content, (demoDone.changes.get .js).get? "/assets/app.js".toList = some rec ∧
        "index.html".toList ∈ rec.htmlPaths ∧
        (if truthy (gzipLevel none) = true
          then sampleExt.gzipSync rec.content ((gzipLevel none).getD 0) else some rec.content)
          = some content ∧
        (dollar ∉ newReference sampleExt (gzipLevel none) "/assets/app.js".toList content
            rec.source →
          dq ∉ newReference sampleExt (gzipLevel none) "/assets/app.js".toList content
            rec.source →
          (∀ kind' ref', ((demoDone.changes.get kind').get? ref').isSome = true →
            (kind', ref') ≠ (Kind.js, "/assets/app.js".toList) →
            ref' ≠ "/assets/app.js".toList ∧
              ref' ≠ newReference sampleExt (gzipLevel none) "/assets/app.js".toList content
                rec.source) →
          ∀ d ∈ rec.htmlPaths, ∃ text, demoDone.htmlFiles.entry? d = some (text, true) ∧
            quoted (newReference sampleExt (gzipLevel none) "/assets/app.js".toList content
              rec.source) <:+: text ∧
            (d ≠ "__proto__".toList → demoDone.fs.readFile d = some text))) :=
  ⟨by decide, by decide, by decide, by decide, by decide,
    C1_transform_once_new_reference_kept sampleExt "assets".toList none demoPaths demoFS
      demoDone "index.html".toList demoPage .js "/assets/app.js".toList
      (by decide) (by decide) (by decide) (by decide)⟩

/-- Witness of C4 (amended): the reference `a.js`, the new reference `h.js` and the text
`<script src="a.js">`. -/
theorem C4_witness :
    (∀ c ∈ "a.js".toList, isRefChar c = true) ∧ dollar ∉ "h.js".toList ∧ dq ∉ "h.js".toList ∧
    ∃ re, pathRegEx "a.js".toList = some re ∧
      replace "<script src=\"a.js\">".toList re (quoted "h.js".toList)
        = litReplace (quoted "a.js".toList) (quoted "h.js".toList)
            "<script src=\"a.js\">".toList ∧
      ("h.js".toList ≠ "a.js".toList →
        ¬ (quoted "a.js".toList ++ "a.js".toList ++ [dq]) <:+: "<script src=\"a.js\">".toList →
        ¬ quoted "a.js".toList
            <:+: replace "<script src=\"a.js\">".toList re (quoted "h.js".toList)) :=
  ⟨by decide, by decide, by decide,
    C4_rewrite_replaces_scanned_occurrences "a.js".toList "h.js".toList
      "<script src=\"a.js\">".toList (by decide) (by decide) (by decide)⟩

/-- Witness of C5: rewriting `app.js` in a text that holds the longer reference
`"/assets/app.js"`. -/
theorem C5_witness :
    (∀ c ∈ "app.js".toList, isRefChar c = true) ∧
    (∀ c ∈ "/assets/app.js".toList, isRefChar c = true) ∧
    "app.js".toList <:+: "/assets/app.js".toList ∧
    "app.js".toList ≠ "/assets/app.js".toList ∧ dollar ∉ "h.js".toList ∧
    ∃ re A B, pathRegEx "app.js".toList = some re ∧
      replace ("<script src=".toList ++ quoted "/assets/app.js".toList ++ ">".toList) re
          (quoted "h.js".toList)
        = A ++ quoted "/assets/app.js".toList ++ B ∧
      replace ("<script src=".toList ++ [dq]) re (quoted "h.js".toList) = A ++ [dq] ∧
      replace (dq :: ">".toList) re (quoted "h.js".toList) = dq :: B :=
  ⟨by decide, by decide, ⟨"/assets/".toList, [], by decide⟩, by decide, by decide,
    C5_longer_reference_untouched "app.js".toList "/assets/app.js".toList "h.js".toList
      "<script src=".toList ">".toList (by decide) (by decide)
      ⟨"/assets/".toList, [], by decide⟩ (by decide) (by decide)⟩

/-- Witness of C7: the record of `/assets/app.js` after the scan of `demoFS`, at gzip level 9. -/
theorem C7_witness :
    (demoScanned.changes.get .js).get? "/assets/app.js".toList = some demoRecord ∧
    gzipLevel none = none ∧
    (((some 9 : Option Int) = none ∨ (some 9 : Option Int) = some 0) →
      (materializeRecord sampleExt (some 9) .js demoScanned "/assets/app.js".toList).state.log
        = demoScanned.log ++ [.writeFile
            (join (dirname demoRecord.source)
              (sampleExt.md5hex demoRecord.content ++ extname demoRecord.source))
            demoRecord.content, .unlink demoRecord.source]) ∧
    (∀ (n : Int) (g : Str), (some 9 : Option Int) = some n → n ≠ 0 →
      sampleExt.gzipSync demoRecord.content n = some g →
      (materializeRecord sampleExt (some 9) .js demoScanned "/assets/app.js".toList).state.log
        = demoScanned.log ++ [.writeFile
            (join (dirname demoRecord.source)
              (sampleExt.md5hex g ++ extname demoRecord.source ++ ".gz".toList))
            g, .unlink demoRecord.source]) :=
  ⟨by decide,
    C7_written_bytes_and_destination sampleExt (some 9) .js demoScanned "/assets/app.js".toList
      demoRecord (by decide)⟩

/-- Witness of C8: the image of `missingLogoFS` does not exist. The scan reaches the
reference `/assets/logo.svg` after the page was read and searched for scripts and
stylesheets; the read of `assets/logo.svg` fails and the run ends with that error, the
message naming `index.html`, the kind and the reference logged last. -/
theorem C8_witness :
    assetRegEx "assets".toList = some assetsRegEx ∧
    resolve "assets".toList assetsRegEx "/assets/logo.svg".toList = "assets/logo.svg".toList ∧
    (∃ e st, run sampleExt "assets".toList none ["index.html".toList] missingLogoFS = .fail e st ∧
      st.fs = missingLogoFS ∧ (∀ eff ∈ st.log, eff.isMutation = false) ∧
      ScanFailure sampleExt "assets".toList assetsRegEx missingLogoFS ["index.html".toList] e
        st.log) ∧
    ((missingLogoReached.fs = missingLogoFS ∧
        ∀ eff ∈ missingLogoReached.log, eff.isMutation = false) ∧
      (missingLogoFS.readFile (resolve "assets".toList assetsRegEx "/assets/logo.svg".toList)
          = none →
        run sampleExt "assets".toList none ["index.html".toList] missingLogoFS
          = .fail (.noEntry (resolve "assets".toList assetsRegEx "/assets/logo.svg".toList))
              { missingLogoReached with
                log := missingLogoReached.log ++
                  [.readFile (resolve "assets".toList assetsRegEx "/assets/logo.svg".toList),
                    .consoleError "index.html".toList .svg "/assets/logo.svg".toList] }) ∧
      (∀ c,
        missingLogoFS.readFile (resolve "assets".toList assetsRegEx "/assets/logo.svg".toList)
          = some c →
        sampleExt.minify .svg c
          (resolve "assets".toList assetsRegEx "/assets/logo.svg".toList) = none →
        run sampleExt "assets".toList none ["index.html".toList] missingLogoFS
          = .fail
              (.transformFailed .svg
                (resolve "assets".toList assetsRegEx "/assets/logo.svg".toList))
              { missingLogoReached with
                log := missingLogoReached.log ++
                  [.readFile (resolve "assets".toList assetsRegEx "/assets/logo.svg".toList),
                    .transform .svg "/assets/logo.svg".toList
                      (resolve "assets".toList assetsRegEx "/assets/logo.svg".toList),
                    .consoleError "index.html".toList .svg "/assets/logo.svg".toList] })) ∧
    missingLogoFS.readFile (resolve "assets".toList assetsRegEx "/assets/logo.svg".toList)
      = none :=
  ⟨assetRegEx_eq "assets".toList, by decide,
    (C8_failed_asset_aborts_run sampleExt "assets".toList none ["index.html".toList]
      missingLogoFS assetsRegEx (assetRegEx_eq "assets".toList)).1
      "index.html".toList "<img src=\"/assets/logo.svg\">".toList .svg "/assets/logo.svg".toList
      (by decide) (by decide) (by decide) (Or.inl (by decide)),
    (C8_failed_asset_aborts_run sampleExt "assets".toList none ["index.html".toList]
      missingLogoFS assetsRegEx (assetRegEx_eq "assets".toList)).2.1
      [] [] "index.html".toList "<img src=\"/assets/logo.svg\">".toList [.js, .css] [] .svg
      [] [] "/assets/logo.svg".toList (State.init missingLogoFS) missingLogoReached
      missingLogoReached (by decide) (by decide) (by decide) (by decide) (by decide) (by decide)
      (by decide) (by decide),
    by decide⟩

/-- Witness of C10 (amended): the asset directory `public/assets` and the reference
`/assets/js/app.js`. -/
theorem C10_witness :
    assetRegEx "public/assets".toList = some assetsRegEx ∧
    (∀ s ∈ ["js".toList], plainSegment s = true) ∧ plainSegment "app.js".toList = true ∧
    ("d41d8cd98f00b204e9800998ecf8427e".toList ≠ [] ∧
      ∀ c ∈ "d41d8cd98f00b204e9800998ecf8427e".toList, isHexDigit c = true) ∧
    (∀ c ∈ ".js".toList, isSegChar c = true) ∧
    ("/assets/js/app.js".toList = joinSlash (["js".toList] ++ ["app.js".toList]) ∨
      (plainSegment (basename "public/assets".toList) = true ∧
        "/assets/js/app.js".toList
          = '/' :: basename "public/assets".toList
              ++ '/' :: joinSlash (["js".toList] ++ ["app.js".toList]))) ∧
    resolve "public/assets".toList assetsRegEx
        (slash (join (dirname "/assets/js/app.js".toList)
          ("d41d8cd98f00b204e9800998ecf8427e".toList ++ ".js".toList)))
      = join (dirname (resolve "public/assets".toList assetsRegEx "/assets/js/app.js".toList))
          ("d41d8cd98f00b204e9800998ecf8427e".toList ++ ".js".toList) :=
  ⟨assetRegEx_eq "public/assets".toList, by decide, by decide, by decide, by decide,
    Or.inr ⟨by decide, by decide⟩,
    C10_new_reference_resolves_to_destination "public/assets".toList assetsRegEx
      ["js".toList] "app.js".toList "d41d8cd98f00b204e9800998ecf8427e".toList ".js".toList
      "/assets/js/app.js".toList (assetRegEx_eq "public/assets".toList) (by decide) (by decide)
      (by decide) (by decide) (Or.inr ⟨by decide, by decide⟩)⟩

end Bundler
